import Mathlib

/-!
# generic_skiplist.h: a heap-level model of the skip list

The C header keeps one circular doubly-linked list per level.  A link is
addressed here by its owner (the list header or a node) and its index in the
owner's link array (`head[i]` or `link[i]`); `pos--` lowers the index and keeps
the owner, which is what the pointer arithmetic of the source does.  The heap
is a pair of total maps `next`, `prev` on links.  Keys and values are opaque
references (`void*`), modelled as natural numbers; the comparator is the
function pointer stored in the header.

Three fields of `State` are bookkeeping that the C program does not store:
`size` (the number of link slots a node was allocated with), `nalloc` (how many
nodes `malloc` has handed out; the next node handle) and `freed` (the nodes
passed to `free`, most recent first).  No operation of the list reads them;
the model of `skiplist_free` consults `freed` only to detect a read of memory
that was already freed.

`int` fields and locals are unbounded integers: no operation of the header
comes near the range of `int` unless more than `2^31` entries are stored or
`2^31 - 1` draws of `random()` in a row pass the promotion test.

The scans of the source are loops over pointers; here each takes a bound on
its number of steps (`fuel`) and reports `Fault.fuel` when the bound is hit.
`Fault.uninit` is a read of the local `node` of `skiplist_search` before any
assignment to it, `Fault.wild` an application of `list_entry` to a pointer that
is not the link `link[i]` of a node, `Fault.dangling` a read by `skiplist_free`
of a link that lies in a node already passed to `free`.

The header presupposes a comparator that is a consistent total preorder
(`TotalPreorder`); the theorems about reachable states carry that hypothesis.
-/

namespace Skiplist

/-! ## The program -/

/-- The constant `MAX_LEVEL` of the header. -/
def MAX_LEVEL : Nat := 32

/-- The object a link slot lives in: the list header or a node handle. -/
inductive Owner where
  | head : Owner
  | node : Nat → Owner
  deriving DecidableEq, Repr

/-- A pointer to a link slot, `&list->head[idx]` or `&node->link[idx]`. -/
structure Link where
  owner : Owner
  idx : Int
  deriving DecidableEq, Repr

/-- The pointer `pos - 1` (the statement `pos--`). -/
def Link.dec (l : Link) : Link := ⟨l.owner, l.idx - 1⟩

/-- Ways an execution can leave the defined behaviour of the model. -/
inductive Fault where
  | fuel : Fault
  | uninit : Fault
  | wild : Fault
  | dangling : Fault
  deriving DecidableEq, Repr

/-- The header `skiplist_t`, the link heap and the node fields. -/
structure State where
  level : Int
  count : Int
  comp : Nat → Nat → Int
  next : Link → Link
  prev : Link → Link
  key : Nat → Nat
  value : Nat → Nat
  size : Nat → Nat
  nalloc : Nat
  freed : List Nat

/-- The assignment `l->next = v`. -/
def setNext (s : State) (l v : Link) : State :=
  { s with next := fun x => if x = l then v else s.next x }

/-- The assignment `l->prev = v`. -/
def setPrev (s : State) (l v : Link) : State :=
  { s with prev := fun x => if x = l then v else s.prev x }

/-- Source `__skiplist_link_init`: `link->prev = link; link->next = link;`. -/
def __skiplist_link_init (s : State) (link : Link) : State :=
  setNext (setPrev s link link) link link

/-- Source `__skiplist_link_add`: four assignments, in the order of the source. -/
def __skiplist_link_add (s : State) (link prev next : Link) : State :=
  let s1 := setNext s link next
  let s2 := setPrev s1 link prev
  let s3 := setPrev s2 next link
  setNext s3 prev link

/-- Source `__skiplist_link_del`: each right-hand side is read from the heap
as it is when its statement runs. -/
def __skiplist_link_del (s : State) (link : Link) : State :=
  let s1 := setNext s (s.prev link) (s.next link)
  let s2 := setPrev s1 (s1.next link) (s1.prev link)
  __skiplist_link_init s2 link

/-- Source `__skiplist_list_empty`: `link->next == link`. -/
def __skiplist_list_empty (s : State) (link : Link) : Bool :=
  decide (s.next link = link)

/-- The macro `list_entry(pos, skipnode_t, link[i])`: the node whose `link[i]`
is `pos`.  Applied to any other pointer the macro yields a wild pointer. -/
def list_entry (pos : Link) (i : Nat) : Option Nat :=
  match pos.owner with
  | Owner.node n => if pos.idx = (i : Int) then some n else none
  | Owner.head => none

/-- The loop `for (i = 0; i < n; i++) __skiplist_link_init(&owner[i])`, as the
state after its first `n` iterations. -/
def init_links (s : State) (o : Owner) : Nat → State
  | 0 => s
  | i + 1 => __skiplist_link_init (init_links s o i) ⟨o, (i : Int)⟩

/-- Source `skipnode_new`.  A successful `malloc` hands out the handle
`s.nalloc`; the fresh memory holds whatever the heap maps held there. -/
def skipnode_new (s : State) (level : Int) (key value : Nat) (mallocOk : Bool) :
    State × Option Nat :=
  if mallocOk then
    let node := s.nalloc
    let s1 : State :=
      { s with
        nalloc := s.nalloc + 1
        size := fun n => if n = node then level.toNat else s.size n
        key := fun n => if n = node then key else s.key n
        value := fun n => if n = node then value else s.value n }
    (init_links s1 (Owner.node node) level.toNat, some node)
  else (s, none)

/-- Source `skipnode_free`. -/
def skipnode_free (s : State) (node : Nat) : State :=
  { s with freed := node :: s.freed }

/-- The value of a link slot that was never written. -/
def wildLink : Link := ⟨Owner.head, -1⟩

/-- Source `skiplist_new`, `NULL` when `malloc` fails. -/
def skiplist_new (compf : Nat → Nat → Int) (mallocOk : Bool) : Option State :=
  if mallocOk then
    let s0 : State :=
      { level := 1
        count := 0
        comp := compf
        next := fun _ => wildLink
        prev := fun _ => wildLink
        key := fun _ => 0
        value := fun _ => 0
        size := fun _ => 0
        nalloc := 0
        freed := [] }
    some (init_links s0 Owner.head MAX_LEVEL)
  else none

/-- The scan `skiplist_foreach(pos, end)` of `skiplist_search` at level `i`,
returning `end` and `node` as they are when the scan is left. -/
def search_scan (s : State) (key : Nat) (i : Nat) :
    Nat → Link → Link → Option Nat → Except Fault (Link × Option Nat)
  | 0, _, _, _ => Except.error Fault.fuel
  | f + 1, pos, end_, node =>
    if pos = end_ then Except.ok (end_, node)
    else
      match list_entry pos i with
      | none => Except.error Fault.wild
      | some nd =>
        if s.comp (s.key nd) key ≥ 0 then Except.ok (⟨Owner.node nd, (i : Int)⟩, some nd)
        else search_scan s key i f (s.next pos) end_ (some nd)

/-- The loop `for (; i >= 0; i--)` of `skiplist_search`; the first argument is
`i + 1`, so the pattern `i + 1` binds the `i` of the source.  `node` is `none`
until the first assignment; reading it then is the fault `uninit`. -/
def search_levels (s : State) (key : Nat) (fuel : Nat) :
    Nat → Link → Link → Option Nat → Except Fault (Option Nat)
  | 0, _, _, _ => Except.ok none
  | i + 1, pos, end_, node =>
    match search_scan s key i fuel (s.next pos) end_ node with
    | Except.error e => Except.error e
    | Except.ok (end1, node1) =>
      match node1 with
      | none => Except.error Fault.uninit
      | some nd =>
        if s.comp (s.key nd) key = 0 then Except.ok (some nd)
        else search_levels s key fuel i (s.prev end1).dec end1.dec node1

/-- Source `skiplist_search`; `fuel` bounds the steps of each scan. -/
def skiplist_search (fuel : Nat) (s : State) (key : Nat) : Except Fault (Option Nat) :=
  search_levels s key fuel s.level.toNat
    ⟨Owner.head, s.level - 1⟩ ⟨Owner.head, s.level - 1⟩ none

/-- The inner `for (; pos != end; pos = pos->next)` of `skiplist_insert` at
level `i`, returning `end`. -/
def insert_scan (s : State) (key : Nat) (i : Nat) : Nat → Link → Link → Except Fault Link
  | 0, _, _ => Except.error Fault.fuel
  | f + 1, pos, end_ =>
    if pos = end_ then Except.ok end_
    else
      match list_entry pos i with
      | none => Except.error Fault.wild
      | some nd =>
        if s.comp (s.key nd) key ≥ 0 then Except.ok ⟨Owner.node nd, (i : Int)⟩
        else insert_scan s key i f (s.next pos) end_

/-- The loop `for (; i >= 0; i--)` of `skiplist_insert`, first argument `i + 1`. -/
def insert_levels (key node : Nat) (level : Int) (fuel : Nat) :
    Nat → State → Link → Link → Except Fault State
  | 0, s, _, _ => Except.ok s
  | i + 1, s, pos, end_ =>
    match insert_scan s key i fuel (s.next pos) end_ with
    | Except.error e => Except.error e
    | Except.ok end1 =>
      let pos1 := s.prev end1
      let s1 := if (i : Int) < level then __skiplist_link_add s ⟨Owner.node node, (i : Int)⟩ pos1 end1
                else s
      insert_levels key node level fuel i s1 pos1.dec end1.dec

/-- Source `skiplist_insert`.  `level` is the value `__skiplist_random_level()`
returned, `mallocOk` whether the allocation in `skipnode_new` succeeded. -/
def skiplist_insert (fuel : Nat) (s : State) (key value : Nat) (level : Int)
    (mallocOk : Bool) : Except Fault (State × Option Nat) :=
  let s1 := if level > s.level then { s with level := level } else s
  match skipnode_new s1 level key value mallocOk with
  | (s2, none) => Except.ok (s2, none)
  | (s2, some node) =>
    match insert_levels key node level fuel s2.level.toNat s2
        ⟨Owner.head, s2.level - 1⟩ ⟨Owner.head, s2.level - 1⟩ with
    | Except.error e => Except.error e
    | Except.ok s3 => Except.ok ({ s3 with count := s3.count + 1 }, some node)

/-- Source `skiplist_size`. -/
def skiplist_size (s : State) : Int := s.count

/-- The loop of `__skiplist_remove_node`, as the state after its first `n`
iterations (`i = 0 .. n - 1`). -/
def remove_node_links (node : Nat) (s : State) : Nat → State
  | 0 => s
  | i + 1 =>
    let s1 := remove_node_links node s i
    let s2 := __skiplist_link_del s1 ⟨Owner.node node, (i : Int)⟩
    if __skiplist_list_empty s2 ⟨Owner.head, (i : Int)⟩ then { s2 with level := s2.level - 1 }
    else s2

/-- Source `__skiplist_remove_node`. -/
def __skiplist_remove_node (s : State) (node : Nat) (level : Nat) : State :=
  let s1 := remove_node_links node s level
  let s2 := skipnode_free s1 node
  { s2 with count := s2.count - 1 }

/-- The scan `skiplist_foreach_safe(pos, n, end)` of `skiplist_remove` at level
`i`, returning the state and `end` when the scan is left. -/
def remove_scan (key : Nat) (i : Nat) :
    Nat → State → Link → Link → Link → Except Fault (State × Link)
  | 0, _, _, _, _ => Except.error Fault.fuel
  | f + 1, s, pos, n, end_ =>
    if pos = end_ then Except.ok (s, end_)
    else
      match list_entry pos i with
      | none => Except.error Fault.wild
      | some nd =>
        if s.comp (s.key nd) key > 0 then Except.ok (s, ⟨Owner.node nd, (i : Int)⟩)
        else
          let s1 := if s.comp (s.key nd) key = 0 then __skiplist_remove_node s nd (i + 1) else s
          remove_scan key i f s1 n (s1.next n) end_

/-- The loop `for (; i >= 0; i--)` of `skiplist_remove`, first argument `i + 1`. -/
def remove_levels (key : Nat) (fuel : Nat) : Nat → State → Link → Link → Except Fault State
  | 0, s, _, _ => Except.ok s
  | i + 1, s, pos, end_ =>
    match remove_scan key i fuel s (s.next pos) (s.next (s.next pos)) end_ with
    | Except.error e => Except.error e
    | Except.ok (s1, end1) => remove_levels key fuel i s1 (s1.prev end1).dec end1.dec

/-- Source `skiplist_remove`; `fuel` bounds the steps of each scan. -/
def skiplist_remove (fuel : Nat) (s : State) (key : Nat) : Except Fault State :=
  remove_levels key fuel s.level.toNat s
    ⟨Owner.head, s.level - 1⟩ ⟨Owner.head, s.level - 1⟩

/-- The read `l->next` in `skiplist_free`, a fault when `l` lies in a node that
was already passed to `free`. -/
def load_next (s : State) (l : Link) : Except Fault Link :=
  match l.owner with
  | Owner.node n => if n ∈ s.freed then Except.error Fault.dangling else Except.ok (s.next l)
  | Owner.head => Except.ok (s.next l)

/-- The loop `skiplist_foreach_safe(pos, n, &list->head[0])` of `skiplist_free`:
the body frees the node of `pos`, then `pos = n, n = pos->next`. -/
def free_scan : Nat → State → Link → Link → Link → Except Fault State
  | 0, _, _, _, _ => Except.error Fault.fuel
  | f + 1, s, pos, n, end_ =>
    if pos = end_ then Except.ok s
    else
      match list_entry pos 0 with
      | none => Except.error Fault.wild
      | some node =>
        let s1 := skipnode_free s node
        match load_next s1 n with
        | Except.error e => Except.error e
        | Except.ok n1 => free_scan f s1 n n1 end_

/-- Source `skiplist_free`, returning the state in which `free(list)` is
called: the pass over level 0 is over and `freed` lists the nodes it freed. -/
def skiplist_free (fuel : Nat) (s : State) : Except Fault State :=
  let pos := s.next ⟨Owner.head, 0⟩
  match load_next s pos with
  | Except.error e => Except.error e
  | Except.ok n => free_scan fuel s pos n ⟨Owner.head, 0⟩

/-- The promotion test `(random() & 0xffff) < 0xffff * p` with `p = 0.5`, for
the value `r` that `random()` returned.  Both sides are exact in `double`
(the left side is an integer below `2^16`, the right side is `32767.5`), so the
comparison is the comparison of rationals. -/
def promotes (r : Nat) : Bool :=
  decide ((((r &&& 0xffff : Nat) : ℚ)) < (0xffff : ℚ) * (1 / 2 : ℚ))

/-- The loop `while (promotion test) level++`, reading its draws from the
list; `Fault.fuel` when the list ends before a draw fails the test.  `level`
is an unbounded integer: the `int` of the source holds it unless `2^31 - 1`
draws in a row pass the test. -/
def random_level_loop : Int → List Nat → Except Fault Int
  | _, [] => Except.error Fault.fuel
  | level, r :: rs =>
    if promotes r then random_level_loop (level + 1) rs else Except.ok level

/-- Source `__skiplist_random_level`, the calls of `random()` returning the
numbers of `draws` in turn. -/
def __skiplist_random_level (draws : List Nat) : Except Fault Int :=
  match random_level_loop 1 draws with
  | Except.error e => Except.error e
  | Except.ok level => Except.ok (if level > (MAX_LEVEL : Int) then (MAX_LEVEL : Int) else level)

/-! ## The vocabulary of the specification -/

/-- Owners `a`, `b` are neighbours on level `i`: `a`'s `next` is `b` and `b`'s
`prev` is `a`. -/
def Adj (s : State) (i : Nat) (a b : Owner) : Prop :=
  s.next ⟨a, (i : Int)⟩ = ⟨b, (i : Int)⟩ ∧ s.prev ⟨b, (i : Int)⟩ = ⟨a, (i : Int)⟩

instance (s : State) (i : Nat) : DecidableRel (Adj s i) := fun a b =>
  inferInstanceAs (Decidable (s.next ⟨a, (i : Int)⟩ = ⟨b, (i : Int)⟩ ∧
    s.prev ⟨b, (i : Int)⟩ = ⟨a, (i : Int)⟩))

/-- The owners met on a full turn of a level's circular list that holds the
nodes `l`: the sentinel, the nodes, the sentinel again. -/
def chainOf (l : List Nat) : List Owner :=
  Owner.head :: (l.map Owner.node ++ [Owner.head])

/-- The circular list of level `i` reads `l` from the sentinel's `next` back
to the sentinel, and its `prev` pointers mirror its `next` pointers. -/
def Ring (s : State) (i : Nat) (l : List Nat) : Prop :=
  List.Chain' (Adj s i) (chainOf l)

/-- A walk along `next` from owner `a` through the owners `l`, checking the
`prev` pointers on the way. -/
def walkB (s : State) (i : Nat) : Owner → List Owner → Bool
  | _, [] => true
  | a, b :: l => decide (Adj s i a b) && walkB s i b l

instance (s : State) (i : Nat) (l : List Nat) : Decidable (Ring s i l) :=
  decidable_of_iff (walkB s i Owner.head (l.map Owner.node ++ [Owner.head]) = true) (by
    show _ ↔ List.Chain (Adj s i) Owner.head (l.map Owner.node ++ [Owner.head])
    generalize l.map Owner.node ++ [Owner.head] = c
    generalize Owner.head = a
    induction c generalizing a with
    | nil => simp [walkB]
    | cons b c ih => simp [walkB, ih])

/-- The nodes of `l` that have a link slot at level `i`, `sz` giving each
node's number of link slots. -/
def lev (sz : Nat → Nat) (i : Nat) (l : List Nat) : List Nat :=
  l.filter (fun n => decide (i < sz n))

/-- The owner of the last link of `head, l`. -/
def lastO : List Nat → Owner
  | [] => Owner.head
  | [x] => Owner.node x
  | _ :: y :: l => lastO (y :: l)

/-- The owner of the first link of `l, head`. -/
def firstO : List Nat → Owner
  | [] => Owner.head
  | x :: _ => Owner.node x

/-- The largest number of link slots among the nodes of `l` (`0` for none). -/
def maxSize (sz : Nat → Nat) : List Nat → Nat
  | [] => 0
  | n :: l => max (sz n) (maxSize sz l)

/-- A comparator in the sense of `skiplist_node_compare_t` that is a consistent
total preorder: the sign of `cmp b a` is opposite to the sign of `cmp a b`, and
`cmp a b ≤ 0` is transitive. -/
structure TotalPreorder (cmp : Nat → Nat → Int) : Prop where
  antisymm : ∀ a b, cmp a b < 0 ↔ 0 < cmp b a
  trans : ∀ a b c, cmp a b ≤ 0 → cmp b c ≤ 0 → cmp a c ≤ 0

/-- The list is in non-decreasing key order. -/
def SortedBy (cmp : Nat → Nat → Int) (key : Nat → Nat) (l : List Nat) : Prop :=
  l.Pairwise (fun a b => cmp (key a) (key b) ≤ 0)

instance (cmp : Nat → Nat → Int) (key : Nat → Nat) (l : List Nat) :
    Decidable (SortedBy cmp key l) :=
  inferInstanceAs (Decidable (l.Pairwise (fun a b => cmp (key a) (key b) ≤ 0)))

/-- State `s` holds exactly the nodes `l`, in this order on level 0, and every
level `i` holds the nodes of `l` with more than `i` link slots. -/
structure Inv (s : State) (l : List Nat) : Prop where
  rings : ∀ i, i < MAX_LEVEL → Ring s i (lev s.size i l)
  nodup : l.Nodup
  sorted : SortedBy s.comp s.key l
  newest : l.Pairwise (fun a b => s.comp (s.key a) (s.key b) = 0 → b < a)
  size_pos : ∀ n ∈ l, 0 < s.size n
  size_le : ∀ n ∈ l, s.size n ≤ MAX_LEVEL
  level_eq : l ≠ [] → s.level = (maxSize s.size l : Int)
  level_empty : l = [] → s.level = 0 ∨ (s.level = 1 ∧ s.nalloc = 0)
  count_eq : s.count = (l.length : Int)
  alloc : ∀ n ∈ l, n < s.nalloc
  live : ∀ n, n < s.nalloc → n ∉ s.freed → n ∈ l
  notfreed : ∀ n ∈ l, n ∉ s.freed
  freed_alloc : ∀ n ∈ s.freed, n < s.nalloc
  total : s.nalloc = l.length + s.freed.length

/-- The rings in the middle of an insertion of node `n` between the nodes `A`
and the nodes `B`: the levels from `c` upwards already hold `n`. -/
def MidRings (s : State) (sz : Nat → Nat) (A B : List Nat) (n c : Nat) : Prop :=
  ∀ j, j < MAX_LEVEL →
    Ring s j (lev sz j A ++ ((if c ≤ j then lev sz j [n] else []) ++ lev sz j B))

/-- The list after inserting node `n` with key `k`: before the first entry
that is not below `k`. -/
def insertAt (cmp : Nat → Nat → Int) (key : Nat → Nat) (k n : Nat) (l : List Nat) : List Nat :=
  l.takeWhile (fun x => decide (cmp (key x) k < 0)) ++
    n :: l.dropWhile (fun x => decide (cmp (key x) k < 0))

/-- The entries left when the level loop of `skiplist_remove` is about to run
level `c - 1`: those equal to `k` with more than `c` link slots are gone. -/
def pending (cmp : Nat → Nat → Int) (key sz : Nat → Nat) (k c : Nat) (l0 : List Nat) : List Nat :=
  l0.filter (fun x => !(decide (cmp (key x) k = 0) && decide (c < sz x)))

/-- The states a client can reach: `skiplist_new`, then any successful
`skiplist_insert` (drawn level in `1 .. MAX_LEVEL`) and any `skiplist_remove`.
A call counts when it returns for some bound on the steps of its scans. -/
inductive Reachable (cmp : Nat → Nat → Int) : State → Prop where
  | new (s : State) : skiplist_new cmp true = some s → Reachable cmp s
  | insert (s s1 : State) (fuel k v : Nat) (L : Int) (n : Nat) :
      Reachable cmp s → 1 ≤ L → L ≤ (MAX_LEVEL : Int) →
      skiplist_insert fuel s k v L true = Except.ok (s1, some n) → Reachable cmp s1
  | remove (s s1 : State) (fuel k : Nat) :
      Reachable cmp s → skiplist_remove fuel s k = Except.ok s1 → Reachable cmp s1

/-- The comparator of the test driver on keys read as integers: `a - b`. -/
def cmpInt (a b : Nat) : Int := (a : Int) - (b : Int)

/-- The list `skiplist_new` returns when its allocation succeeds. -/
def fresh (cmp : Nat → Nat → Int) : State := (skiplist_new cmp true).get rfl

/-- The state after a successful `skiplist_insert`; the state itself if the
call does not return. -/
def insertD (fuel : Nat) (s : State) (k v : Nat) (L : Int) : State :=
  match skiplist_insert fuel s k v L true with
  | Except.ok (s1, _) => s1
  | Except.error _ => s

/-- The state after `skiplist_remove`; the state itself if the call does not
return. -/
def removeD (fuel : Nat) (s : State) (k : Nat) : State :=
  match skiplist_remove fuel s k with
  | Except.ok s1 => s1
  | Except.error _ => s

/-- The list holding key 5 (value 50, one level). -/
def one5 : State := insertD 8 (fresh cmpInt) 5 50 1

/-- The list holding keys 3 (two levels), 5 and 7 (one level each), inserted in
the order 5, 3, 7. -/
def three357 : State := insertD 8 (insertD 8 one5 3 30 2) 7 70 1

/-- The list after inserting key 5 twice (values 50 and 51, one level each). -/
def two55 : State := insertD 8 one5 5 51 1

/-- Successive successful calls `skiplist_insert(list, k, v)`, one for each
triple of a key, a value and a drawn level. -/
def insert_all (fuel : Nat) : State → List (Nat × Nat × Int) → Except Fault State
  | s, [] => Except.ok s
  | s, (k, v, L) :: rest =>
    match skiplist_insert fuel s k v L true with
    | Except.ok (s1, _) => insert_all fuel s1 rest
    | Except.error e => Except.error e

/-- Successive calls `skiplist_remove(list, k)`, one for each key of the list. -/
def remove_all (fuel : Nat) : State → List Nat → Except Fault State
  | s, [] => Except.ok s
  | s, k :: rest =>
    match skiplist_remove fuel s k with
    | Except.ok s1 => remove_all fuel s1 rest
    | Except.error e => Except.error e

/-- The state `skiplist_insert` leaves when its allocation fails. -/
def failedInsert (fuel : Nat) (s : State) (k v : Nat) (L : Int) : State :=
  match skiplist_insert fuel s k v L false with
  | Except.ok (s1, _) => s1
  | Except.error _ => s

/-- The scan of `skiplist_search` at level `i`, returning `end` and the node at
which the scan stopped with key `≥ key` on this level, if it stopped at one. -/
def search_scan_hit (s : State) (key : Nat) (i : Nat) :
    Nat → Link → Link → Except Fault (Link × Option Nat)
  | 0, _, _ => Except.error Fault.fuel
  | f + 1, pos, end_ =>
    if pos = end_ then Except.ok (end_, none)
    else
      match list_entry pos i with
      | none => Except.error Fault.wild
      | some nd =>
        if s.comp (s.key nd) key ≥ 0 then Except.ok (⟨Owner.node nd, (i : Int)⟩, some nd)
        else search_scan_hit s key i f (s.next pos) end_

/-- The level loop of the variant of `skiplist_search` described in the claim:
equality is tested only against a node found on the current level with key
`≥ key`; when the scan of a level finds none, the loop descends without a test. -/
def search_levels_current (s : State) (key : Nat) (fuel : Nat) :
    Nat → Link → Link → Except Fault (Option Nat)
  | 0, _, _ => Except.ok none
  | i + 1, pos, end_ =>
    match search_scan_hit s key i fuel (s.next pos) end_ with
    | Except.error e => Except.error e
    | Except.ok (end1, hit) =>
      match hit with
      | some nd =>
        if s.comp (s.key nd) key = 0 then Except.ok (some nd)
        else search_levels_current s key fuel i (s.prev end1).dec end1.dec
      | none => search_levels_current s key fuel i (s.prev end1).dec end1.dec

/-- The variant of `skiplist_search` described in the claim (not in the
source): as `skiplist_search`, without the test on a node left over from an
earlier iteration. -/
def skiplist_search_current (fuel : Nat) (s : State) (key : Nat) : Except Fault (Option Nat) :=
  search_levels_current s key fuel s.level.toNat
    ⟨Owner.head, s.level - 1⟩ ⟨Owner.head, s.level - 1⟩

/-! ## Heap updates -/

@[simp] theorem setNext_next (s : State) (l v x : Link) :
    (setNext s l v).next x = if x = l then v else s.next x := rfl

@[simp] theorem setNext_prev (s : State) (l v : Link) : (setNext s l v).prev = s.prev := rfl

@[simp] theorem setPrev_prev (s : State) (l v x : Link) :
    (setPrev s l v).prev x = if x = l then v else s.prev x := rfl

@[simp] theorem setPrev_next (s : State) (l v : Link) : (setPrev s l v).next = s.next := rfl

theorem link_mk_ne_idx {a b : Owner} {i j : Int} (h : i ≠ j) : (⟨a, i⟩ : Link) ≠ ⟨b, j⟩ := by
  intro e
  exact h (congrArg Link.idx e)

theorem link_mk_ne_owner {a b : Owner} {i j : Int} (h : a ≠ b) : (⟨a, i⟩ : Link) ≠ ⟨b, j⟩ := by
  intro e
  exact h (congrArg Link.owner e)

@[simp] theorem link_dec_succ (o : Owner) (i : Nat) :
    (Link.dec ⟨o, ((i + 1 : Nat) : Int)⟩) = ⟨o, (i : Int)⟩ := by
  simp [Link.dec]

theorem link_add_next (s : State) (l p n x : Link) :
    (__skiplist_link_add s l p n).next x =
      if x = p then l else if x = l then n else s.next x := by
  simp [__skiplist_link_add]

theorem link_add_prev (s : State) (l p n x : Link) :
    (__skiplist_link_add s l p n).prev x =
      if x = n then l else if x = l then p else s.prev x := by
  simp [__skiplist_link_add]

theorem link_init_next (s : State) (l x : Link) :
    (__skiplist_link_init s l).next x = if x = l then l else s.next x := by
  simp [__skiplist_link_init]

theorem link_init_prev (s : State) (l x : Link) :
    (__skiplist_link_init s l).prev x = if x = l then l else s.prev x := by
  simp [__skiplist_link_init]

theorem link_del_next (s : State) (l x : Link) :
    (__skiplist_link_del s l).next x =
      if x = l then l else if x = s.prev l then s.next l else s.next x := by
  simp [__skiplist_link_del, __skiplist_link_init]

theorem link_del_prev (s : State) (l x : Link) :
    (__skiplist_link_del s l).prev x =
      if x = l then l else if x = s.next l then s.prev l else s.prev x := by
  simp [__skiplist_link_del, __skiplist_link_init]

/-! ## Chains of neighbours -/

theorem chain_frame (s t : State) (i : Nat) :
    ∀ (c : List Owner), List.Chain' (Adj s i) c →
      (∀ a ∈ c.dropLast, t.next ⟨a, (i : Int)⟩ = s.next ⟨a, (i : Int)⟩) →
      (∀ b ∈ c.tail, t.prev ⟨b, (i : Int)⟩ = s.prev ⟨b, (i : Int)⟩) →
      List.Chain' (Adj t i) c
  | [], _, _, _ => List.chain'_nil
  | [a], _, _, _ => List.chain'_singleton a
  | a :: b :: c, h, hn, hp => by
    rw [List.chain'_cons] at h ⊢
    refine ⟨?_, chain_frame s t i (b :: c) h.2 ?_ ?_⟩
    · unfold Adj
      rw [hn a (by simp), hp b (by simp)]
      exact h.1
    · intro x hx
      exact hn x (by simp [List.dropLast]; right; simpa using hx)
    · intro x hx
      exact hp x (by simp at hx ⊢; right; exact hx)

theorem ring_congr (s t : State) (i : Nat) (l : List Nat)
    (hn : ∀ a, t.next ⟨a, (i : Int)⟩ = s.next ⟨a, (i : Int)⟩)
    (hp : ∀ a, t.prev ⟨a, (i : Int)⟩ = s.prev ⟨a, (i : Int)⟩)
    (h : Ring s i l) : Ring t i l :=
  chain_frame s t i _ h (fun a _ => hn a) (fun a _ => hp a)

theorem lastO_split (X : List Nat) :
    ∃ xs, Owner.head :: X.map Owner.node = xs ++ [lastO X] := by
  induction X using List.reverseRecOn with
  | nil => exact ⟨[], rfl⟩
  | append_singleton X x _ =>
    refine ⟨Owner.head :: X.map Owner.node, ?_⟩
    have : lastO (X ++ [x]) = Owner.node x := by
      clear * -
      induction X with
      | nil => rfl
      | cons a X ih =>
        cases X with
        | nil => rfl
        | cons b X => simpa [lastO] using ih
    simp [this]

theorem firstO_split (Y : List Nat) :
    ∃ ys, Y.map Owner.node ++ [Owner.head] = firstO Y :: ys := by
  cases Y with
  | nil => exact ⟨[], rfl⟩
  | cons y Y => exact ⟨Y.map Owner.node ++ [Owner.head], rfl⟩

theorem lastO_cases (X : List Nat) : lastO X = Owner.head ∨ ∃ x ∈ X, lastO X = Owner.node x := by
  obtain ⟨xs, h⟩ := lastO_split X
  have hm : lastO X ∈ Owner.head :: X.map Owner.node := by rw [h]; simp
  rcases List.mem_cons.1 hm with h1 | h1
  · exact Or.inl h1
  · obtain ⟨x, hx, e⟩ := List.mem_map.1 h1
    exact Or.inr ⟨x, hx, e.symm⟩

theorem firstO_cases (Y : List Nat) :
    (Y = [] ∧ firstO Y = Owner.head) ∨ ∃ y Y1, Y = y :: Y1 ∧ firstO Y = Owner.node y := by
  cases Y with
  | nil => exact Or.inl ⟨rfl, rfl⟩
  | cons y Y => exact Or.inr ⟨y, Y, rfl, rfl⟩

theorem lastO_append_cons (X : List Nat) (x : Nat) (Y : List Nat) :
    lastO (X ++ x :: Y) = lastO (x :: Y) := by
  induction X with
  | nil => rfl
  | cons a X ih =>
    cases X with
    | nil => simp [lastO]
    | cons b X => simpa [lastO] using ih

theorem lastO_concat (X : List Nat) (x : Nat) : lastO (X ++ [x]) = Owner.node x := by
  rw [lastO_append_cons]; rfl

theorem chainOf_append (X Y : List Nat) :
    ∃ xs ys, Owner.head :: X.map Owner.node = xs ++ [lastO X] ∧
      Y.map Owner.node ++ [Owner.head] = firstO Y :: ys ∧
      chainOf (X ++ Y) = xs ++ lastO X :: firstO Y :: ys := by
  obtain ⟨xs, hx⟩ := lastO_split X
  obtain ⟨ys, hy⟩ := firstO_split Y
  refine ⟨xs, ys, hx, hy, ?_⟩
  have : chainOf (X ++ Y) = (Owner.head :: X.map Owner.node) ++ (Y.map Owner.node ++ [Owner.head]) := by
    simp [chainOf]
  rw [this, hx, hy]; simp

/-- Neighbouring positions of a ring are neighbours in the heap. -/
theorem ring_adj (s : State) (i : Nat) (X Y : List Nat) (h : Ring s i (X ++ Y)) :
    Adj s i (lastO X) (firstO Y) := by
  obtain ⟨xs, ys, _, _, hc⟩ := chainOf_append X Y
  unfold Ring at h
  rw [hc] at h
  have h2 := (List.chain'_split.1 h).2
  exact (List.chain'_cons.1 h2).1

theorem node_injective : Function.Injective Owner.node := fun _ _ h => Owner.node.inj h

theorem head_not_mem_map (X : List Nat) : Owner.head ∉ X.map Owner.node := by
  simp

/-- Side conditions shared by the insertion and deletion lemmas. -/
theorem split_side (X Y : List Nat) (xs ys : List Owner) (hnd : (X ++ Y).Nodup)
    (hx : Owner.head :: X.map Owner.node = xs ++ [lastO X])
    (hy : Y.map Owner.node ++ [Owner.head] = firstO Y :: ys) :
    (∀ a ∈ xs, a ≠ lastO X) ∧ (∀ b ∈ (xs ++ [lastO X]).tail, b ≠ firstO Y) ∧
    (∀ a ∈ (firstO Y :: ys).dropLast, a ≠ lastO X) ∧ (∀ b ∈ ys, b ≠ firstO Y) := by
  have hXn : X.Nodup := (List.nodup_append.1 hnd).1
  have hYn : Y.Nodup := (List.nodup_append.1 hnd).2.1
  have hdis : ∀ a, a ∈ X → a ∈ Y → False := fun a ha hb => (List.nodup_append.1 hnd).2.2 ha hb
  have n1 : (xs ++ [lastO X]).Nodup := by
    rw [← hx]
    exact List.nodup_cons.2 ⟨head_not_mem_map X, hXn.map node_injective⟩
  have n2 : (firstO Y :: ys).Nodup := by
    rw [← hy]
    refine List.nodup_append.2 ⟨hYn.map node_injective, by simp, ?_⟩
    intro a ha hb
    simp at hb
    subst hb
    exact head_not_mem_map Y ha
  refine ⟨?_, ?_, ?_, ?_⟩
  · intro a ha e
    subst e
    exact (List.nodup_append.1 n1).2.2 ha (by simp)
  · intro b hb e
    rw [← hx] at hb
    simp at hb
    obtain ⟨x, hxX, rfl⟩ := hb
    rcases firstO_cases Y with ⟨_, h0⟩ | ⟨y, Y1, hY, h0⟩
    · rw [h0] at e; cases e
    · rw [h0] at e
      cases e
      exact hdis x hxX (by rw [hY]; simp)
  · intro a ha e
    rw [← hy] at ha
    simp at ha
    obtain ⟨y, hyY, rfl⟩ := ha
    rcases lastO_cases X with h0 | ⟨x, hxX, h0⟩
    · rw [h0] at e; cases e
    · rw [h0] at e
      cases e
      exact hdis y hxX hyY
  · intro b hb e
    subst e
    exact (List.nodup_cons.1 n2).1 hb

/-- Linking a fresh owner between two neighbours. -/
theorem chain_insert (s : State) (i : Nat) (xs ys : List Owner) (P T N : Owner)
    (h : List.Chain' (Adj s i) (xs ++ P :: T :: ys))
    (h1 : ∀ a ∈ xs, a ≠ P) (h2 : ∀ b ∈ (xs ++ [P]).tail, b ≠ T)
    (h3 : ∀ a ∈ (T :: ys).dropLast, a ≠ P) (h4 : ∀ b ∈ ys, b ≠ T)
    (hN1 : N ∉ xs ++ [P]) (hN2 : N ∉ T :: ys) :
    List.Chain' (Adj (__skiplist_link_add s ⟨N, (i : Int)⟩ ⟨P, (i : Int)⟩ ⟨T, (i : Int)⟩) i)
      (xs ++ P :: N :: T :: ys) := by
  have hNP : N ≠ P := fun e => hN1 (by simp [e])
  have hNT : N ≠ T := fun e => hN2 (by simp [e])
  have hs := List.chain'_split.1 h
  have hPT := (List.chain'_cons.1 hs.2).1
  have hT := (List.chain'_cons.1 hs.2).2
  refine List.chain'_split.2 ⟨?_, List.chain'_cons.2 ⟨?_, List.chain'_cons.2 ⟨?_, ?_⟩⟩⟩
  · refine chain_frame s _ i _ hs.1 ?_ ?_
    · intro a ha
      rw [List.dropLast_concat] at ha
      have e1 : a ≠ P := h1 a ha
      have e2 : a ≠ N := fun e => hN1 (by simp [← e, ha])
      rw [link_add_next]
      simp [e1, e2]
    · intro b hb
      have e1 : b ≠ T := h2 b hb
      have e2 : b ≠ N := fun e => hN1 (by rw [← e]; exact List.mem_of_mem_tail hb)
      rw [link_add_prev]
      simp [e1, e2]
  · constructor
    · rw [link_add_next]; simp
    · rw [link_add_prev]; simp [hNT]
  · constructor
    · rw [link_add_next]; simp [hNP]
    · rw [link_add_prev]; simp
  · refine chain_frame s _ i _ hT ?_ ?_
    · intro a ha
      have e1 : a ≠ P := h3 a ha
      have e2 : a ≠ N := fun e => hN2 (by rw [← e]; exact List.dropLast_subset _ ha)
      rw [link_add_next]
      simp [e1, e2]
    · intro b hb
      simp at hb
      have e1 : b ≠ T := h4 b hb
      have e2 : b ≠ N := fun e => hN2 (by simp [← e, hb])
      rw [link_add_prev]
      simp [e1, e2]

/-- Unlinking an owner from between its two neighbours. -/
theorem chain_delete (s : State) (i : Nat) (xs ys : List Owner) (P T N : Owner)
    (h : List.Chain' (Adj s i) (xs ++ P :: N :: T :: ys))
    (h1 : ∀ a ∈ xs, a ≠ P) (h2 : ∀ b ∈ (xs ++ [P]).tail, b ≠ T)
    (h3 : ∀ a ∈ (T :: ys).dropLast, a ≠ P) (h4 : ∀ b ∈ ys, b ≠ T)
    (hN1 : N ∉ xs ++ [P]) (hN2 : N ∉ T :: ys) :
    List.Chain' (Adj (__skiplist_link_del s ⟨N, (i : Int)⟩) i) (xs ++ P :: T :: ys) := by
  have hs := List.chain'_split.1 h
  have hPN := (List.chain'_cons.1 hs.2).1
  have hs2 := (List.chain'_cons.1 hs.2).2
  have hNT := (List.chain'_cons.1 hs2).1
  have hT := (List.chain'_cons.1 hs2).2
  have eP : s.prev ⟨N, (i : Int)⟩ = ⟨P, (i : Int)⟩ := hPN.2
  have eT : s.next ⟨N, (i : Int)⟩ = ⟨T, (i : Int)⟩ := hNT.1
  have hNP : N ≠ P := fun e => hN1 (by simp [e])
  have hNT2 : N ≠ T := fun e => hN2 (by simp [e])
  refine List.chain'_split.2 ⟨?_, List.chain'_cons.2 ⟨?_, ?_⟩⟩
  · refine chain_frame s _ i _ hs.1 ?_ ?_
    · intro a ha
      rw [List.dropLast_concat] at ha
      have e1 : a ≠ P := h1 a ha
      have e2 : a ≠ N := fun e => hN1 (by simp [← e, ha])
      rw [link_del_next, eP, eT]
      simp [e1, e2]
    · intro b hb
      have e1 : b ≠ T := h2 b hb
      have e2 : b ≠ N := fun e => hN1 (by rw [← e]; exact List.mem_of_mem_tail hb)
      rw [link_del_prev, eP, eT]
      simp [e1, e2]
  · constructor
    · rw [link_del_next, eP, eT]; simp [Ne.symm hNP]
    · rw [link_del_prev, eP, eT]; simp [Ne.symm hNT2]
  · refine chain_frame s _ i _ hT ?_ ?_
    · intro a ha
      have e1 : a ≠ P := h3 a ha
      have e2 : a ≠ N := fun e => hN2 (by rw [← e]; exact List.dropLast_subset _ ha)
      rw [link_del_next, eP, eT]
      simp [e1, e2]
    · intro b hb
      simp at hb
      have e1 : b ≠ T := h4 b hb
      have e2 : b ≠ N := fun e => hN2 (by simp [← e, hb])
      rw [link_del_prev, eP, eT]
      simp [e1, e2]

/-! ## Rings under linking and unlinking -/

theorem ring_link_add (s : State) (i : Nat) (X Y : List Nat) (n : Nat)
    (h : Ring s i (X ++ Y)) (hnd : (X ++ Y).Nodup) (hn : n ∉ X ++ Y) :
    Ring (__skiplist_link_add s ⟨Owner.node n, (i : Int)⟩ ⟨lastO X, (i : Int)⟩
      ⟨firstO Y, (i : Int)⟩) i (X ++ n :: Y) := by
  obtain ⟨xs, ys, hx, hy, hc⟩ := chainOf_append X Y
  obtain ⟨h1, h2, h3, h4⟩ := split_side X Y xs ys hnd hx hy
  have hc2 : chainOf (X ++ n :: Y) = xs ++ lastO X :: Owner.node n :: firstO Y :: ys := by
    have : chainOf (X ++ n :: Y) =
        (Owner.head :: X.map Owner.node) ++ Owner.node n :: (Y.map Owner.node ++ [Owner.head]) := by
      simp [chainOf]
    rw [this, hx, hy]; simp
  unfold Ring at h ⊢
  rw [hc] at h
  rw [hc2]
  have hnX : n ∉ X := fun e => hn (List.mem_append_left _ e)
  have hnY : n ∉ Y := fun e => hn (List.mem_append_right _ e)
  refine chain_insert s i xs ys _ _ _ h h1 h2 h3 h4 ?_ ?_
  · rw [← hx]; simp [hnX]
  · rw [← hy]; simp [hnY]

theorem ring_link_del (s : State) (i : Nat) (X Y : List Nat) (x : Nat)
    (h : Ring s i (X ++ x :: Y)) (hnd : (X ++ x :: Y).Nodup) :
    Ring (__skiplist_link_del s ⟨Owner.node x, (i : Int)⟩) i (X ++ Y) := by
  have hnd2 : (X ++ Y).Nodup := by
    have := List.nodup_middle.1 hnd
    exact (List.nodup_cons.1 this).2
  have hn : x ∉ X ++ Y := by
    have := List.nodup_middle.1 hnd
    exact (List.nodup_cons.1 this).1
  obtain ⟨xs, ys, hx, hy, hc⟩ := chainOf_append X Y
  obtain ⟨h1, h2, h3, h4⟩ := split_side X Y xs ys hnd2 hx hy
  have hc2 : chainOf (X ++ x :: Y) = xs ++ lastO X :: Owner.node x :: firstO Y :: ys := by
    have : chainOf (X ++ x :: Y) =
        (Owner.head :: X.map Owner.node) ++ Owner.node x :: (Y.map Owner.node ++ [Owner.head]) := by
      simp [chainOf]
    rw [this, hx, hy]; simp
  unfold Ring at h ⊢
  rw [hc2] at h
  rw [hc]
  have hnX : x ∉ X := fun e => hn (List.mem_append_left _ e)
  have hnY : x ∉ Y := fun e => hn (List.mem_append_right _ e)
  refine chain_delete s i xs ys _ _ _ h h1 h2 h3 h4 ?_ ?_
  · rw [← hx]; simp [hnX]
  · rw [← hy]; simp [hnY]

theorem ring_link_add_ne (s : State) (i j : Nat) (l : List Nat) (N P T : Owner) (hij : j ≠ i)
    (h : Ring s j l) :
    Ring (__skiplist_link_add s ⟨N, (i : Int)⟩ ⟨P, (i : Int)⟩ ⟨T, (i : Int)⟩) j l := by
  have hne : (j : Int) ≠ (i : Int) := fun e => hij (Int.ofNat.inj e)
  refine ring_congr s _ j l ?_ ?_ h
  · intro a
    rw [link_add_next]
    simp [link_mk_ne_idx hne]
  · intro a
    rw [link_add_prev]
    simp [link_mk_ne_idx hne]

theorem ring_link_del_ne (s : State) (i j : Nat) (l : List Nat) (N P T : Owner) (hij : j ≠ i)
    (hP : s.prev ⟨N, (i : Int)⟩ = ⟨P, (i : Int)⟩) (hT : s.next ⟨N, (i : Int)⟩ = ⟨T, (i : Int)⟩)
    (h : Ring s j l) :
    Ring (__skiplist_link_del s ⟨N, (i : Int)⟩) j l := by
  have hne : (j : Int) ≠ (i : Int) := fun e => hij (Int.ofNat.inj e)
  refine ring_congr s _ j l ?_ ?_ h
  · intro a
    rw [link_del_next, hP, hT]
    simp [link_mk_ne_idx hne]
  · intro a
    rw [link_del_prev, hP, hT]
    simp [link_mk_ne_idx hne]

/-- A stretch of a ring, from the position before `Y` to the position after it. -/
theorem ring_segment (s : State) (i : Nat) (U Y W : List Nat) (h : Ring s i (U ++ Y ++ W)) :
    List.Chain' (Adj s i) (lastO U :: (Y.map Owner.node ++ [firstO W])) := by
  obtain ⟨xs, hx⟩ := lastO_split U
  obtain ⟨ys, hy⟩ := firstO_split W
  have hc : chainOf (U ++ Y ++ W) =
      xs ++ (lastO U :: (Y.map Owner.node ++ [firstO W])) ++ ys := by
    have : chainOf (U ++ Y ++ W) =
        (Owner.head :: U.map Owner.node) ++ Y.map Owner.node ++ (W.map Owner.node ++ [Owner.head]) := by
      simp [chainOf]
    rw [this, hx, hy]; simp
  unfold Ring at h
  rw [hc] at h
  exact h.infix ⟨xs, ys, rfl⟩

/-- The list a ring reads is determined by the heap. -/
theorem ring_unique (s : State) (i : Nat) :
    ∀ (l1 l2 : List Nat) (P : Owner),
      List.Chain' (Adj s i) (P :: (l1.map Owner.node ++ [Owner.head])) →
      List.Chain' (Adj s i) (P :: (l2.map Owner.node ++ [Owner.head])) → l1 = l2
  | [], [], _, _, _ => rfl
  | [], b :: l2, P, h1, h2 => by
    have e1 := (List.chain'_cons.1 h1).1.1
    have e2 := (List.chain'_cons.1 h2).1.1
    rw [e1] at e2
    cases e2
  | a :: l1, [], P, h1, h2 => by
    have e1 := (List.chain'_cons.1 h1).1.1
    have e2 := (List.chain'_cons.1 h2).1.1
    rw [e1] at e2
    cases e2
  | a :: l1, b :: l2, P, h1, h2 => by
    have e1 := (List.chain'_cons.1 h1).1.1
    have e2 := (List.chain'_cons.1 h2).1.1
    rw [e1] at e2
    cases e2
    rw [ring_unique s i l1 l2 (Owner.node a) (List.chain'_cons.1 h1).2 (List.chain'_cons.1 h2).2]

theorem Ring.unique {s : State} {i : Nat} {l1 l2 : List Nat} (h1 : Ring s i l1)
    (h2 : Ring s i l2) : l1 = l2 :=
  ring_unique s i l1 l2 Owner.head h1 h2

theorem ring_first (s : State) (i : Nat) (l : List Nat) (h : Ring s i l) :
    s.next ⟨Owner.head, (i : Int)⟩ = ⟨firstO l, (i : Int)⟩ :=
  (ring_adj s i [] l h).1

theorem ring_last (s : State) (i : Nat) (l : List Nat) (h : Ring s i l) :
    s.prev ⟨Owner.head, (i : Int)⟩ = ⟨lastO l, (i : Int)⟩ := by
  have := (ring_adj s i l [] (by simpa using h)).2
  simpa [firstO] using this

/-! ## Sizes -/

theorem le_maxSize (sz : Nat → Nat) : ∀ (l : List Nat) (n : Nat), n ∈ l → sz n ≤ maxSize sz l
  | a :: l, n, h => by
    rcases List.mem_cons.1 h with rfl | h
    · exact le_max_left _ _
    · exact le_trans (le_maxSize sz l n h) (le_max_right _ _)

theorem maxSize_attained (sz : Nat → Nat) :
    ∀ (l : List Nat), l ≠ [] → ∃ n ∈ l, sz n = maxSize sz l
  | [a], _ => ⟨a, by simp, by simp [maxSize]⟩
  | a :: b :: l, _ => by
    obtain ⟨n, hn, e⟩ := maxSize_attained sz (b :: l) (by simp)
    by_cases h : sz a ≤ maxSize sz (b :: l)
    · exact ⟨n, List.mem_cons_of_mem _ hn, by rw [e]; exact (max_eq_right h).symm⟩
    · exact ⟨a, by simp, (max_eq_left (le_of_not_le h)).symm⟩

theorem maxSize_le_iff (sz : Nat → Nat) (l : List Nat) (j : Nat) :
    maxSize sz l ≤ j ↔ ∀ n ∈ l, sz n ≤ j := by
  induction l with
  | nil => simp [maxSize]
  | cons a l ih => simp [maxSize, ih]

theorem maxSize_append (sz : Nat → Nat) (X Y : List Nat) :
    maxSize sz (X ++ Y) = max (maxSize sz X) (maxSize sz Y) := by
  induction X with
  | nil => simp [maxSize]
  | cons a X ih => simp [maxSize, ih, max_assoc]

theorem lev_eq_nil_iff (sz : Nat → Nat) (l : List Nat) (j : Nat) :
    lev sz j l = [] ↔ maxSize sz l ≤ j := by
  unfold lev
  rw [maxSize_le_iff, List.filter_eq_nil_iff]
  simp

theorem lev_append (sz : Nat → Nat) (j : Nat) (X Y : List Nat) :
    lev sz j (X ++ Y) = lev sz j X ++ lev sz j Y := by
  simp [lev]

theorem lev_cons (sz : Nat → Nat) (j : Nat) (x : Nat) (Y : List Nat) :
    lev sz j (x :: Y) = (if j < sz x then [x] else []) ++ lev sz j Y := by
  by_cases h : j < sz x <;> simp [lev, List.filter_cons, h]

theorem mem_lev (sz : Nat → Nat) (j : Nat) (l : List Nat) (x : Nat) :
    x ∈ lev sz j l ↔ x ∈ l ∧ j < sz x := by
  simp [lev]

theorem lev_zero (sz : Nat → Nat) (l : List Nat) (h : ∀ n ∈ l, 0 < sz n) : lev sz 0 l = l := by
  unfold lev
  rw [List.filter_eq_self]
  intro n hn
  simpa using h n hn

theorem lev_succ (sz : Nat → Nat) (j : Nat) (l : List Nat) :
    lev sz (j + 1) l = (lev sz j l).filter (fun n => decide (j + 1 < sz n)) := by
  unfold lev
  rw [List.filter_filter]
  apply List.filter_congr
  intro x _
  by_cases h : j + 1 < sz x
  · have : j < sz x := by omega
    simp [h, this]
  · simp [h]

/-! ## The comparator -/

theorem TotalPreorder.refl {cmp : Nat → Nat → Int} (h : TotalPreorder cmp) (a : Nat) :
    cmp a a = 0 := by
  have := h.antisymm a a
  omega

theorem TotalPreorder.eq_symm {cmp : Nat → Nat → Int} (h : TotalPreorder cmp) (a b : Nat)
    (e : cmp a b = 0) : cmp b a = 0 := by
  have h1 := h.antisymm a b
  have h2 := h.antisymm b a
  omega

theorem TotalPreorder.lt_of_le_of_lt {cmp : Nat → Nat → Int} (h : TotalPreorder cmp)
    (a b c : Nat) (h1 : cmp a b ≤ 0) (h2 : cmp b c < 0) : cmp a c < 0 := by
  by_contra hc
  have h3 : cmp c a ≤ 0 := by
    have := h.antisymm a c
    omega
  have h4 := h.trans c a b h3 h1
  have := h.antisymm b c
  omega

theorem TotalPreorder.le_of_eq_of_le {cmp : Nat → Nat → Int} (h : TotalPreorder cmp)
    (a b c : Nat) (h1 : cmp a b = 0) (h2 : cmp b c ≤ 0) : cmp a c ≤ 0 :=
  h.trans a b c (le_of_eq h1) h2

/-! ## Sorted lists -/

/-- A sorted list is its entries below `k`, then those equal to `k`, then those
above `k`. -/
theorem sorted_three (cmp : Nat → Nat → Int) (key : Nat → Nat) (hc : TotalPreorder cmp) (k : Nat) :
    ∀ (l : List Nat), SortedBy cmp key l →
      l = l.filter (fun x => decide (cmp (key x) k < 0)) ++
        (l.filter (fun x => decide (cmp (key x) k = 0)) ++
          l.filter (fun x => decide (0 < cmp (key x) k)))
  | [], _ => rfl
  | a :: l, h => by
    have hs := List.pairwise_cons.1 h
    have ih := sorted_three cmp key hc k l hs.2
    have hnlt : cmp (key a) k ≥ 0 → l.filter (fun x => decide (cmp (key x) k < 0)) = [] := by
      intro ha
      rw [List.filter_eq_nil_iff]
      intro b hb
      have := hc.lt_of_le_of_lt (key a) (key b) k (hs.1 b hb)
      simp only [decide_eq_true_eq]
      intro hlt
      have := this hlt
      omega
    have hneq : cmp (key a) k > 0 → l.filter (fun x => decide (cmp (key x) k = 0)) = [] := by
      intro ha
      rw [List.filter_eq_nil_iff]
      intro b hb
      simp only [decide_eq_true_eq]
      intro he
      have := hc.trans (key a) (key b) k (hs.1 b hb) (le_of_eq he)
      omega
    rcases lt_trichotomy (cmp (key a) k) 0 with h1 | h1 | h1
    · have d1 : decide (cmp (key a) k < 0) = true := by simpa using h1
      have d2 : decide (cmp (key a) k = 0) = false := by simp; omega
      have d3 : decide (0 < cmp (key a) k) = false := by simp; omega
      simp only [List.filter_cons, d1, d2, d3, if_true, if_false, Bool.false_eq_true]
      rw [List.cons_append, ← ih]
    · have d1 : decide (cmp (key a) k < 0) = false := by simp; omega
      have d2 : decide (cmp (key a) k = 0) = true := by simpa using h1
      have d3 : decide (0 < cmp (key a) k) = false := by simp; omega
      have := hnlt (by omega)
      simp only [List.filter_cons, d1, d2, d3, if_true, if_false, Bool.false_eq_true]
      rw [this] at ih ⊢
      simp only [List.nil_append, List.cons_append] at ih ⊢
      rw [← ih]
    · have d1 : decide (cmp (key a) k < 0) = false := by simp; omega
      have d2 : decide (cmp (key a) k = 0) = false := by simp; omega
      have d3 : decide (0 < cmp (key a) k) = true := by simpa using h1
      have h5 := hnlt (by omega)
      have h6 := hneq h1
      simp only [List.filter_cons, d1, d2, d3, if_true, if_false, Bool.false_eq_true]
      rw [h5, h6] at ih ⊢
      simp only [List.nil_append] at ih ⊢
      rw [← ih]

/-- A sorted list is its entries below `k` followed by the others. -/
theorem sorted_two (cmp : Nat → Nat → Int) (key : Nat → Nat) (hc : TotalPreorder cmp) (k : Nat) :
    ∀ (l : List Nat), SortedBy cmp key l →
      l = l.filter (fun x => decide (cmp (key x) k < 0)) ++
        l.filter (fun x => !decide (cmp (key x) k < 0))
  | [], _ => rfl
  | a :: l, h => by
    have hs := List.pairwise_cons.1 h
    have ih := sorted_two cmp key hc k l hs.2
    by_cases h1 : cmp (key a) k < 0
    · simp only [List.filter_cons, h1, decide_True, if_true, Bool.not_true, Bool.false_eq_true,
        if_false]
      rw [List.cons_append, ← ih]
    · have : l.filter (fun x => decide (cmp (key x) k < 0)) = [] := by
        rw [List.filter_eq_nil_iff]
        intro b hb
        simp only [decide_eq_true_eq]
        intro hlt
        exact h1 (hc.lt_of_le_of_lt (key a) (key b) k (hs.1 b hb) hlt)
      simp only [List.filter_cons, h1, decide_False, if_false, Bool.not_false, if_true,
        Bool.false_eq_true]
      rw [this] at ih ⊢
      simp only [List.nil_append] at ih ⊢
      rw [← ih]

theorem takeWhile_append_of (p : Nat → Bool) :
    ∀ (X Y : List Nat), (∀ x ∈ X, p x = true) → (∀ y ∈ Y, p y = false) →
      (X ++ Y).takeWhile p = X ∧ (X ++ Y).dropWhile p = Y
  | [], [], _, _ => ⟨rfl, rfl⟩
  | [], y :: Y, _, hY => by
    have := hY y (by simp)
    simp [List.takeWhile, List.dropWhile, this]
  | x :: X, Y, hX, hY => by
    have h1 := hX x (by simp)
    have ih := takeWhile_append_of p X Y (fun a ha => hX a (by simp [ha])) hY
    simp [List.takeWhile, List.dropWhile, h1, ih.1, ih.2]

/-- In a list split as `X ++ Y`, the last position of a filtered `X` is the
last position of some prefix of `X`. -/
theorem filter_lastO_split (p : Nat → Bool) (X : List Nat) :
    ∃ U Y, X = U ++ Y ∧ lastO U = lastO (X.filter p) ∧ (∀ y ∈ Y, p y = false) := by
  induction X using List.reverseRecOn with
  | nil => exact ⟨[], [], rfl, rfl, by simp⟩
  | append_singleton X x ih =>
    by_cases hp : p x = true
    · refine ⟨X ++ [x], [], by simp, ?_, by simp⟩
      rw [List.filter_append]
      simp only [List.filter_cons, hp, if_true, List.filter_nil]
      rw [lastO_concat, lastO_concat]
    · obtain ⟨U, Y, e, hl, hY⟩ := ih
      refine ⟨U, Y ++ [x], by rw [e]; simp, ?_, ?_⟩
      · rw [List.filter_append]
        simp only [List.filter_cons, hp, if_false, List.filter_nil, List.append_nil,
          Bool.false_eq_true]
        exact hl
      · intro y hy
        rcases List.mem_append.1 hy with h | h
        · exact hY y h
        · simp at h
          subst h
          simpa using hp

theorem firstO_filter (p : Nat → Bool) (X : List Nat) :
    firstO X = firstO (X.filter p) ∨ ∃ t, t ∈ X ∧ firstO X = Owner.node t := by
  cases X with
  | nil => exact Or.inl rfl
  | cons t X => exact Or.inr ⟨t, by simp, rfl⟩

theorem firstO_mem (X : List Nat) (o : Owner) (h : firstO X = o) :
    o = Owner.head ∨ ∃ t, t ∈ X ∧ o = Owner.node t := by
  cases X with
  | nil => exact Or.inl h.symm
  | cons t X => exact Or.inr ⟨t, by simp, h.symm⟩

/-! ## The representation invariant -/

theorem Inv.level_nonneg {s : State} {l : List Nat} (h : Inv s l) : 0 ≤ s.level := by
  by_cases e : l = []
  · rcases h.level_empty e with h1 | ⟨h1, _⟩ <;> omega
  · rw [h.level_eq e]; exact Int.natCast_nonneg _

theorem Inv.size_le_level {s : State} {l : List Nat} (h : Inv s l) (n : Nat) (hn : n ∈ l) :
    (s.size n : Int) ≤ s.level := by
  have e : l ≠ [] := List.ne_nil_of_mem hn
  rw [h.level_eq e]
  exact_mod_cast le_maxSize s.size l n hn

theorem Inv.level_le {s : State} {l : List Nat} (h : Inv s l) : s.level ≤ (MAX_LEVEL : Int) := by
  by_cases e : l = []
  · rcases h.level_empty e with h1 | ⟨h1, _⟩ <;> simp [h1, MAX_LEVEL]
  · rw [h.level_eq e]
    have := (maxSize_le_iff s.size l MAX_LEVEL).2 h.size_le
    exact_mod_cast this

theorem Inv.lev_top {s : State} {l : List Nat} (h : Inv s l) (j : Nat)
    (hj : s.level ≤ (j : Int)) : lev s.size j l = [] := by
  rw [lev_eq_nil_iff, maxSize_le_iff]
  intro n hn
  have := h.size_le_level n hn
  omega

theorem Inv.ring0 {s : State} {l : List Nat} (h : Inv s l) : Ring s 0 l := by
  have := h.rings 0 (by simp [MAX_LEVEL])
  rwa [lev_zero s.size l h.size_pos] at this

/-! ## Fields that the link operations leave alone -/

@[simp] theorem link_add_comp (s : State) (l p n : Link) : (__skiplist_link_add s l p n).comp = s.comp := rfl

@[simp] theorem link_add_key (s : State) (l p n : Link) : (__skiplist_link_add s l p n).key = s.key := rfl

@[simp] theorem link_add_value (s : State) (l p n : Link) : (__skiplist_link_add s l p n).value = s.value := rfl

@[simp] theorem link_add_size (s : State) (l p n : Link) : (__skiplist_link_add s l p n).size = s.size := rfl

@[simp] theorem link_add_level (s : State) (l p n : Link) : (__skiplist_link_add s l p n).level = s.level := rfl

@[simp] theorem link_add_count (s : State) (l p n : Link) : (__skiplist_link_add s l p n).count = s.count := rfl

@[simp] theorem link_add_nalloc (s : State) (l p n : Link) : (__skiplist_link_add s l p n).nalloc = s.nalloc := rfl

@[simp] theorem link_add_freed (s : State) (l p n : Link) : (__skiplist_link_add s l p n).freed = s.freed := rfl

@[simp] theorem link_del_comp (s : State) (l : Link) : (__skiplist_link_del s l).comp = s.comp := rfl

@[simp] theorem link_del_key (s : State) (l : Link) : (__skiplist_link_del s l).key = s.key := rfl

@[simp] theorem link_del_value (s : State) (l : Link) : (__skiplist_link_del s l).value = s.value := rfl

@[simp] theorem link_del_size (s : State) (l : Link) : (__skiplist_link_del s l).size = s.size := rfl

@[simp] theorem link_del_level (s : State) (l : Link) : (__skiplist_link_del s l).level = s.level := rfl

@[simp] theorem link_del_count (s : State) (l : Link) : (__skiplist_link_del s l).count = s.count := rfl

@[simp] theorem link_del_nalloc (s : State) (l : Link) : (__skiplist_link_del s l).nalloc = s.nalloc := rfl

@[simp] theorem link_del_freed (s : State) (l : Link) : (__skiplist_link_del s l).freed = s.freed := rfl

@[simp] theorem link_init_comp (s : State) (l : Link) : (__skiplist_link_init s l).comp = s.comp := rfl

@[simp] theorem link_init_key (s : State) (l : Link) : (__skiplist_link_init s l).key = s.key := rfl

@[simp] theorem link_init_value (s : State) (l : Link) : (__skiplist_link_init s l).value = s.value := rfl

@[simp] theorem link_init_size (s : State) (l : Link) : (__skiplist_link_init s l).size = s.size := rfl

@[simp] theorem link_init_level (s : State) (l : Link) : (__skiplist_link_init s l).level = s.level := rfl

@[simp] theorem link_init_count (s : State) (l : Link) : (__skiplist_link_init s l).count = s.count := rfl

@[simp] theorem link_init_nalloc (s : State) (l : Link) : (__skiplist_link_init s l).nalloc = s.nalloc := rfl

@[simp] theorem link_init_freed (s : State) (l : Link) : (__skiplist_link_init s l).freed = s.freed := rfl

theorem init_links_fields (s : State) (o : Owner) (m : Nat) :
    (init_links s o m).comp = s.comp ∧ (init_links s o m).key = s.key ∧
    (init_links s o m).value = s.value ∧ (init_links s o m).size = s.size ∧
    (init_links s o m).level = s.level ∧ (init_links s o m).count = s.count ∧
    (init_links s o m).nalloc = s.nalloc ∧ (init_links s o m).freed = s.freed := by
  induction m with
  | zero => exact ⟨rfl, rfl, rfl, rfl, rfl, rfl, rfl, rfl⟩
  | succ m ih => simpa [init_links] using ih

theorem init_links_next (s : State) (o : Owner) (m : Nat) (x : Link) :
    (init_links s o m).next x =
      if x.owner = o ∧ 0 ≤ x.idx ∧ x.idx < (m : Int) then x else s.next x := by
  induction m with
  | zero =>
    have : ¬ (x.owner = o ∧ 0 ≤ x.idx ∧ x.idx < ((0 : Nat) : Int)) := by
      rintro ⟨_, h1, h2⟩
      simp at h2
      omega
    rw [if_neg this]
    rfl
  | succ m ih =>
    simp only [init_links, link_init_next, ih]
    by_cases h1 : x = ⟨o, (m : Int)⟩
    · subst h1
      simp
    · simp only [h1, if_false]
      by_cases h2 : x.owner = o
      · have h3 : x.idx ≠ (m : Int) := by
          intro e
          apply h1
          cases x
          simp at h2 e
          simp [h2, e]
        have : (x.idx < ((m + 1 : Nat) : Int)) ↔ (x.idx < (m : Int)) := by
          push_cast
          omega
        simp only [h2, true_and, this]
      · simp [h2]

theorem init_links_prev (s : State) (o : Owner) (m : Nat) (x : Link) :
    (init_links s o m).prev x =
      if x.owner = o ∧ 0 ≤ x.idx ∧ x.idx < (m : Int) then x else s.prev x := by
  induction m with
  | zero =>
    have : ¬ (x.owner = o ∧ 0 ≤ x.idx ∧ x.idx < ((0 : Nat) : Int)) := by
      rintro ⟨_, h1, h2⟩
      simp at h2
      omega
    rw [if_neg this]
    rfl
  | succ m ih =>
    simp only [init_links, link_init_prev, ih]
    by_cases h1 : x = ⟨o, (m : Int)⟩
    · subst h1
      simp
    · simp only [h1, if_false]
      by_cases h2 : x.owner = o
      · have h3 : x.idx ≠ (m : Int) := by
          intro e
          apply h1
          cases x
          simp at h2 e
          simp [h2, e]
        have : (x.idx < ((m + 1 : Nat) : Int)) ↔ (x.idx < (m : Int)) := by
          push_cast
          omega
        simp only [h2, true_and, this]
      · simp [h2]

/-! ## The scan of `skiplist_insert` -/

theorem list_entry_node (n : Nat) (i : Nat) : list_entry ⟨Owner.node n, (i : Int)⟩ i = some n := by
  simp [list_entry]

theorem insert_scan_spec (s : State) (k : Nat) (i : Nat) (E : Owner) :
    ∀ (Y : List Nat) (P T : Owner) (fuel : Nat),
      List.Chain' (Adj s i) (P :: (Y.map Owner.node ++ [T])) →
      (∀ y ∈ Y, s.comp (s.key y) k < 0 ∧ Owner.node y ≠ E) →
      (T = E ∨ ∃ t, T = Owner.node t ∧ s.comp (s.key t) k ≥ 0) →
      Y.length < fuel →
      insert_scan s k i fuel (s.next ⟨P, (i : Int)⟩) ⟨E, (i : Int)⟩ = Except.ok ⟨T, (i : Int)⟩
  | [], P, T, fuel, hc, _, hT, hf => by
    have e : s.next ⟨P, (i : Int)⟩ = ⟨T, (i : Int)⟩ := (List.chain'_cons.1 hc).1.1
    obtain ⟨f, rfl⟩ : ∃ f, fuel = f + 1 := ⟨fuel - 1, by simp at hf; omega⟩
    rw [e]
    unfold insert_scan
    by_cases hTE : T = E
    · simp [hTE]
    · rcases hT with h | ⟨t, rfl, ht⟩
      · exact absurd h hTE
      · have : (⟨Owner.node t, (i : Int)⟩ : Link) ≠ ⟨E, (i : Int)⟩ := link_mk_ne_owner hTE
        simp [this, list_entry_node, ht]
  | y :: Y, P, T, fuel, hc, hY, hT, hf => by
    have e : s.next ⟨P, (i : Int)⟩ = ⟨Owner.node y, (i : Int)⟩ := (List.chain'_cons.1 hc).1.1
    obtain ⟨f, rfl⟩ : ∃ f, fuel = f + 1 := ⟨fuel - 1, by simp at hf; omega⟩
    have hy := hY y (by simp)
    have hne : (⟨Owner.node y, (i : Int)⟩ : Link) ≠ ⟨E, (i : Int)⟩ := link_mk_ne_owner hy.2
    have hlt : ¬ s.comp (s.key y) k ≥ 0 := by omega
    rw [e]
    unfold insert_scan
    simp only [hne, if_false, list_entry_node, hlt]
    exact insert_scan_spec s k i E Y (Owner.node y) T f (List.chain'_cons.1 hc).2
      (fun a ha => hY a (by simp [ha])) hT (by simp at hf; omega)

/-! ## The level loop of `skiplist_insert` -/

theorem cast_succ_sub_one (i : Nat) : ((i + 1 : Nat) : Int) - 1 = (i : Int) := by
  push_cast
  ring

theorem insert_levels_spec (k n : Nat) (L : Int) (fuel : Nat) (cmp : Nat → Nat → Int)
    (key sz : Nat → Nat) (A B : List Nat)
    (hnd : (A ++ B).Nodup) (hn : n ∉ A ++ B) (hL : sz n = L.toNat) (hL0 : 0 ≤ L)
    (hA : ∀ a ∈ A, cmp (key a) k < 0) (hB : ∀ b ∈ B, cmp (key b) k ≥ 0)
    (hf : (A ++ B).length < fuel) :
    ∀ (c : Nat) (s : State), c ≤ MAX_LEVEL → s.comp = cmp → s.key = key →
      MidRings s sz A B n c →
      ∃ s', insert_levels k n L fuel c s ⟨lastO (lev sz c A), (c : Int) - 1⟩
          ⟨firstO (lev sz c B), (c : Int) - 1⟩ = Except.ok s' ∧
        MidRings s' sz A B n 0 ∧ s'.comp = s.comp ∧ s'.key = s.key ∧ s'.value = s.value ∧
        s'.size = s.size ∧ s'.level = s.level ∧ s'.count = s.count ∧
        s'.nalloc = s.nalloc ∧ s'.freed = s.freed := by
  intro c
  induction c with
  | zero =>
    intro s _ _ _ hr
    exact ⟨s, rfl, hr, rfl, rfl, rfl, rfl, rfl, rfl, rfl, rfl⟩
  | succ i ih =>
    intro s hc hcmp hkey hr
    have hi : i < MAX_LEVEL := by omega
    have hring : Ring s i (lev sz i A ++ lev sz i B) := by
      have := hr i hi
      simpa using this
    obtain ⟨U, Y, hUY, hlast, _⟩ :=
      filter_lastO_split (fun m => decide (i + 1 < sz m)) (lev sz i A)
    rw [← lev_succ] at hlast
    have hYA : ∀ y ∈ Y, y ∈ A := by
      intro y hy
      have : y ∈ lev sz i A := by rw [hUY]; exact List.mem_append_right _ hy
      exact ((mem_lev sz i A y).1 this).1
    have hdis : ∀ a, a ∈ A → a ∈ B → False := fun a ha hb => (List.nodup_append.1 hnd).2.2 ha hb
    have hseg := ring_segment s i U Y (lev sz i B) (by rw [← hUY]; exact hring)
    have hscan := insert_scan_spec s k i (firstO (lev sz (i + 1) B)) Y (lastO U)
      (firstO (lev sz i B)) fuel hseg
      (by
        intro y hy
        refine ⟨by rw [hcmp, hkey]; exact hA y (hYA y hy), ?_⟩
        intro e
        rcases firstO_mem _ _ e.symm with h | ⟨t, ht, h⟩
        · cases h
        · cases h
          exact hdis y (hYA y hy) ((mem_lev sz (i + 1) B y).1 ht).1)
      (by
        rw [lev_succ sz i B]
        rcases firstO_filter (fun m => decide (i + 1 < sz m)) (lev sz i B) with h | ⟨t, ht, h⟩
        · exact Or.inl h
        · refine Or.inr ⟨t, h, ?_⟩
          rw [hcmp, hkey]
          exact hB t ((mem_lev sz i B t).1 ht).1)
      (by
        have h1 : Y.length ≤ (lev sz i A).length := by rw [hUY]; simp
        have h2 : (lev sz i A).length ≤ A.length := List.length_filter_le _ _
        have h3 : (A ++ B).length = A.length + B.length := List.length_append _ _
        omega)
    rw [hlast] at hscan
    have hprev : s.prev ⟨firstO (lev sz i B), (i : Int)⟩ = ⟨lastO (lev sz i A), (i : Int)⟩ :=
      (ring_adj s i _ _ hring).2
    rw [cast_succ_sub_one]
    unfold insert_levels
    simp only [hscan, hprev]
    have hdec : ∀ o : Owner, Link.dec ⟨o, (i : Int)⟩ = ⟨o, (i : Int) - 1⟩ := fun _ => rfl
    rw [hdec, hdec]
    by_cases hiL : (i : Int) < L
    · simp only [hiL, if_true]
      have hisz : i < sz n := by rw [hL]; omega
      have hmid : MidRings (__skiplist_link_add s ⟨Owner.node n, (i : Int)⟩
          ⟨lastO (lev sz i A), (i : Int)⟩ ⟨firstO (lev sz i B), (i : Int)⟩) sz A B n i := by
        intro j hj
        by_cases hji : j = i
        · subst hji
          have hnd2 : (lev sz j A ++ lev sz j B).Nodup := by
            rw [← lev_append]; exact hnd.filter _
          have hn2 : n ∉ lev sz j A ++ lev sz j B := by
            rw [← lev_append]
            intro h
            exact hn ((mem_lev sz j _ n).1 h).1
          have := ring_link_add s j _ _ n hring hnd2 hn2
          simpa [lev_cons, hisz, lev] using this
        · have := ring_link_add_ne s i j _ (Owner.node n) (lastO (lev sz i A))
            (firstO (lev sz i B)) hji (hr j hj)
          have e : (i + 1 ≤ j) ↔ (i ≤ j) := by omega
          simpa only [e] using this
      obtain ⟨s', h1, h2, h3⟩ := ih _ (by omega) (by simpa using hcmp) (by simpa using hkey) hmid
      exact ⟨s', h1, h2, by simpa using h3⟩
    · simp only [hiL, if_false]
      have hisz : ¬ i < sz n := by rw [hL]; omega
      have hmid : MidRings s sz A B n i := by
        intro j hj
        by_cases hji : j = i
        · subst hji
          simpa [lev_cons, hisz, lev] using hring
        · have e : (i + 1 ≤ j) ↔ (i ≤ j) := by omega
          simpa only [e] using hr j hj
      exact ih s (by omega) hcmp hkey hmid

/-! ## `skiplist_insert` keeps the invariant -/

theorem skipnode_new_spec (s : State) (L : Int) (k v : Nat) :
    ∃ s2, skipnode_new s L k v true = (s2, some s.nalloc) ∧
      s2.comp = s.comp ∧ s2.key = (fun m => if m = s.nalloc then k else s.key m) ∧
      s2.value = (fun m => if m = s.nalloc then v else s.value m) ∧
      s2.size = (fun m => if m = s.nalloc then L.toNat else s.size m) ∧
      s2.level = s.level ∧ s2.count = s.count ∧ s2.nalloc = s.nalloc + 1 ∧
      s2.freed = s.freed ∧
      (∀ x, s2.next x =
        if x.owner = Owner.node s.nalloc ∧ 0 ≤ x.idx ∧ x.idx < (L.toNat : Int) then x
        else s.next x) ∧
      (∀ x, s2.prev x =
        if x.owner = Owner.node s.nalloc ∧ 0 ≤ x.idx ∧ x.idx < (L.toNat : Int) then x
        else s.prev x) := by
  refine ⟨_, by simp [skipnode_new]; rfl, ?_⟩
  obtain ⟨h1, h2, h3, h4, h5, h6, h7, h8⟩ := init_links_fields
    { s with
      nalloc := s.nalloc + 1
      size := fun n => if n = s.nalloc then L.toNat else s.size n
      key := fun n => if n = s.nalloc then k else s.key n
      value := fun n => if n = s.nalloc then v else s.value n } (Owner.node s.nalloc) L.toNat
  refine ⟨h1, h2, h3, h4, h5, h6, h7, h8, ?_, ?_⟩
  · intro x
    rw [init_links_next]
  · intro x
    rw [init_links_prev]

theorem insertAt_sorted (cmp : Nat → Nat → Int) (key : Nat → Nat) (hc : TotalPreorder cmp)
    (k n : Nat) (l : List Nat) (h : SortedBy cmp key l) :
    insertAt cmp key k n l =
      l.filter (fun x => decide (cmp (key x) k < 0)) ++
        n :: l.filter (fun x => !decide (cmp (key x) k < 0)) := by
  have e := sorted_two cmp key hc k l h
  have := takeWhile_append_of (fun x => decide (cmp (key x) k < 0))
    (l.filter (fun x => decide (cmp (key x) k < 0)))
    (l.filter (fun x => !decide (cmp (key x) k < 0)))
    (fun x hx => (List.mem_filter.1 hx).2)
    (fun y hy => by simpa using (List.mem_filter.1 hy).2)
  rw [← e] at this
  unfold insertAt
  rw [this.1, this.2]

theorem skiplist_insert_inv (s : State) (l : List Nat) (k v : Nat) (L : Int) (fuel : Nat)
    (hc : TotalPreorder s.comp) (h : Inv s l) (hL1 : 1 ≤ L) (hL2 : L ≤ (MAX_LEVEL : Int))
    (hf : l.length < fuel) :
    ∃ s', skiplist_insert fuel s k v L true = Except.ok (s', some s.nalloc) ∧
      Inv s' (insertAt s.comp s.key k s.nalloc l) ∧
      s'.comp = s.comp ∧ s'.key = (fun m => if m = s.nalloc then k else s.key m) ∧
      s'.value = (fun m => if m = s.nalloc then v else s.value m) ∧
      s'.size = (fun m => if m = s.nalloc then L.toNat else s.size m) ∧
      s'.level = max s.level L ∧ s'.count = s.count + 1 ∧ s'.nalloc = s.nalloc + 1 ∧
      s'.freed = s.freed := by
  have hnl : s.nalloc ∉ l := fun e => absurd (h.alloc _ e) (lt_irrefl _)
  rw [insertAt_sorted s.comp s.key hc k s.nalloc l h.sorted]
  have hsplit := sorted_two s.comp s.key hc k l h.sorted
  generalize hA : l.filter (fun x => decide (s.comp (s.key x) k < 0)) = A at hsplit ⊢
  generalize hB : l.filter (fun x => !decide (s.comp (s.key x) k < 0)) = B at hsplit ⊢
  have hAl : ∀ a ∈ A, a ∈ l ∧ s.comp (s.key a) k < 0 := by
    intro a ha
    rw [← hA] at ha
    simpa using List.mem_filter.1 ha
  have hBl : ∀ b ∈ B, b ∈ l ∧ s.comp (s.key b) k ≥ 0 := by
    intro b hb
    rw [← hB] at hb
    simpa using List.mem_filter.1 hb
  unfold skiplist_insert
  generalize hs1 : (if L > s.level then { s with level := L } else s) = s1
  have f1 : s1.comp = s.comp ∧ s1.key = s.key ∧ s1.value = s.value ∧ s1.size = s.size ∧
      s1.count = s.count ∧ s1.nalloc = s.nalloc ∧ s1.freed = s.freed ∧ s1.next = s.next ∧
      s1.prev = s.prev ∧ s1.level = max s.level L := by
    rw [← hs1]
    by_cases hLl : L > s.level
    · simp only [hLl, if_true, true_and]
      exact (max_eq_right (le_of_lt hLl)).symm
    · simp only [hLl, if_false, true_and]
      exact (max_eq_left (not_lt.1 hLl)).symm
  obtain ⟨g1, g2, g3, g4, g5, g6, g7, g8, g9, g10⟩ := f1
  obtain ⟨s2, e2, k1, k2, k3, k4, k5, k6, k7, k8, k9, k10⟩ := skipnode_new_spec s1 L k v
  rw [g6] at e2 k2 k3 k4 k7 k9 k10
  rw [g2] at k2
  rw [g3] at k3
  rw [g4] at k4
  rw [g8] at k9
  rw [g9] at k10
  simp only [e2]
  have hlev0 : 0 ≤ s2.level := by
    rw [k5, g10]
    exact le_trans h.level_nonneg (le_max_left _ _)
  have hc32 : s2.level.toNat ≤ MAX_LEVEL := by
    have : s2.level ≤ (MAX_LEVEL : Int) := by
      rw [k5, g10]
      exact max_le h.level_le hL2
    omega
  have hcast : (s2.level.toNat : Int) = s2.level := Int.toNat_of_nonneg hlev0
  have hsz : ∀ m ∈ l, s2.size m = s.size m := by
    intro m hm
    have : m ≠ s.nalloc := fun e => hnl (e ▸ hm)
    rw [k4]
    simp [this]
  have hkey : ∀ m ∈ l, s2.key m = s.key m := by
    intro m hm
    have : m ≠ s.nalloc := fun e => hnl (e ▸ hm)
    rw [k2]
    simp [this]
  have hszn : s2.size s.nalloc = L.toNat := by rw [k4]; simp
  have hlevl : ∀ j (X : List Nat), (∀ x ∈ X, x ∈ l) → lev s2.size j X = lev s.size j X := by
    intro j X hX
    unfold lev
    apply List.filter_congr
    intro x hx
    rw [hsz x (hX x hx)]
  have hmid : MidRings s2 s2.size A B s.nalloc s2.level.toNat := by
    intro j hj
    have e0 : (if s2.level.toNat ≤ j then lev s2.size j [s.nalloc] else []) = [] := by
      by_cases hle : s2.level.toNat ≤ j
      · simp only [hle, if_true]
        rw [lev_cons, hszn]
        have : L ≤ s2.level := by rw [k5, g10]; exact le_max_right _ _
        have : ¬ j < L.toNat := by omega
        simp [this, lev]
      · simp [hle]
    rw [e0, List.nil_append, ← lev_append, ← hsplit, hlevl j l (fun _ hx => hx)]
    refine chain_frame s s2 j _ (h.rings j hj) ?_ ?_
    · intro a ha
      have hne : a ≠ Owner.node s.nalloc := by
        intro e
        have := List.dropLast_subset _ ha
        rw [e] at this
        simp [chainOf, lev] at this
        exact hnl this.1
      rw [k9]
      simp [hne]
    · intro a ha
      have hne : a ≠ Owner.node s.nalloc := by
        intro e
        have := List.mem_of_mem_tail ha
        rw [e] at this
        simp [chainOf, lev] at this
        exact hnl this.1
      rw [k10]
      simp [hne]
  have htopA : lev s2.size s2.level.toNat A = [] := by
    rw [hlevl _ A (fun x hx => (hAl x hx).1)]
    have := h.lev_top s2.level.toNat (by rw [hcast, k5, g10]; exact le_max_left _ _)
    rw [hsplit, lev_append] at this
    exact (List.append_eq_nil.1 this).1
  have htopB : lev s2.size s2.level.toNat B = [] := by
    rw [hlevl _ B (fun x hx => (hBl x hx).1)]
    have := h.lev_top s2.level.toNat (by rw [hcast, k5, g10]; exact le_max_left _ _)
    rw [hsplit, lev_append] at this
    exact (List.append_eq_nil.1 this).2
  obtain ⟨s3, r1, r2, r3, r4, r5, r6, r7, r8, r9, r10⟩ :=
    insert_levels_spec k s.nalloc L fuel s.comp s2.key s2.size A B
      (by rw [← hsplit]; exact h.nodup) (by rw [← hsplit]; exact hnl) hszn (by omega)
      (fun a ha => by rw [hkey a (hAl a ha).1]; exact (hAl a ha).2)
      (fun b hb => by rw [hkey b (hBl b hb).1]; exact (hBl b hb).2)
      (by rw [← hsplit]; exact hf)
      s2.level.toNat s2 hc32 (by rw [k1, g1]) rfl hmid
  rw [htopA, htopB, hcast] at r1
  simp only [lastO, firstO] at r1
  rw [r1]
  simp only
  refine ⟨_, rfl, ?_, ?_⟩
  · -- the invariant
    have hmemA : ∀ x, x ∈ A ++ s.nalloc :: B ↔ x = s.nalloc ∨ x ∈ l := by
      intro x
      rw [hsplit]
      simp only [List.mem_append, List.mem_cons]
      tauto
    constructor
    · intro j hj
      have := r2 j hj
      simp only [Nat.zero_le, if_true] at this
      rw [show lev s2.size j A ++ (lev s2.size j [s.nalloc] ++ lev s2.size j B) =
        lev s2.size j (A ++ s.nalloc :: B) by
          rw [lev_append, lev_cons, lev_cons]; simp [lev]] at this
      show Ring _ j (lev s3.size j _)
      rw [r6]
      exact this
    · -- nodup
      have : (s.nalloc :: (A ++ B)).Nodup :=
        List.nodup_cons.2 ⟨by rw [← hsplit]; exact hnl, by rw [← hsplit]; exact h.nodup⟩
      exact List.nodup_middle.2 this
    · -- sorted
      show SortedBy s3.comp s3.key _
      rw [r3, r4, k1, g1]
      have hs : SortedBy s.comp s.key (A ++ B) := by rw [← hsplit]; exact h.sorted
      have hs2 : SortedBy s.comp s2.key (A ++ B) := by
        unfold SortedBy at hs ⊢
        refine List.Pairwise.imp_of_mem ?_ hs
        intro a b ha hb hab
        rw [← hsplit] at ha hb
        rw [hkey a ha, hkey b hb]
        exact hab
      unfold SortedBy at hs2 ⊢
      rw [List.pairwise_append] at hs2 ⊢
      refine ⟨hs2.1, List.pairwise_cons.2 ⟨?_, hs2.2.1⟩, ?_⟩
      · intro b hb
        have hk : s2.key s.nalloc = k := by rw [k2]; simp
        rw [hk, hkey b (hBl b hb).1]
        have := hc.antisymm (s.key b) k
        have := (hBl b hb).2
        omega
      · intro a ha b hb
        rcases List.mem_cons.1 hb with rfl | hb
        · have hk : s2.key s.nalloc = k := by rw [k2]; simp
          rw [hk, hkey a (hAl a ha).1]
          exact le_of_lt (hAl a ha).2
        · exact hs2.2.2 a ha b hb
    · -- newest first among equal keys
      show List.Pairwise (fun a b => s3.comp (s3.key a) (s3.key b) = 0 → b < a) _
      rw [r3, r4, k1, g1]
      have hs : List.Pairwise (fun a b => s.comp (s.key a) (s.key b) = 0 → b < a) (A ++ B) := by
        rw [← hsplit]; exact h.newest
      have hs2 : List.Pairwise (fun a b => s.comp (s2.key a) (s2.key b) = 0 → b < a) (A ++ B) := by
        refine List.Pairwise.imp_of_mem ?_ hs
        intro a b ha hb hab
        rw [← hsplit] at ha hb
        rw [hkey a ha, hkey b hb]
        exact hab
      rw [List.pairwise_append] at hs2 ⊢
      refine ⟨hs2.1, List.pairwise_cons.2 ⟨?_, hs2.2.1⟩, ?_⟩
      · intro b hb _
        exact h.alloc b (hBl b hb).1
      · intro a ha b hb
        rcases List.mem_cons.1 hb with rfl | hb
        · have hk : s2.key s.nalloc = k := by rw [k2]; simp
          rw [hk, hkey a (hAl a ha).1]
          intro e
          have := (hAl a ha).2
          omega
        · exact hs2.2.2 a ha b hb
    · -- size_pos
      intro x hx
      show 0 < s3.size x
      rw [r6]
      rcases (hmemA x).1 hx with rfl | hx
      · rw [hszn]; omega
      · rw [hsz x hx]; exact h.size_pos x hx
    · intro x hx
      show s3.size x ≤ MAX_LEVEL
      rw [r6]
      rcases (hmemA x).1 hx with rfl | hx
      · rw [hszn]; omega
      · rw [hsz x hx]; exact h.size_le x hx
    · -- level_eq
      intro _
      show s3.level = _
      rw [r7, k5, g10]
      show _ = ((maxSize s3.size (A ++ s.nalloc :: B) : Nat) : Int)
      rw [r6, maxSize_append, maxSize, hszn]
      have hmax : maxSize s2.size A = maxSize s.size A ∧ maxSize s2.size B = maxSize s.size B := by
        have aux : ∀ X : List Nat, (∀ x ∈ X, x ∈ l) → maxSize s2.size X = maxSize s.size X := by
          intro X
          induction X with
          | nil => intro _; rfl
          | cons a X ih =>
            intro hX
            simp only [maxSize]
            rw [ih (fun x hx => hX x (by simp [hx])), hsz a (hX a (by simp))]
        exact ⟨aux A (fun x hx => (hAl x hx).1), aux B (fun x hx => (hBl x hx).1)⟩
      rw [hmax.1, hmax.2]
      by_cases hl : l = []
      · have hA0 : A = [] := by rw [← hA, hl]; rfl
        have hB0 : B = [] := by rw [← hB, hl]; rfl
        rw [hA0, hB0]
        simp only [maxSize]
        rcases h.level_empty hl with e | ⟨e, _⟩ <;> rw [e] <;> omega
      · rw [h.level_eq hl, hsplit, maxSize_append]
        omega
    · intro e
      exact absurd e (by simp)
    · show s3.count + 1 = _
      rw [r8, k6, g5, h.count_eq, hsplit]
      simp
      omega
    · intro x hx
      show x < s3.nalloc
      rw [r9, k7]
      rcases (hmemA x).1 hx with rfl | hx
      · omega
      · have := h.alloc x hx; omega
    · intro x hx hxf
      rw [hmemA]
      have hx2 : x < s.nalloc + 1 := by
        have : x < s3.nalloc := hx
        rwa [r9, k7] at this
      have hxf2 : x ∉ s.freed := by
        have : x ∉ s3.freed := hxf
        rwa [r10, k8, g7] at this
      by_cases e : x = s.nalloc
      · exact Or.inl e
      · exact Or.inr (h.live x (by omega) hxf2)
    · intro x hx
      show x ∉ s3.freed
      rw [r10, k8, g7]
      rcases (hmemA x).1 hx with rfl | hx
      · intro hfr
        exact absurd (h.freed_alloc _ hfr) (lt_irrefl _)
      · exact h.notfreed x hx
    · intro x hx
      have hx2 : x ∈ s.freed := by
        have : x ∈ s3.freed := hx
        rwa [r10, k8, g7] at this
      show x < s3.nalloc
      rw [r9, k7]
      have := h.freed_alloc x hx2
      omega
    · show s3.nalloc = _
      rw [r9, k7, h.total, hsplit]
      simp
      show _ = _ + s3.freed.length
      rw [r10, k8, g7]
      omega
  · refine ⟨?_, ?_, ?_, ?_, ?_, ?_, ?_, ?_⟩
    · show s3.comp = _
      rw [r3, k1, g1]
    · show s3.key = _
      rw [r4, k2]
    · show s3.value = _
      rw [r5, k3]
    · show s3.size = _
      rw [r6, k4]
    · show s3.level = _
      rw [r7, k5, g10]
    · show s3.count + 1 = _
      rw [r8, k6, g5]
    · show s3.nalloc = _
      rw [r9, k7]
    · show s3.freed = _
      rw [r10, k8, g7]

/-! ## `__skiplist_remove_node` -/

theorem firstO_eq_head_iff (l : List Nat) : firstO l = Owner.head ↔ l = [] := by
  cases l <;> simp [firstO]

theorem remove_node_links_spec (s : State) (x : Nat) (X Y : List Nat)
    (hnd : (X ++ x :: Y).Nodup)
    (hr : ∀ j, j < MAX_LEVEL → Ring s j (lev s.size j (X ++ x :: Y)))
    (hx32 : s.size x ≤ MAX_LEVEL) :
    ∀ j, j ≤ s.size x →
      (remove_node_links x s j).comp = s.comp ∧ (remove_node_links x s j).key = s.key ∧
      (remove_node_links x s j).value = s.value ∧ (remove_node_links x s j).size = s.size ∧
      (remove_node_links x s j).count = s.count ∧ (remove_node_links x s j).nalloc = s.nalloc ∧
      (remove_node_links x s j).freed = s.freed ∧
      (remove_node_links x s j).level = s.level - ((j - maxSize s.size (X ++ Y) : Nat) : Int) ∧
      ∀ j', j' < MAX_LEVEL →
        Ring (remove_node_links x s j) j'
          (if j' < j then lev s.size j' (X ++ Y) else lev s.size j' (X ++ x :: Y)) := by
  intro j
  induction j with
  | zero =>
    intro _
    refine ⟨rfl, rfl, rfl, rfl, rfl, rfl, rfl, by simp [remove_node_links], ?_⟩
    intro j' hj'
    simpa [remove_node_links] using hr j' hj'
  | succ j ih =>
    intro hj
    obtain ⟨f1, f2, f3, f4, f5, f6, f7, f8, f9⟩ := ih (by omega)
    simp only [remove_node_links]
    generalize remove_node_links x s j = s1 at f1 f2 f3 f4 f5 f6 f7 f8 f9 ⊢
    have hj32 : j < MAX_LEVEL := by omega
    have hjx : j < s.size x := by omega
    have hring : Ring s1 j (lev s.size j X ++ x :: lev s.size j Y) := by
      have := f9 j hj32
      simpa [lev_append, lev_cons, hjx] using this
    have hnd2 : (lev s.size j X ++ x :: lev s.size j Y).Nodup := by
      have : lev s.size j (X ++ x :: Y) = lev s.size j X ++ x :: lev s.size j Y := by
        simp [lev_append, lev_cons, hjx]
      rw [← this]
      exact hnd.filter _
    have hP : s1.prev ⟨Owner.node x, (j : Int)⟩ = ⟨lastO (lev s.size j X), (j : Int)⟩ :=
      (ring_adj s1 j _ _ hring).2
    have hT : s1.next ⟨Owner.node x, (j : Int)⟩ = ⟨firstO (lev s.size j Y), (j : Int)⟩ := by
      have := ring_adj s1 j (lev s.size j X ++ [x]) (lev s.size j Y) (by simpa using hring)
      rw [lastO_concat] at this
      exact this.1
    have hring2 := ring_link_del s1 j _ _ x hring hnd2
    rw [← lev_append] at hring2
    have hempty : __skiplist_list_empty (__skiplist_link_del s1 ⟨Owner.node x, (j : Int)⟩)
        ⟨Owner.head, (j : Int)⟩ = decide (maxSize s.size (X ++ Y) ≤ j) := by
      unfold __skiplist_list_empty
      rw [ring_first _ j _ hring2]
      have : ((⟨firstO (lev s.size j (X ++ Y)), (j : Int)⟩ : Link) = ⟨Owner.head, (j : Int)⟩) ↔
          maxSize s.size (X ++ Y) ≤ j := by
        rw [← lev_eq_nil_iff, ← firstO_eq_head_iff]
        constructor
        · intro e; exact congrArg Link.owner e
        · intro e; rw [e]
      simp only [this]
    have hrest : ∀ j', j' < MAX_LEVEL →
        Ring (__skiplist_link_del s1 ⟨Owner.node x, (j : Int)⟩) j'
          (if j' < j + 1 then lev s.size j' (X ++ Y) else lev s.size j' (X ++ x :: Y)) := by
      intro j' hj'
      by_cases e : j' = j
      · subst e
        simpa using hring2
      · have := ring_link_del_ne s1 j j' _ (Owner.node x) _ _ e hP hT (f9 j' hj')
        have e2 : (j' < j + 1) ↔ (j' < j) := by omega
        simpa only [e2] using this
    rw [hempty]
    by_cases hM : maxSize s.size (X ++ Y) ≤ j
    · simp only [hM, decide_True, if_true]
      refine ⟨f1, f2, f3, f4, f5, f6, f7, ?_, hrest⟩
      show s1.level - 1 = _
      rw [f8]
      omega
    · simp only [hM, decide_False, if_false, Bool.false_eq_true]
      refine ⟨f1, f2, f3, f4, f5, f6, f7, ?_, hrest⟩
      show s1.level = _
      rw [f8]
      omega

theorem filter_ne_split (X Y : List Nat) (x : Nat) (hnd : (X ++ x :: Y).Nodup) :
    (X ++ x :: Y).filter (fun y => !decide (y = x)) = X ++ Y := by
  have h1 := List.nodup_middle.1 hnd
  have hx : x ∉ X ++ Y := (List.nodup_cons.1 h1).1
  rw [List.filter_append, List.filter_cons]
  simp only [decide_True, Bool.not_true, Bool.false_eq_true, if_false]
  rw [← List.filter_append, List.filter_eq_self]
  intro a ha
  have : a ≠ x := fun e => hx (e ▸ ha)
  simp [this]

theorem remove_node_inv (s : State) (l : List Nat) (x i : Nat) (h : Inv s l) (hx : x ∈ l)
    (hsz : s.size x = i + 1) :
    Inv (__skiplist_remove_node s x (i + 1)) (l.filter (fun y => !decide (y = x))) ∧
      (__skiplist_remove_node s x (i + 1)).comp = s.comp ∧
      (__skiplist_remove_node s x (i + 1)).key = s.key ∧
      (__skiplist_remove_node s x (i + 1)).value = s.value ∧
      (__skiplist_remove_node s x (i + 1)).size = s.size ∧
      (__skiplist_remove_node s x (i + 1)).nalloc = s.nalloc ∧
      (__skiplist_remove_node s x (i + 1)).freed = x :: s.freed ∧
      (__skiplist_remove_node s x (i + 1)).count = s.count - 1 := by
  obtain ⟨X, Y, rfl⟩ := List.append_of_mem hx
  rw [filter_ne_split X Y x h.nodup]
  obtain ⟨f1, f2, f3, f4, f5, f6, f7, f8, f9⟩ :=
    remove_node_links_spec s x X Y h.nodup h.rings (h.size_le x hx) (i + 1) (by omega)
  unfold __skiplist_remove_node skipnode_free
  generalize remove_node_links x s (i + 1) = s1 at f1 f2 f3 f4 f5 f6 f7 f8 f9 ⊢
  have hnd2 : (X ++ Y).Nodup := by
    have := List.nodup_middle.1 h.nodup
    exact (List.nodup_cons.1 this).2
  have hxn : x ∉ X ++ Y := by
    have := List.nodup_middle.1 h.nodup
    exact (List.nodup_cons.1 this).1
  have hsub : ∀ a, a ∈ X ++ Y → a ∈ X ++ x :: Y := by
    intro a ha
    simp only [List.mem_append, List.mem_cons] at ha ⊢
    tauto
  have hsl : List.Sublist (X ++ Y) (X ++ x :: Y) :=
    List.Sublist.append (List.Sublist.refl X) (List.sublist_cons_self x Y)
  refine ⟨?_, f1, f2, f3, f4, f6, by simp [f7], by simp [f5]⟩
  constructor
  · intro j hj
    have := f9 j hj
    show Ring _ j (lev s1.size j _)
    rw [f4]
    by_cases hji : j < i + 1
    · simpa only [hji, if_true] using this
    · simp only [hji, if_false] at this
      have e : ¬ j < s.size x := by omega
      have e2 : lev s.size j (X ++ x :: Y) = lev s.size j (X ++ Y) := by
        simp [lev_append, lev_cons, e]
      rw [e2] at this
      exact this
  · exact hnd2
  · show SortedBy s1.comp s1.key _
    rw [f1, f2]
    exact List.Pairwise.sublist hsl h.sorted
  · show List.Pairwise (fun a b => s1.comp (s1.key a) (s1.key b) = 0 → b < a) _
    rw [f1, f2]
    exact List.Pairwise.sublist hsl h.newest
  · intro n hn
    show 0 < s1.size n
    rw [f4]
    exact h.size_pos n (hsub n hn)
  · intro n hn
    show s1.size n ≤ _
    rw [f4]
    exact h.size_le n (hsub n hn)
  · intro hne
    show s1.level = ((maxSize s1.size _ : Nat) : Int)
    rw [f8, f4, h.level_eq (by simp), maxSize_append, maxSize_append, maxSize, hsz]
    omega
  · intro he
    left
    show s1.level = 0
    rw [f8, h.level_eq (by simp), he]
    have hX : X = [] := (List.append_eq_nil.1 he).1
    have hY : Y = [] := (List.append_eq_nil.1 he).2
    rw [hX, hY]
    simp [maxSize, hsz]
  · show s1.count - 1 = _
    rw [f5, h.count_eq]
    simp
    omega
  · intro n hn
    show n < s1.nalloc
    rw [f6]
    exact h.alloc n (hsub n hn)
  · intro n hn hnf
    have hn2 : n < s.nalloc := by
      have : n < s1.nalloc := hn
      rwa [f6] at this
    have hnf2 : n ∉ x :: s.freed := by
      have : n ∉ x :: s1.freed := hnf
      rwa [f7] at this
    have hnx : n ≠ x := fun e => hnf2 (by simp [e])
    have := h.live n hn2 (fun e => hnf2 (List.mem_cons_of_mem _ e))
    simp only [List.mem_append, List.mem_cons] at this ⊢
    tauto
  · intro n hn
    show n ∉ x :: s1.freed
    rw [f7]
    intro e
    rcases List.mem_cons.1 e with rfl | e
    · exact hxn hn
    · exact h.notfreed n (hsub n hn) e
  · intro n hn
    have hn2 : n ∈ x :: s.freed := by
      have : n ∈ x :: s1.freed := hn
      rwa [f7] at this
    show n < s1.nalloc
    rw [f6]
    rcases List.mem_cons.1 hn2 with rfl | e
    · exact h.alloc n hx
    · exact h.freed_alloc n e
  · show s1.nalloc = _ + (x :: s1.freed).length
    rw [f6, f7, h.total]
    simp
    omega

/-! ## The scan of `skiplist_remove` -/

theorem remove_scan_spec (k i : Nat) (E : Owner) (W : List Nat) (cmp : Nat → Nat → Int)
    (key sz : Nat → Nat) (hi : i < MAX_LEVEL) :
    ∀ (V U : List Nat) (s : State) (l : List Nat) (fuel : Nat),
      Inv s l → s.comp = cmp → s.key = key → s.size = sz →
      lev sz i l = U ++ V ++ W →
      (∀ v ∈ V, cmp (key v) k < 0 ∨ (cmp (key v) k = 0 ∧ sz v = i + 1)) →
      (firstO W = E ∨ ∃ t, firstO W = Owner.node t ∧ 0 < cmp (key t) k) →
      (∀ v ∈ V, Owner.node v ≠ E) →
      V.length < fuel →
      ∃ s', remove_scan k i fuel s ⟨firstO (V ++ W), (i : Int)⟩
          (s.next ⟨firstO (V ++ W), (i : Int)⟩) ⟨E, (i : Int)⟩ =
            Except.ok (s', ⟨firstO W, (i : Int)⟩) ∧
        Inv s' (l.filter (fun x => !(decide (x ∈ V) && decide (cmp (key x) k = 0)))) ∧
        s'.comp = cmp ∧ s'.key = key ∧ s'.size = sz ∧ s'.value = s.value ∧
        s'.nalloc = s.nalloc
  | [], U, s, l, fuel, h, hcmp, hkey, _, _, _, hW, _, hf => by
    obtain ⟨f, rfl⟩ : ∃ f, fuel = f + 1 := ⟨fuel - 1, by simp at hf; omega⟩
    have hl : l.filter (fun x => !(decide (x ∈ ([] : List Nat)) && decide (cmp (key x) k = 0))) = l := by
      rw [List.filter_eq_self]
      intro a _
      simp
    rw [hl]
    refine ⟨s, ?_, h, hcmp, hkey, by assumption, rfl, rfl⟩
    simp only [List.nil_append]
    unfold remove_scan
    by_cases hWE : firstO W = E
    · simp [hWE]
    · rcases hW with e | ⟨t, ht, hgt⟩
      · exact absurd e hWE
      · have : (⟨firstO W, (i : Int)⟩ : Link) ≠ ⟨E, (i : Int)⟩ := link_mk_ne_owner hWE
        simp only [this, if_false]
        rw [ht, list_entry_node]
        simp only [hcmp, hkey]
        simp [hgt]
  | v :: V, U, s, l, fuel, h, hcmp, hkey, hsz, hlev, hV, hW, hVE, hf => by
    obtain ⟨f, rfl⟩ : ∃ f, fuel = f + 1 := ⟨fuel - 1, by simp at hf; omega⟩
    have hv := hV v (by simp)
    have hne : (⟨Owner.node v, (i : Int)⟩ : Link) ≠ ⟨E, (i : Int)⟩ :=
      link_mk_ne_owner (hVE v (by simp))
    have hring : Ring s i (lev sz i l) := by
      have := h.rings i hi
      rwa [hsz] at this
    have hnext : s.next ⟨Owner.node v, (i : Int)⟩ = ⟨firstO (V ++ W), (i : Int)⟩ := by
      have e : lev sz i l = (U ++ [v]) ++ (V ++ W) := by rw [hlev]; simp
      rw [e] at hring
      have := ring_adj s i _ _ hring
      rw [lastO_concat] at this
      exact this.1
    have hngt : ¬ s.comp (s.key v) k > 0 := by
      rw [hcmp, hkey]
      rcases hv with h1 | h1 <;> omega
    show ∃ s', remove_scan k i (f + 1) s ⟨Owner.node v, (i : Int)⟩
        (s.next ⟨Owner.node v, (i : Int)⟩) ⟨E, (i : Int)⟩ = _ ∧ _
    unfold remove_scan
    simp only [hne, if_false, list_entry_node, hngt]
    rw [hnext]
    by_cases heq : cmp (key v) k = 0
    · have hsv : sz v = i + 1 := by
        rcases hv with h1 | h1
        · omega
        · exact h1.2
      have hvl : v ∈ l := by
        have : v ∈ lev sz i l := by rw [hlev]; simp
        exact ((mem_lev sz i l v).1 this).1
      have heq2 : s.comp (s.key v) k = 0 := by rw [hcmp, hkey]; exact heq
      simp only [heq2, if_true]
      obtain ⟨g0, g1, g2, g3, g4, g5, g6, g7⟩ := remove_node_inv s l v i h hvl (by rw [hsz]; exact hsv)
      generalize __skiplist_remove_node s v (i + 1) = s1 at g0 g1 g2 g3 g4 g5 g6 g7 ⊢
      have hnd : (U ++ v :: V ++ W).Nodup := by
        rw [← hlev]
        exact h.nodup.filter _
      have hlev1 : lev sz i (l.filter (fun y => !decide (y = v))) = (U ++ V) ++ W := by
        unfold lev at hlev ⊢
        rw [List.filter_filter]
        have : l.filter (fun a => decide (i < sz a) && !decide (a = v)) =
            (l.filter (fun a => decide (i < sz a))).filter (fun y => !decide (y = v)) := by
          rw [List.filter_filter]
          apply List.filter_congr
          intro a _
          exact Bool.and_comm _ _
        rw [this, hlev]
        have := filter_ne_split U (V ++ W) v (by simpa using hnd)
        simpa using this
      obtain ⟨s', r1, r2, r3⟩ := remove_scan_spec k i E W cmp key sz hi V U s1 _ f g0
        (by rw [g1, hcmp]) (by rw [g2, hkey]) (by rw [g4, hsz])
        (by rw [hlev1]) (fun a ha => hV a (by simp [ha])) hW
        (fun a ha => hVE a (by simp [ha])) (by simp at hf; omega)
      refine ⟨s', r1, ?_, r3.1, r3.2.1, r3.2.2.1, by rw [r3.2.2.2.1, g3], by rw [r3.2.2.2.2, g5]⟩
      rw [List.filter_filter] at r2
      have : l.filter (fun x => !(decide (x ∈ v :: V) && decide (cmp (key x) k = 0))) =
          l.filter (fun a => (!(decide (a ∈ V) && decide (cmp (key a) k = 0))) && !decide (a = v)) := by
        apply List.filter_congr
        intro a _
        by_cases e : a = v
        · subst e
          simp [heq]
        · simp [e]
      rw [this]
      exact r2
    · have hlt : cmp (key v) k < 0 := by
        rcases hv with h1 | h1
        · exact h1
        · exact absurd h1.1 heq
      have heq2 : ¬ s.comp (s.key v) k = 0 := by rw [hcmp, hkey]; exact heq
      simp only [heq2, if_false]
      obtain ⟨s', r1, r2, r3⟩ := remove_scan_spec k i E W cmp key sz hi V (U ++ [v]) s l f h
        hcmp hkey hsz (by rw [hlev]; simp) (fun a ha => hV a (by simp [ha])) hW
        (fun a ha => hVE a (by simp [ha])) (by simp at hf; omega)
      refine ⟨s', r1, ?_, r3⟩
      have : l.filter (fun x => !(decide (x ∈ v :: V) && decide (cmp (key x) k = 0))) =
          l.filter (fun x => !(decide (x ∈ V) && decide (cmp (key x) k = 0))) := by
        apply List.filter_congr
        intro a _
        by_cases e : a = v
        · subst e
          simp [heq]
        · simp [e]
      rw [this]
      exact r2

/-! ## The level loop of `skiplist_remove` -/

theorem pending_lt (cmp : Nat → Nat → Int) (key sz : Nat → Nat) (k c : Nat) (l0 : List Nat) :
    (pending cmp key sz k c l0).filter (fun x => decide (cmp (key x) k < 0)) =
      l0.filter (fun x => decide (cmp (key x) k < 0)) := by
  unfold pending
  rw [List.filter_filter]
  apply List.filter_congr
  intro x _
  by_cases h : cmp (key x) k < 0
  · have : ¬ cmp (key x) k = 0 := by omega
    simp [h, this]
  · simp [h]

theorem pending_gt (cmp : Nat → Nat → Int) (key sz : Nat → Nat) (k c : Nat) (l0 : List Nat) :
    (pending cmp key sz k c l0).filter (fun x => decide (0 < cmp (key x) k)) =
      l0.filter (fun x => decide (0 < cmp (key x) k)) := by
  unfold pending
  rw [List.filter_filter]
  apply List.filter_congr
  intro x _
  by_cases h : 0 < cmp (key x) k
  · have : ¬ cmp (key x) k = 0 := by omega
    simp [h, this]
  · simp [h]

theorem mem_pending_eq (cmp : Nat → Nat → Int) (key sz : Nat → Nat) (k c : Nat) (l0 : List Nat)
    (x : Nat) :
    x ∈ (pending cmp key sz k c l0).filter (fun x => decide (cmp (key x) k = 0)) ↔
      x ∈ l0 ∧ cmp (key x) k = 0 ∧ sz x ≤ c := by
  unfold pending
  simp only [List.mem_filter, Bool.not_eq_true', Bool.and_eq_false_iff, decide_eq_false_iff_not,
    decide_eq_true_eq]
  constructor
  · rintro ⟨⟨h1, h2⟩, h3⟩
    refine ⟨h1, h3, ?_⟩
    rcases h2 with h2 | h2
    · exact absurd h3 h2
    · omega
  · rintro ⟨h1, h2, h3⟩
    exact ⟨⟨h1, Or.inr (by omega)⟩, h2⟩

theorem pending_succ (cmp : Nat → Nat → Int) (key sz : Nat → Nat) (k c : Nat) (l0 : List Nat) :
    (pending cmp key sz k (c + 1) l0).filter
        (fun x => !(decide (cmp (key x) k = 0) && decide (c < sz x))) =
      pending cmp key sz k c l0 := by
  unfold pending
  rw [List.filter_filter]
  apply List.filter_congr
  intro x _
  by_cases h : cmp (key x) k = 0
  · by_cases h2 : c < sz x
    · simp [h, h2]
    · have : ¬ c + 1 < sz x := by omega
      simp [h, h2, this]
  · simp [h]

theorem inv_level_three (s : State) (l : List Nat) (k i : Nat) (hc : TotalPreorder s.comp)
    (h : Inv s l) :
    lev s.size i l = lev s.size i (l.filter (fun x => decide (s.comp (s.key x) k < 0))) ++
      (lev s.size i (l.filter (fun x => decide (s.comp (s.key x) k = 0))) ++
        lev s.size i (l.filter (fun x => decide (0 < s.comp (s.key x) k)))) := by
  have := sorted_three s.comp s.key hc k l h.sorted
  rw [← lev_append, ← lev_append, ← this]

theorem remove_levels_spec (k fuel : Nat) (cmp : Nat → Nat → Int) (key sz : Nat → Nat)
    (l0 : List Nat) (hc : TotalPreorder cmp) (hf : l0.length < fuel) :
    ∀ (c : Nat) (s : State), c ≤ MAX_LEVEL →
      Inv s (pending cmp key sz k c l0) → s.comp = cmp → s.key = key → s.size = sz →
      ∃ s', remove_levels k fuel c s
          ⟨lastO (lev sz c (l0.filter (fun x => decide (cmp (key x) k < 0)))), (c : Int) - 1⟩
          ⟨firstO (lev sz c (l0.filter (fun x => decide (0 < cmp (key x) k)))), (c : Int) - 1⟩ =
            Except.ok s' ∧
        Inv s' (l0.filter (fun x => !decide (cmp (key x) k = 0))) ∧
        s'.comp = cmp ∧ s'.key = key ∧ s'.size = sz ∧ s'.value = s.value ∧
        s'.nalloc = s.nalloc := by
  intro c
  induction c with
  | zero =>
    intro s _ h hcmp hkey hsz
    refine ⟨s, rfl, ?_, hcmp, hkey, hsz, rfl, rfl⟩
    have e : pending cmp key sz k 0 l0 = l0.filter (fun x => !decide (cmp (key x) k = 0)) := by
      unfold pending
      apply List.filter_congr
      intro x hx
      by_cases he : cmp (key x) k = 0
      · have : 0 < sz x := by
          by_contra h0
          have hx2 : x ∈ pending cmp key sz k 0 l0 := by
            unfold pending
            rw [List.mem_filter]
            exact ⟨hx, by simp [h0]⟩
          have := h.size_pos x hx2
          rw [hsz] at this
          exact h0 this
        simp [he, this]
      · simp [he]
    rw [← e]
    exact h
  | succ i ih =>
    intro s hc32 h hcmp hkey hsz
    have hi : i < MAX_LEVEL := by omega
    have hcs : TotalPreorder s.comp := by rw [hcmp]; exact hc
    have hthree := inv_level_three s _ k i hcs h
    rw [hcmp, hkey, hsz, pending_lt, pending_gt] at hthree
    generalize hA : l0.filter (fun x => decide (cmp (key x) k < 0)) = A at hthree ⊢
    generalize hC : l0.filter (fun x => decide (0 < cmp (key x) k)) = C at hthree ⊢
    generalize hM : (pending cmp key sz k (i + 1) l0).filter (fun x => decide (cmp (key x) k = 0)) = M
      at hthree
    have hAm : ∀ a ∈ A, cmp (key a) k < 0 := by
      intro a ha
      rw [← hA] at ha
      simpa using (List.mem_filter.1 ha).2
    have hCm : ∀ a ∈ C, 0 < cmp (key a) k := by
      intro a ha
      rw [← hC] at ha
      simpa using (List.mem_filter.1 ha).2
    have hMm : ∀ a, a ∈ M ↔ a ∈ l0 ∧ cmp (key a) k = 0 ∧ sz a ≤ i + 1 := by
      intro a
      rw [← hM]
      exact mem_pending_eq cmp key sz k (i + 1) l0 a
    obtain ⟨U, Y, hUY, hlast, _⟩ :=
      filter_lastO_split (fun m => decide (i + 1 < sz m)) (lev sz i A)
    rw [← lev_succ] at hlast
    have hYA : ∀ y ∈ Y, y ∈ A := by
      intro y hy
      have : y ∈ lev sz i A := by rw [hUY]; exact List.mem_append_right _ hy
      exact ((mem_lev sz i A y).1 this).1
    have hlev : lev sz i (pending cmp key sz k (i + 1) l0) = U ++ (Y ++ lev sz i M) ++ lev sz i C := by
      rw [hthree, hUY]
      simp
    have hV : ∀ v ∈ Y ++ lev sz i M, cmp (key v) k < 0 ∨ (cmp (key v) k = 0 ∧ sz v = i + 1) := by
      intro v hv
      rcases List.mem_append.1 hv with h1 | h1
      · exact Or.inl (hAm v (hYA v h1))
      · have h2 := (mem_lev sz i M v).1 h1
        have h3 := (hMm v).1 h2.1
        exact Or.inr ⟨h3.2.1, by omega⟩
    have hW : firstO (lev sz i C) = firstO (lev sz (i + 1) C) ∨
        ∃ t, firstO (lev sz i C) = Owner.node t ∧ 0 < cmp (key t) k := by
      rw [lev_succ sz i C]
      rcases firstO_filter (fun m => decide (i + 1 < sz m)) (lev sz i C) with h1 | ⟨t, ht, h1⟩
      · exact Or.inl h1
      · exact Or.inr ⟨t, h1, hCm t ((mem_lev sz i C t).1 ht).1⟩
    have hVE : ∀ v ∈ Y ++ lev sz i M, Owner.node v ≠ firstO (lev sz (i + 1) C) := by
      intro v hv e
      rcases firstO_mem _ _ e.symm with h1 | ⟨t, ht, h1⟩
      · cases h1
      · cases h1
        have hgt := hCm v ((mem_lev sz (i + 1) C v).1 ht).1
        rcases hV v hv with h2 | h2 <;> omega
    have hlen : (Y ++ lev sz i M).length < fuel := by
      have h1 : (U ++ (Y ++ lev sz i M) ++ lev sz i C).length ≤ l0.length := by
        rw [← hlev]
        exact le_trans (List.length_filter_le _ _) (List.length_filter_le _ _)
      simp only [List.length_append] at h1 ⊢
      omega
    obtain ⟨s1, r1, r2, r3, r4, r5, r6, r7⟩ := remove_scan_spec k i (firstO (lev sz (i + 1) C))
      (lev sz i C) cmp key sz hi (Y ++ lev sz i M) U s _ fuel h hcmp hkey hsz hlev hV hW hVE hlen
    have hring : Ring s i (U ++ ((Y ++ lev sz i M) ++ lev sz i C)) := by
      have := h.rings i hi
      rw [hsz, hlev] at this
      simpa using this
    have hnext : s.next ⟨lastO U, (i : Int)⟩ =
        ⟨firstO ((Y ++ lev sz i M) ++ lev sz i C), (i : Int)⟩ := (ring_adj s i _ _ hring).1
    have hl1 : (pending cmp key sz k (i + 1) l0).filter
        (fun x => !(decide (x ∈ Y ++ lev sz i M) && decide (cmp (key x) k = 0))) =
        pending cmp key sz k i l0 := by
      refine Eq.trans ?_ (pending_succ cmp key sz k i l0)
      apply List.filter_congr
      intro x hx
      by_cases he : cmp (key x) k = 0
      · have hxM : x ∈ M := by
          rw [← hM, List.mem_filter]
          exact ⟨hx, by simpa using he⟩
        have e : (x ∈ Y ++ lev sz i M) ↔ (i < sz x) := by
          constructor
          · intro hm
            rcases List.mem_append.1 hm with h1 | h1
            · have := hAm x (hYA x h1)
              omega
            · exact ((mem_lev sz i M x).1 h1).2
          · intro hlt
            exact List.mem_append_right _ ((mem_lev sz i M x).2 ⟨hxM, hlt⟩)
        simp only [e]
        simp [he, Bool.and_comm]
      · simp [he]
    rw [hl1] at r2
    have hprev : s1.prev ⟨firstO (lev sz i C), (i : Int)⟩ = ⟨lastO (lev sz i A), (i : Int)⟩ := by
      have hcs1 : TotalPreorder s1.comp := by rw [r3]; exact hc
      have h3 := inv_level_three s1 _ k i hcs1 r2
      rw [r3, r4, r5, pending_lt, pending_gt, hA, hC] at h3
      have hnil : lev sz i ((pending cmp key sz k i l0).filter
          (fun x => decide (cmp (key x) k = 0))) = [] := by
        unfold lev
        rw [List.filter_eq_nil_iff]
        intro a ha
        have := (mem_pending_eq cmp key sz k i l0 a).1 ha
        simp only [decide_eq_true_eq]
        omega
      rw [hnil, List.nil_append] at h3
      have hr := r2.rings i hi
      rw [r5, h3] at hr
      exact (ring_adj s1 i _ _ hr).2
    rw [cast_succ_sub_one, ← hlast]
    unfold remove_levels
    rw [hnext]
    simp only [r1, hprev]
    have hdec : ∀ o : Owner, Link.dec ⟨o, (i : Int)⟩ = ⟨o, (i : Int) - 1⟩ := fun _ => rfl
    rw [hdec, hdec]
    obtain ⟨s', q1, q2, q3, q4, q5, q6, q7⟩ := ih s1 (by omega) r2 r3 r4 r5
    rw [hA, hC] at q1
    exact ⟨s', q1, q2, q3, q4, q5, by rw [q6, r6], by rw [q7, r7]⟩

theorem skiplist_remove_inv (s : State) (l : List Nat) (k fuel : Nat) (hc : TotalPreorder s.comp)
    (h : Inv s l) (hf : l.length < fuel) :
    ∃ s', skiplist_remove fuel s k = Except.ok s' ∧
      Inv s' (l.filter (fun x => !decide (s.comp (s.key x) k = 0))) ∧
      s'.comp = s.comp ∧ s'.key = s.key ∧ s'.size = s.size ∧ s'.value = s.value ∧
      s'.nalloc = s.nalloc := by
  have hcast : (s.level.toNat : Int) = s.level := Int.toNat_of_nonneg h.level_nonneg
  have hc32 : s.level.toNat ≤ MAX_LEVEL := by
    have := h.level_le
    omega
  have hp : pending s.comp s.key s.size k s.level.toNat l = l := by
    unfold pending
    rw [List.filter_eq_self]
    intro a ha
    have := h.size_le_level a ha
    have : ¬ s.level.toNat < s.size a := by omega
    simp [this]
  have htop : ∀ (X : List Nat), (∀ x ∈ X, x ∈ l) → lev s.size s.level.toNat X = [] := by
    intro X hX
    unfold lev
    rw [List.filter_eq_nil_iff]
    intro a ha
    have := h.size_le_level a (hX a ha)
    simp only [decide_eq_true_eq]
    omega
  obtain ⟨s', r1, r2⟩ := remove_levels_spec k fuel s.comp s.key s.size l hc hf s.level.toNat s
    hc32 (by rw [hp]; exact h) rfl rfl rfl
  rw [htop _ (fun x hx => (List.mem_filter.1 hx).1), htop _ (fun x hx => (List.mem_filter.1 hx).1),
    hcast] at r1
  exact ⟨s', r1, r2⟩

/-! ## `skiplist_search` -/

theorem search_scan_spec (s : State) (k : Nat) (i : Nat) (E : Owner) :
    ∀ (Y : List Nat) (P T : Owner) (fuel : Nat) (node : Option Nat),
      List.Chain' (Adj s i) (P :: (Y.map Owner.node ++ [T])) →
      (∀ y ∈ Y, s.comp (s.key y) k < 0 ∧ Owner.node y ≠ E) →
      (T = E ∨ ∃ t, T = Owner.node t ∧ s.comp (s.key t) k ≥ 0) →
      Y.length < fuel →
      ∃ node1, search_scan s k i fuel (s.next ⟨P, (i : Int)⟩) ⟨E, (i : Int)⟩ node =
          Except.ok (⟨T, (i : Int)⟩, node1) ∧
        (T ≠ E → ∃ t, T = Owner.node t ∧ node1 = some t) ∧
        (T = E → (Y = [] ∧ node1 = node) ∨ ∃ y ∈ Y, node1 = some y)
  | [], P, T, fuel, node, hc, _, hT, hf => by
    have e : s.next ⟨P, (i : Int)⟩ = ⟨T, (i : Int)⟩ := (List.chain'_cons.1 hc).1.1
    obtain ⟨f, rfl⟩ : ∃ f, fuel = f + 1 := ⟨fuel - 1, by simp at hf; omega⟩
    rw [e]
    unfold search_scan
    by_cases hTE : T = E
    · refine ⟨node, by simp [hTE], fun h => absurd hTE h, fun _ => Or.inl ⟨rfl, rfl⟩⟩
    · rcases hT with h | ⟨t, rfl, ht⟩
      · exact absurd h hTE
      · have : (⟨Owner.node t, (i : Int)⟩ : Link) ≠ ⟨E, (i : Int)⟩ := link_mk_ne_owner hTE
        refine ⟨some t, by simp [this, list_entry_node, ht], fun _ => ⟨t, rfl, rfl⟩,
          fun h => absurd h hTE⟩
  | y :: Y, P, T, fuel, node, hc, hY, hT, hf => by
    have e : s.next ⟨P, (i : Int)⟩ = ⟨Owner.node y, (i : Int)⟩ := (List.chain'_cons.1 hc).1.1
    obtain ⟨f, rfl⟩ : ∃ f, fuel = f + 1 := ⟨fuel - 1, by simp at hf; omega⟩
    have hy := hY y (by simp)
    have hne : (⟨Owner.node y, (i : Int)⟩ : Link) ≠ ⟨E, (i : Int)⟩ := link_mk_ne_owner hy.2
    have hlt : ¬ s.comp (s.key y) k ≥ 0 := by omega
    obtain ⟨node1, r1, r2, r3⟩ := search_scan_spec s k i E Y (Owner.node y) T f (some y)
      (List.chain'_cons.1 hc).2 (fun a ha => hY a (by simp [ha])) hT (by simp at hf; omega)
    refine ⟨node1, ?_, r2, ?_⟩
    · rw [e]
      unfold search_scan
      simp only [hne, if_false, list_entry_node, hlt]
      exact r1
    · intro hTE
      right
      rcases r3 hTE with ⟨_, h2⟩ | ⟨y', hy', h2⟩
      · exact ⟨y, by simp, h2⟩
      · exact ⟨y', by simp [hy'], h2⟩

theorem lastO_eq_head_iff (l : List Nat) : lastO l = Owner.head ↔ l = [] := by
  constructor
  · intro h
    induction l using List.reverseRecOn with
    | nil => rfl
    | append_singleton X x _ =>
      rw [lastO_concat] at h
      cases h
  · intro h
    rw [h]
    rfl

theorem search_levels_spec (s : State) (l : List Nat) (k fuel : Nat) (hc : TotalPreorder s.comp)
    (h : Inv s l) (hf : l.length < fuel) :
    ∀ (c : Nat) (node : Option Nat), c ≤ MAX_LEVEL →
      (firstO (lev s.size c (l.filter (fun x => !decide (s.comp (s.key x) k < 0)))) = Owner.head ∨
        ∃ t, firstO (lev s.size c (l.filter (fun x => !decide (s.comp (s.key x) k < 0)))) =
          Owner.node t ∧ 0 < s.comp (s.key t) k) →
      (∀ m, node = some m → m ∈ l ∧ s.comp (s.key m) k ≠ 0) →
      (node = none → lev s.size c l = [] ∧ ∀ i, c = i + 1 → lev s.size i l ≠ []) →
      ∃ r, search_levels s k fuel c
          ⟨lastO (lev s.size c (l.filter (fun x => decide (s.comp (s.key x) k < 0)))), (c : Int) - 1⟩
          ⟨firstO (lev s.size c (l.filter (fun x => !decide (s.comp (s.key x) k < 0)))), (c : Int) - 1⟩
          node = Except.ok r ∧
        (∀ m, r = some m → m ∈ l ∧ s.comp (s.key m) k = 0) ∧
        (r = none → ∀ x ∈ l, s.comp (s.key x) k ≠ 0) := by
  have hsplit := sorted_two s.comp s.key hc k l h.sorted
  generalize hA : l.filter (fun x => decide (s.comp (s.key x) k < 0)) = A at hsplit ⊢
  generalize hB : l.filter (fun x => !decide (s.comp (s.key x) k < 0)) = B at hsplit ⊢
  have hAl : ∀ a ∈ A, a ∈ l ∧ s.comp (s.key a) k < 0 := by
    intro a ha
    rw [← hA] at ha
    simpa using List.mem_filter.1 ha
  have hBl : ∀ b ∈ B, b ∈ l ∧ s.comp (s.key b) k ≥ 0 := by
    intro b hb
    rw [← hB] at hb
    simpa using List.mem_filter.1 hb
  have hdis : ∀ a, a ∈ A → a ∈ B → False := by
    intro a ha hb
    have := (hAl a ha).2
    have := (hBl a hb).2
    omega
  intro c
  induction c with
  | zero =>
    intro node _ hgt _ _
    refine ⟨none, rfl, (fun m e => by cases e), ?_⟩
    intro _ x hx hxe
    have hB0 : lev s.size 0 B = B :=
      lev_zero s.size B (fun n hn => h.size_pos n (hBl n hn).1)
    rw [hB0] at hgt
    have hxB : x ∈ B := by
      rw [← hB, List.mem_filter]
      refine ⟨hx, ?_⟩
      simp only [Bool.not_eq_true', decide_eq_false_iff_not]
      omega
    rcases hgt with h0 | ⟨t, ht, htk⟩
    · rw [firstO_eq_head_iff] at h0
      rw [h0] at hxB
      cases hxB
    · cases B with
      | nil => cases hxB
      | cons b B =>
        simp only [firstO] at ht
        cases ht
        rcases List.mem_cons.1 hxB with rfl | hxB2
        · omega
        · have hs : SortedBy s.comp s.key (A ++ t :: B) := by rw [← hsplit]; exact h.sorted
          unfold SortedBy at hs
          have h1 := (List.pairwise_append.1 hs).2.1
          have h2 := (List.pairwise_cons.1 h1).1 x hxB2
          have := hc.trans (s.key t) (s.key x) k h2 (le_of_eq hxe)
          omega
  | succ i ih =>
    intro node hc32 hgt hnode hnn
    have hi : i < MAX_LEVEL := by omega
    have hring : Ring s i (lev s.size i A ++ lev s.size i B) := by
      have := h.rings i hi
      rwa [hsplit, lev_append] at this
    obtain ⟨U, Y, hUY, hlast, _⟩ :=
      filter_lastO_split (fun m => decide (i + 1 < s.size m)) (lev s.size i A)
    rw [← lev_succ] at hlast
    have hYA : ∀ y ∈ Y, y ∈ A := by
      intro y hy
      have : y ∈ lev s.size i A := by rw [hUY]; exact List.mem_append_right _ hy
      exact ((mem_lev s.size i A y).1 this).1
    have hseg := ring_segment s i U Y (lev s.size i B) (by rw [← hUY]; exact hring)
    have hTcases : firstO (lev s.size i B) = firstO (lev s.size (i + 1) B) ∨
        ∃ t, firstO (lev s.size i B) = Owner.node t ∧ s.comp (s.key t) k ≥ 0 := by
      rw [lev_succ s.size i B]
      rcases firstO_filter (fun m => decide (i + 1 < s.size m)) (lev s.size i B) with h1 | ⟨t, ht, h1⟩
      · exact Or.inl h1
      · exact Or.inr ⟨t, h1, (hBl t ((mem_lev s.size i B t).1 ht).1).2⟩
    obtain ⟨node1, q1, q2, q3⟩ := search_scan_spec s k i (firstO (lev s.size (i + 1) B)) Y (lastO U)
      (firstO (lev s.size i B)) fuel node hseg
      (by
        intro y hy
        refine ⟨(hAl y (hYA y hy)).2, ?_⟩
        intro e
        rcases firstO_mem _ _ e.symm with h1 | ⟨t, ht, h1⟩
        · cases h1
        · cases h1
          exact hdis y (hYA y hy) ((mem_lev s.size (i + 1) B y).1 ht).1)
      hTcases
      (by
        have h1 : Y.length ≤ (lev s.size i A).length := by rw [hUY]; simp
        have h2 : (lev s.size i A).length ≤ A.length := List.length_filter_le _ _
        have h3 : l.length = A.length + B.length := by rw [hsplit]; exact List.length_append _ _
        omega)
    rw [hlast] at q1
    have hprev : s.prev ⟨firstO (lev s.size i B), (i : Int)⟩ = ⟨lastO (lev s.size i A), (i : Int)⟩ :=
      (ring_adj s i _ _ hring).2
    -- the node held after the scan
    have hnode1 : ∃ m, node1 = some m ∧ m ∈ l ∧
        (firstO (lev s.size i B) ≠ firstO (lev s.size (i + 1) B) →
          firstO (lev s.size i B) = Owner.node m) := by
      by_cases hTE : firstO (lev s.size i B) = firstO (lev s.size (i + 1) B)
      · rcases q3 hTE with ⟨hY0, hn1⟩ | ⟨y, hy, hn1⟩
        · cases hnd : node with
          | some m =>
            exact ⟨m, by rw [hn1, hnd], (hnode m hnd).1, fun e => absurd hTE e⟩
          | none =>
            exfalso
            obtain ⟨e1, e2⟩ := hnn hnd
            rw [hsplit, lev_append] at e1
            have eA := (List.append_eq_nil.1 e1).1
            have eB := (List.append_eq_nil.1 e1).2
            rw [eA] at hlast
            have hU : U = [] := (lastO_eq_head_iff U).1 hlast
            have hiA : lev s.size i A = [] := by rw [hUY, hU, hY0]; rfl
            have hiB : lev s.size i B = [] := by
              rw [eB] at hTE
              exact (firstO_eq_head_iff _).1 hTE
            apply e2 i rfl
            rw [hsplit, lev_append, hiA, hiB]
            rfl
        · exact ⟨y, hn1, (hAl y (hYA y hy)).1, fun e => absurd hTE e⟩
      · obtain ⟨t, ht, hn1⟩ := q2 hTE
        have htB : t ∈ lev s.size i B := by
          cases hB2 : lev s.size i B with
          | nil => rw [hB2] at ht; cases ht
          | cons b B2 =>
            rw [hB2] at ht
            simp only [firstO] at ht
            cases ht
            simp
        exact ⟨t, hn1, (hBl t ((mem_lev s.size i B t).1 htB).1).1, fun _ => ht⟩
    obtain ⟨m, hm1, hm2, hm3⟩ := hnode1
    rw [cast_succ_sub_one]
    unfold search_levels
    simp only [q1, hm1]
    by_cases heq : s.comp (s.key m) k = 0
    · simp only [heq, if_true]
      refine ⟨some m, rfl, ?_, (fun e => by cases e)⟩
      intro m' e
      cases e
      exact ⟨hm2, heq⟩
    · simp only [heq, if_false, hprev]
      have hdec : ∀ o : Owner, Link.dec ⟨o, (i : Int)⟩ = ⟨o, (i : Int) - 1⟩ := fun _ => rfl
      rw [hdec, hdec]
      refine ih (some m) (by omega) ?_ ?_ ?_
      · by_cases hTE : firstO (lev s.size i B) = firstO (lev s.size (i + 1) B)
        · rw [hTE]; exact hgt
        · have ht := hm3 hTE
          refine Or.inr ⟨m, ht, ?_⟩
          have htB : m ∈ lev s.size i B := by
            cases hB2 : lev s.size i B with
            | nil => rw [hB2] at ht; cases ht
            | cons b B2 =>
              rw [hB2] at ht
              simp only [firstO] at ht
              cases ht
              simp
          have := (hBl m ((mem_lev s.size i B m).1 htB).1).2
          omega
      · intro m' e
        cases e
        exact ⟨hm2, heq⟩
      · intro e
        cases e

/-- On a list that holds an entry, `skiplist_search` returns a stored node with
an equal key, or `NULL` when no stored key is equal. -/
theorem skiplist_search_spec (s : State) (l : List Nat) (k fuel : Nat) (hc : TotalPreorder s.comp)
    (h : Inv s l) (hne : l ≠ []) (hf : l.length < fuel) :
    ∃ r, skiplist_search fuel s k = Except.ok r ∧
      (∀ m, r = some m → m ∈ l ∧ s.comp (s.key m) k = 0) ∧
      (r = none → ∀ x ∈ l, s.comp (s.key x) k ≠ 0) := by
  have hcast : (s.level.toNat : Int) = s.level := Int.toNat_of_nonneg h.level_nonneg
  have hc32 : s.level.toNat ≤ MAX_LEVEL := by
    have := h.level_le
    omega
  have htop : ∀ (X : List Nat), (∀ x ∈ X, x ∈ l) → lev s.size s.level.toNat X = [] := by
    intro X hX
    unfold lev
    rw [List.filter_eq_nil_iff]
    intro a ha
    have := h.size_le_level a (hX a ha)
    simp only [decide_eq_true_eq]
    omega
  have hA0 := htop (l.filter (fun x => decide (s.comp (s.key x) k < 0)))
    (fun x hx => (List.mem_filter.1 hx).1)
  have hB0 := htop (l.filter (fun x => !decide (s.comp (s.key x) k < 0)))
    (fun x hx => (List.mem_filter.1 hx).1)
  obtain ⟨r, r1, r2⟩ := search_levels_spec s l k fuel hc h hf s.level.toNat none hc32
    (by rw [hB0]; exact Or.inl rfl) (fun m e => by cases e)
    (by
      intro _
      refine ⟨htop l (fun _ hx => hx), ?_⟩
      intro i hi
      obtain ⟨n, hn, e⟩ := maxSize_attained s.size l hne
      have hlv := h.level_eq hne
      intro hnil
      have := (lev_eq_nil_iff s.size l i).1 hnil
      omega)
  rw [hA0, hB0, hcast] at r1
  exact ⟨r, r1, r2⟩

/-- On an empty list whose level is `0`, `skiplist_search` returns `NULL`. -/
theorem skiplist_search_level_zero (s : State) (k fuel : Nat) (h : s.level = 0) :
    skiplist_search fuel s k = Except.ok none := by
  unfold skiplist_search
  rw [h]
  rfl

/-- On an empty list whose level is `1`, `skiplist_search` reads `node` before
any assignment to it. -/
theorem skiplist_search_level_one (s : State) (k fuel : Nat) (h : Inv s []) (h1 : s.level = 1) :
    skiplist_search (fuel + 1) s k = Except.error Fault.uninit := by
  have hr := h.rings 0 (by simp [MAX_LEVEL])
  have e : s.next ⟨Owner.head, ((0 : Nat) : Int)⟩ = ⟨Owner.head, ((0 : Nat) : Int)⟩ := by
    have := ring_first s 0 _ hr
    simpa [lev, firstO] using this
  unfold skiplist_search
  rw [h1]
  show search_levels s k (fuel + 1) (0 + 1) ⟨Owner.head, 0⟩ ⟨Owner.head, 0⟩ none = _
  unfold search_levels
  have e2 : s.next ⟨Owner.head, 0⟩ = ⟨Owner.head, 0⟩ := by simpa using e
  rw [e2]
  simp [search_scan]

/-! ## More fuel never changes a result -/

theorem insert_scan_mono (s : State) (k i : Nat) :
    ∀ (f : Nat) (pos end_ r : Link), insert_scan s k i f pos end_ = Except.ok r →
      insert_scan s k i (f + 1) pos end_ = Except.ok r
  | 0, _, _, _, h => by simp [insert_scan] at h
  | f + 1, pos, end_, r, h => by
    unfold insert_scan at h ⊢
    by_cases hpe : pos = end_
    · simpa [hpe] using h
    · simp only [hpe, if_false] at h ⊢
      cases hle : list_entry pos i with
      | none => simp [hle] at h
      | some nd =>
        simp only [hle] at h ⊢
        by_cases hc : s.comp (s.key nd) k ≥ 0
        · simpa [hc] using h
        · simp only [hc, if_false] at h ⊢
          exact insert_scan_mono s k i f _ _ r h

theorem insert_levels_mono (k n : Nat) (L : Int) (fuel : Nat) :
    ∀ (c : Nat) (s : State) (pos end_ : Link) (r : State),
      insert_levels k n L fuel c s pos end_ = Except.ok r →
      insert_levels k n L (fuel + 1) c s pos end_ = Except.ok r
  | 0, _, _, _, _, h => by simpa [insert_levels] using h
  | c + 1, s, pos, end_, r, h => by
    unfold insert_levels at h ⊢
    cases hs : insert_scan s k c fuel (s.next pos) end_ with
    | error e => simp [hs] at h
    | ok end1 =>
      rw [insert_scan_mono s k c fuel _ _ end1 hs]
      simp only [hs] at h
      exact insert_levels_mono k n L fuel c _ _ _ r h

theorem skiplist_insert_mono (fuel : Nat) (s : State) (k v : Nat) (L : Int) (b : Bool)
    (r : State × Option Nat) (h : skiplist_insert fuel s k v L b = Except.ok r) :
    skiplist_insert (fuel + 1) s k v L b = Except.ok r := by
  unfold skiplist_insert at h ⊢
  simp only at h ⊢
  generalize skipnode_new (if L > s.level then { s with level := L } else s) L k v b = q at h ⊢
  obtain ⟨s2, o⟩ := q
  cases o with
  | none => simpa using h
  | some node =>
    simp only at h ⊢
    cases hl : insert_levels k node L fuel s2.level.toNat s2 ⟨Owner.head, s2.level - 1⟩
        ⟨Owner.head, s2.level - 1⟩ with
    | error e => simp [hl] at h
    | ok s3 =>
      rw [insert_levels_mono k node L fuel _ _ _ _ s3 hl]
      simpa [hl] using h

theorem skiplist_insert_mono_le (s : State) (k v : Nat) (L : Int) (b : Bool)
    (r : State × Option Nat) (f g : Nat) (hfg : f ≤ g)
    (h : skiplist_insert f s k v L b = Except.ok r) :
    skiplist_insert g s k v L b = Except.ok r := by
  induction hfg with
  | refl => exact h
  | step _ ih => exact skiplist_insert_mono _ s k v L b r ih

theorem remove_scan_mono (k i : Nat) :
    ∀ (f : Nat) (s : State) (pos n end_ : Link) (r : State × Link),
      remove_scan k i f s pos n end_ = Except.ok r →
      remove_scan k i (f + 1) s pos n end_ = Except.ok r
  | 0, _, _, _, _, _, h => by simp [remove_scan] at h
  | f + 1, s, pos, n, end_, r, h => by
    unfold remove_scan at h ⊢
    by_cases hpe : pos = end_
    · simpa [hpe] using h
    · simp only [hpe, if_false] at h ⊢
      cases hle : list_entry pos i with
      | none => simp [hle] at h
      | some nd =>
        simp only [hle] at h ⊢
        by_cases hc : s.comp (s.key nd) k > 0
        · simpa [hc] using h
        · simp only [hc, if_false] at h ⊢
          exact remove_scan_mono k i f _ _ _ _ r h

theorem remove_levels_mono (k : Nat) (fuel : Nat) :
    ∀ (c : Nat) (s : State) (pos end_ : Link) (r : State),
      remove_levels k fuel c s pos end_ = Except.ok r →
      remove_levels k (fuel + 1) c s pos end_ = Except.ok r
  | 0, _, _, _, _, h => by simpa [remove_levels] using h
  | c + 1, s, pos, end_, r, h => by
    unfold remove_levels at h ⊢
    cases hs : remove_scan k c fuel s (s.next pos) (s.next (s.next pos)) end_ with
    | error e => simp [hs] at h
    | ok q =>
      obtain ⟨s1, end1⟩ := q
      rw [remove_scan_mono k c fuel _ _ _ _ _ hs]
      simp only [hs] at h
      exact remove_levels_mono k fuel c _ _ _ r h

theorem skiplist_remove_mono_le (s : State) (k : Nat) (r : State) (f g : Nat) (hfg : f ≤ g)
    (h : skiplist_remove f s k = Except.ok r) : skiplist_remove g s k = Except.ok r := by
  induction hfg with
  | refl => exact h
  | step _ ih => exact remove_levels_mono k _ _ _ _ _ r ih

/-! ## Reachable states -/

theorem skiplist_new_inv (cmp : Nat → Nat → Int) (s : State)
    (h : skiplist_new cmp true = some s) : Inv s [] ∧ s.comp = cmp ∧ s.level = 1 ∧ s.nalloc = 0 := by
  simp only [skiplist_new, if_true, Option.some.injEq] at h
  subst h
  obtain ⟨f1, f2, f3, f4, f5, f6, f7, f8⟩ := init_links_fields
    { level := 1, count := 0, comp := cmp, next := fun _ => wildLink, prev := fun _ => wildLink,
      key := fun _ => 0, value := fun _ => 0, size := fun _ => 0, nalloc := 0, freed := [] }
    Owner.head MAX_LEVEL
  refine ⟨?_, f1, f5, f7⟩
  constructor
  · intro i hi
    show List.Chain' _ [Owner.head, Owner.head]
    rw [List.chain'_pair]
    constructor
    · rw [init_links_next]
      simp
      omega
    · rw [init_links_prev]
      simp
      omega
  · exact List.nodup_nil
  · exact List.Pairwise.nil
  · exact List.Pairwise.nil
  · intro n hn; cases hn
  · intro n hn; cases hn
  · intro e; exact absurd rfl e
  · intro _
    exact Or.inr ⟨f5, f7⟩
  · rw [f6]; rfl
  · intro n hn; cases hn
  · intro n hn
    rw [f7] at hn
    exact absurd hn (Nat.not_lt_zero n)
  · intro n hn; cases hn
  · intro n hn
    rw [f8] at hn
    cases hn
  · rw [f7, f8]; rfl

/-- Every reachable state satisfies the representation invariant. -/
theorem reachable_inv (cmp : Nat → Nat → Int) (hc : TotalPreorder cmp) (s : State)
    (hr : Reachable cmp s) : ∃ l, Inv s l ∧ s.comp = cmp := by
  induction hr with
  | new s h =>
    obtain ⟨h1, h2, _⟩ := skiplist_new_inv cmp s h
    exact ⟨[], h1, h2⟩
  | insert s s1 fuel k v L n _ hL1 hL2 hins ih =>
    obtain ⟨l, hinv, hcmp⟩ := ih
    obtain ⟨s2, e, hinv2, hcmp2, _⟩ := skiplist_insert_inv s l k v L (max fuel (l.length + 1))
      (by rw [hcmp]; exact hc) hinv hL1 hL2 (by omega)
    have := skiplist_insert_mono_le s k v L true _ fuel (max fuel (l.length + 1)) (le_max_left _ _) hins
    rw [this] at e
    simp only [Except.ok.injEq, Prod.mk.injEq] at e
    rw [e.1]
    exact ⟨_, hinv2, by rw [hcmp2, hcmp]⟩
  | remove s s1 fuel k _ hrem ih =>
    obtain ⟨l, hinv, hcmp⟩ := ih
    obtain ⟨s2, e, hinv2, hcmp2, _⟩ := skiplist_remove_inv s l k (max fuel (l.length + 1))
      (by rw [hcmp]; exact hc) hinv (by omega)
    have := skiplist_remove_mono_le s k _ fuel (max fuel (l.length + 1)) (le_max_left _ _) hrem
    rw [this] at e
    simp only [Except.ok.injEq] at e
    rw [e]
    exact ⟨_, hinv2, by rw [hcmp2, hcmp]⟩

/-- In a reachable state, the list read on level 0 is the list of the invariant. -/
theorem reachable_inv_ring (cmp : Nat → Nat → Int) (hc : TotalPreorder cmp) (s : State)
    (hr : Reachable cmp s) (l : List Nat) (hl : Ring s 0 l) : Inv s l ∧ s.comp = cmp := by
  obtain ⟨l0, hinv, hcmp⟩ := reachable_inv cmp hc s hr
  have := Ring.unique hl hinv.ring0
  rw [this]
  exact ⟨hinv, hcmp⟩

/-! ## Concrete lists -/

theorem cmpInt_total : TotalPreorder cmpInt :=
  ⟨fun a b => by unfold cmpInt; omega, fun a b c => by unfold cmpInt; omega⟩

theorem fresh_reachable (cmp : Nat → Nat → Int) : Reachable cmp (fresh cmp) :=
  Reachable.new _ (by simp [fresh])

theorem reachable_insertD (cmp : Nat → Nat → Int) (hc : TotalPreorder cmp) (s : State)
    (hr : Reachable cmp s) (fuel k v : Nat) (L : Int) (hL1 : 1 ≤ L) (hL2 : L ≤ (MAX_LEVEL : Int))
    (hf : s.count < (fuel : Int)) : Reachable cmp (insertD fuel s k v L) := by
  obtain ⟨l, hinv, hcmp⟩ := reachable_inv cmp hc s hr
  obtain ⟨s1, e, _⟩ := skiplist_insert_inv s l k v L fuel (by rw [hcmp]; exact hc) hinv hL1 hL2
    (by have := hinv.count_eq; omega)
  have : insertD fuel s k v L = s1 := by simp [insertD, e]
  rw [this]
  exact Reachable.insert s s1 fuel k v L _ hr hL1 hL2 e

theorem reachable_removeD (cmp : Nat → Nat → Int) (hc : TotalPreorder cmp) (s : State)
    (hr : Reachable cmp s) (fuel k : Nat) (hf : s.count < (fuel : Int)) :
    Reachable cmp (removeD fuel s k) := by
  obtain ⟨l, hinv, hcmp⟩ := reachable_inv cmp hc s hr
  obtain ⟨s1, e, _⟩ := skiplist_remove_inv s l k fuel (by rw [hcmp]; exact hc) hinv
    (by have := hinv.count_eq; omega)
  have : removeD fuel s k = s1 := by simp [removeD, e]
  rw [this]
  exact Reachable.remove s s1 fuel k hr e

theorem insertD_eq (cmp : Nat → Nat → Int) (hc : TotalPreorder cmp) (s : State)
    (hr : Reachable cmp s) (fuel k v : Nat) (L : Int) (hL1 : 1 ≤ L) (hL2 : L ≤ (MAX_LEVEL : Int))
    (hf : s.count < (fuel : Int)) :
    skiplist_insert fuel s k v L true = Except.ok (insertD fuel s k v L, some s.nalloc) := by
  obtain ⟨l, hinv, hcmp⟩ := reachable_inv cmp hc s hr
  obtain ⟨s1, e, _⟩ := skiplist_insert_inv s l k v L fuel (by rw [hcmp]; exact hc) hinv hL1 hL2
    (by have := hinv.count_eq; omega)
  have : insertD fuel s k v L = s1 := by simp [insertD, e]
  rw [this]
  exact e

theorem one5_reachable : Reachable cmpInt one5 :=
  reachable_insertD cmpInt cmpInt_total _ (fresh_reachable cmpInt) 8 5 50 1 (by decide) (by decide)
    (by decide)

theorem three357_reachable : Reachable cmpInt three357 :=
  reachable_insertD cmpInt cmpInt_total _
    (reachable_insertD cmpInt cmpInt_total _ one5_reachable 8 3 30 2 (by decide) (by decide)
      (by decide)) 8 7 70 1 (by decide) (by decide) (by decide)

theorem two55_reachable : Reachable cmpInt two55 :=
  reachable_insertD cmpInt cmpInt_total _ one5_reachable 8 5 51 1 (by decide) (by decide)
    (by decide)

/-! ## Search -/

/-- C1 (search completeness).  In every state reachable from `skiplist_new` by
successful inserts and removes, under a comparator that is a consistent total
preorder: if some entry on the level-0 list `l` has a key that compares equal to
`k`, then `skiplist_search`, run with more fuel than there are entries, returns
a node `m` (not `NULL`) that is on the level-0 list and whose key compares equal
to `k`. -/
theorem search_complete (cmp : Nat → Nat → Int) (hc : TotalPreorder cmp) (s : State)
    (hr : Reachable cmp s) (l : List Nat) (hl : Ring s 0 l) (k : Nat)
    (hk : ∃ x ∈ l, cmp (s.key x) k = 0) (fuel : Nat) (hf : l.length < fuel) :
    ∃ m, skiplist_search fuel s k = Except.ok (some m) ∧ m ∈ l ∧ cmp (s.key m) k = 0 := by
  obtain ⟨hinv, hcmp⟩ := reachable_inv_ring cmp hc s hr l hl
  obtain ⟨x, hx, hxk⟩ := hk
  obtain ⟨r, r1, r2, r3⟩ := skiplist_search_spec s l k fuel (by rw [hcmp]; exact hc) hinv
    (List.ne_nil_of_mem hx) hf
  rw [hcmp] at r2 r3
  cases r with
  | none => exact absurd hxk (r3 rfl x hx)
  | some m => exact ⟨m, r1, r2 m rfl⟩

theorem search_complete_witness :
    (Reachable cmpInt three357 ∧ Ring three357 0 [1, 0, 2] ∧
      ∃ x ∈ [1, 0, 2], cmpInt (three357.key x) 5 = 0) ∧
    ∃ m, skiplist_search 8 three357 5 = Except.ok (some m) ∧ m ∈ [1, 0, 2] ∧
      cmpInt (three357.key m) 5 = 0 :=
  ⟨⟨three357_reachable, by decide, ⟨0, by decide, by decide⟩⟩,
    search_complete cmpInt cmpInt_total three357 three357_reachable [1, 0, 2] (by decide) 5
      ⟨0, by decide, by decide⟩ 8 (by decide)⟩

/-- C2 (search soundness on a non-empty list).  In every reachable state whose
level-0 list `l` holds at least one entry, if no stored key compares equal to
`k` then `skiplist_search`, run with more fuel than there are entries, returns
`NULL`. -/
theorem search_sound (cmp : Nat → Nat → Int) (hc : TotalPreorder cmp) (s : State)
    (hr : Reachable cmp s) (l : List Nat) (hl : Ring s 0 l) (hne : l ≠ []) (k : Nat)
    (hk : ∀ x ∈ l, cmp (s.key x) k ≠ 0) (fuel : Nat) (hf : l.length < fuel) :
    skiplist_search fuel s k = Except.ok none := by
  obtain ⟨hinv, hcmp⟩ := reachable_inv_ring cmp hc s hr l hl
  obtain ⟨r, r1, r2, _⟩ := skiplist_search_spec s l k fuel (by rw [hcmp]; exact hc) hinv hne hf
  rw [hcmp] at r2
  cases r with
  | none => exact r1
  | some m => exact absurd (r2 m rfl).2 (hk m (r2 m rfl).1)

theorem search_sound_witness :
    (Reachable cmpInt three357 ∧ Ring three357 0 [1, 0, 2] ∧
      ∀ x ∈ [1, 0, 2], cmpInt (three357.key x) 4 ≠ 0) ∧
    skiplist_search 8 three357 4 = Except.ok none :=
  ⟨⟨three357_reachable, by decide, by decide⟩,
    search_sound cmpInt cmpInt_total three357 three357_reachable [1, 0, 2] (by decide)
      (by decide) 4 (by decide) 8 (by decide)⟩

/-- C3 (search on an empty list), at the list `skiplist_new` returns: the level
is 1 and `head[0]` is empty, so the scan of level 0 assigns nothing to `node`,
and the test `list->comp(node->key, key) == 0` that follows reads `node`
unassigned.  The search does not return `NULL`; it leaves defined behaviour. -/
theorem search_fresh_reads_unassigned (cmp : Nat → Nat → Int) (k fuel : Nat) :
    (skiplist_new cmp true).map (fun s => skiplist_search (fuel + 1) s k) =
      some (Except.error Fault.uninit) := by
  have h : skiplist_new cmp true = some (fresh cmp) := by simp [fresh]
  obtain ⟨h1, _, h2, _⟩ := skiplist_new_inv cmp (fresh cmp) h
  rw [h]
  simp only [Option.map_some']
  rw [skiplist_search_level_one (fresh cmp) k fuel h1 h2]

/-- A list that held entries and was emptied by removals has level 0, and
`skiplist_search` returns `NULL` on it without entering its loop. -/
theorem search_emptied (cmp : Nat → Nat → Int) (hc : TotalPreorder cmp) (s : State)
    (hr : Reachable cmp s) (hl : Ring s 0 []) (hn : 0 < s.nalloc) (k fuel : Nat) :
    s.level = 0 ∧ skiplist_search fuel s k = Except.ok none := by
  obtain ⟨hinv, _⟩ := reachable_inv_ring cmp hc s hr [] hl
  have h0 : s.level = 0 := by
    rcases hinv.level_empty rfl with h | ⟨_, h⟩
    · exact h
    · omega
  exact ⟨h0, skiplist_search_level_zero s k fuel h0⟩

/-! ## Remove, size and order -/

theorem length_filter_split (p : Nat → Bool) :
    ∀ (l : List Nat), (l.filter p).length + (l.filter (fun x => !p x)).length = l.length
  | [] => rfl
  | a :: l => by
    have ih := length_filter_split p l
    by_cases h : p a = true
    · simp only [List.filter_cons, h, if_true, Bool.not_true, Bool.false_eq_true, if_false,
        List.length_cons]
      omega
    · have h2 : p a = false := by simpa using h
      simp only [List.filter_cons, h2, Bool.false_eq_true, if_false, Bool.not_false, if_true,
        List.length_cons]
      omega

/-- C4 (remove deletes exactly the matching entries).  In every reachable
state with level-0 list `l` (the comparator being a consistent total preorder,
which every operation of the header presupposes), `skiplist_remove`, run with
more fuel than there are entries, returns; afterwards the level-0 list is `l` with exactly the
entries whose key compares equal to `k` filtered out (the others kept, in
order), no list of any level `0 .. MAX_LEVEL - 1` holds a node whose key
compares equal to `k`, the count has decreased by the number of entries
filtered out, and no key has changed. -/
theorem remove_exact (cmp : Nat → Nat → Int) (hc : TotalPreorder cmp) (s : State)
    (hr : Reachable cmp s) (l : List Nat) (hl : Ring s 0 l) (k fuel : Nat)
    (hf : l.length < fuel) :
    ∃ s1, skiplist_remove fuel s k = Except.ok s1 ∧
      Ring s1 0 (l.filter (fun x => !decide (cmp (s.key x) k = 0))) ∧
      (∀ i, i < MAX_LEVEL → ∃ li, Ring s1 i li ∧ ∀ x ∈ li, cmp (s1.key x) k ≠ 0) ∧
      s1.count = s.count - ((l.filter (fun x => decide (cmp (s.key x) k = 0))).length : Int) ∧
      s1.key = s.key := by
  obtain ⟨hinv, hcmp⟩ := reachable_inv_ring cmp hc s hr l hl
  obtain ⟨s1, e, hinv1, _, hkey, _⟩ := skiplist_remove_inv s l k fuel (by rw [hcmp]; exact hc)
    hinv hf
  rw [hcmp] at hinv1
  refine ⟨s1, e, hinv1.ring0, ?_, ?_, hkey⟩
  · intro i hi
    refine ⟨_, hinv1.rings i hi, ?_⟩
    intro x hx
    have hx2 := ((mem_lev s1.size i _ x).1 hx).1
    have := (List.mem_filter.1 hx2).2
    rw [hkey]
    simpa using this
  · rw [hinv1.count_eq, hinv.count_eq]
    have := length_filter_split (fun x => decide (cmp (s.key x) k = 0)) l
    omega

theorem remove_exact_witness :
    (Reachable cmpInt two55 ∧ Ring two55 0 [1, 0]) ∧
    ∃ s1, skiplist_remove 8 two55 5 = Except.ok s1 ∧
      Ring s1 0 ([1, 0].filter (fun x => !decide (cmpInt (two55.key x) 5 = 0))) ∧
      (∀ i, i < MAX_LEVEL → ∃ li, Ring s1 i li ∧ ∀ x ∈ li, cmpInt (s1.key x) 5 ≠ 0) ∧
      s1.count =
        two55.count - (([1, 0].filter (fun x => decide (cmpInt (two55.key x) 5 = 0))).length : Int) ∧
      s1.key = two55.key :=
  ⟨⟨two55_reachable, by decide⟩,
    remove_exact cmpInt cmpInt_total two55 two55_reachable [1, 0] (by decide) 5 8 (by decide)⟩

/-- C6 (sortedness invariant).  In every reachable state, under a comparator
that is a consistent total preorder, the level-0 list reads a list `l` from the
sentinel's `next` back to the sentinel whose keys are in non-decreasing order,
every node that was allocated and not freed is on `l`, and so is every node
found on the list of any level. -/
theorem level0_sorted (cmp : Nat → Nat → Int) (hc : TotalPreorder cmp) (s : State)
    (hr : Reachable cmp s) :
    ∃ l, Ring s 0 l ∧ SortedBy cmp s.key l ∧
      (∀ n, n < s.nalloc → n ∉ s.freed → n ∈ l) ∧
      ∀ i li, i < MAX_LEVEL → Ring s i li → ∀ x ∈ li, x ∈ l := by
  obtain ⟨l, hinv, hcmp⟩ := reachable_inv cmp hc s hr
  refine ⟨l, hinv.ring0, by rw [← hcmp]; exact hinv.sorted, hinv.live, ?_⟩
  intro i li hi hli x hx
  have := Ring.unique hli (hinv.rings i hi)
  rw [this] at hx
  exact ((mem_lev s.size i l x).1 hx).1

theorem level0_sorted_witness :
    Reachable cmpInt three357 ∧
    ∃ l, Ring three357 0 l ∧ SortedBy cmpInt three357.key l ∧
      (∀ n, n < three357.nalloc → n ∉ three357.freed → n ∈ l) ∧
      ∀ i li, i < MAX_LEVEL → Ring three357 i li → ∀ x ∈ li, x ∈ l :=
  ⟨three357_reachable, level0_sorted cmpInt cmpInt_total three357 three357_reachable⟩

/-! ## Round trips -/

theorem mem_insertAt (cmp : Nat → Nat → Int) (key : Nat → Nat) (k n : Nat) (l : List Nat)
    (x : Nat) : x ∈ insertAt cmp key k n l ↔ x = n ∨ x ∈ l := by
  have h := List.takeWhile_append_dropWhile (fun x => decide (cmp (key x) k < 0)) l
  unfold insertAt
  constructor
  · intro hx
    rcases List.mem_append.1 hx with h1 | h1
    · exact Or.inr (List.takeWhile_subset _ h1)
    · rcases List.mem_cons.1 h1 with h2 | h2
      · exact Or.inl h2
      · exact Or.inr (List.dropWhile_subset _ h2)
  · intro hx
    rcases hx with rfl | hx
    · simp
    · rw [← h] at hx
      rcases List.mem_append.1 hx with h1 | h1
      · exact List.mem_append_left _ h1
      · exact List.mem_append_right _ (List.mem_cons_of_mem _ h1)

theorem length_insertAt (cmp : Nat → Nat → Int) (key : Nat → Nat) (k n : Nat) (l : List Nat) :
    (insertAt cmp key k n l).length = l.length + 1 := by
  have h := List.takeWhile_append_dropWhile (fun x => decide (cmp (key x) k < 0)) l
  have h2 := congrArg List.length h
  unfold insertAt
  simp only [List.length_append, List.length_cons] at h2 ⊢
  omega

/-- Filtering the key `k` out again after inserting it gives what filtering
the old list gives. -/
theorem insertAt_filter_ne (cmp : Nat → Nat → Int) (key key1 : Nat → Nat) (k n : Nat)
    (l : List Nat) (hc : TotalPreorder cmp) (hk1 : key1 n = k)
    (hk : ∀ x ∈ l, key1 x = key x) :
    (insertAt cmp key k n l).filter (fun x => !decide (cmp (key1 x) k = 0)) =
      l.filter (fun x => !decide (cmp (key x) k = 0)) := by
  have h := List.takeWhile_append_dropWhile (fun x => decide (cmp (key x) k < 0)) l
  have e : l.filter (fun x => !decide (cmp (key x) k = 0)) =
      l.filter (fun x => !decide (cmp (key1 x) k = 0)) := by
    apply List.filter_congr
    intro x hx
    rw [hk x hx]
  rw [e]
  conv_rhs => rw [← h]
  unfold insertAt
  simp only [List.filter_append, List.filter_cons, hk1, hc.refl k, decide_True, Bool.not_true,
    Bool.false_eq_true, if_false]

theorem search_none_of_inv (s : State) (l : List Nat) (k fuel : Nat) (hc : TotalPreorder s.comp)
    (h : Inv s l) (hn : 0 < s.nalloc) (hk : ∀ x ∈ l, s.comp (s.key x) k ≠ 0)
    (hf : l.length < fuel) : skiplist_search fuel s k = Except.ok none := by
  by_cases hl : l = []
  · apply skiplist_search_level_zero
    rcases h.level_empty hl with h0 | ⟨_, h0⟩
    · exact h0
    · omega
  · obtain ⟨r, r1, r2, _⟩ := skiplist_search_spec s l k fuel hc h hl hf
    cases r with
    | none => exact r1
    | some m => exact absurd (r2 m rfl).2 (hk m (r2 m rfl).1)

/-- C7 (round trip).  In a reachable state (comparator a consistent total
preorder) with level-0 list `l` in which no key compares equal to `k`: `skiplist_insert` of `k`, `v` with a drawn level in
`1 .. MAX_LEVEL` succeeds and returns a node `n` carrying `k` and `v`;
`skiplist_search` for `k` then returns that node `n`; a following
`skiplist_remove` of `k` returns, after it `skiplist_search` for `k` returns
`NULL`, and the level-0 list and the count are what they were before the
insert.  Fuel above the entry count is assumed for every call. -/
theorem round_trip (cmp : Nat → Nat → Int) (hc : TotalPreorder cmp) (s : State)
    (hr : Reachable cmp s) (l : List Nat) (hl : Ring s 0 l) (k v : Nat) (L : Int)
    (hL1 : 1 ≤ L) (hL2 : L ≤ (MAX_LEVEL : Int)) (hk : ∀ x ∈ l, cmp (s.key x) k ≠ 0)
    (fuel : Nat) (hf : l.length + 1 < fuel) :
    ∃ s1 n, skiplist_insert fuel s k v L true = Except.ok (s1, some n) ∧
      s1.key n = k ∧ s1.value n = v ∧
      skiplist_search fuel s1 k = Except.ok (some n) ∧
      ∃ s2, skiplist_remove fuel s1 k = Except.ok s2 ∧
        skiplist_search fuel s2 k = Except.ok none ∧ Ring s2 0 l ∧ s2.count = s.count := by
  obtain ⟨hinv, hcmp⟩ := reachable_inv_ring cmp hc s hr l hl
  obtain ⟨s1, e1, hinv1, c1, k1, v1, _, _, _, na1, _⟩ := skiplist_insert_inv s l k v L fuel
    (by rw [hcmp]; exact hc) hinv hL1 hL2 (by omega)
  rw [hcmp] at hinv1 c1
  have hnl : s.nalloc ∉ l := fun e => absurd (hinv.alloc _ e) (lt_irrefl _)
  have hkn : s1.key s.nalloc = k := by rw [k1]; simp
  have hko : ∀ x ∈ l, s1.key x = s.key x := by
    intro x hx
    have : x ≠ s.nalloc := fun e => hnl (e ▸ hx)
    rw [k1]
    simp [this]
  have hc1 : TotalPreorder s1.comp := by rw [c1]; exact hc
  have hmem : s.nalloc ∈ insertAt cmp s.key k s.nalloc l := (mem_insertAt _ _ _ _ _ _).2 (Or.inl rfl)
  have hlen := length_insertAt cmp s.key k s.nalloc l
  refine ⟨s1, s.nalloc, e1, hkn, by rw [v1]; simp, ?_, ?_⟩
  · obtain ⟨r, r1, r2, r3⟩ := skiplist_search_spec s1 _ k fuel hc1 hinv1
      (List.ne_nil_of_mem hmem) (by omega)
    cases r with
    | none =>
      exfalso
      apply r3 rfl _ hmem
      rw [hkn, c1]
      exact hc.refl k
    | some m =>
      obtain ⟨hm1, hm2⟩ := r2 m rfl
      rcases (mem_insertAt _ _ _ _ _ _).1 hm1 with rfl | hm3
      · exact r1
      · exfalso
        apply hk m hm3
        rw [hko m hm3, c1] at hm2
        exact hm2
  · obtain ⟨s2, e2, hinv2, c2, k2, _, _, na2⟩ := skiplist_remove_inv s1 _ k fuel hc1 hinv1
      (by omega)
    rw [c1, insertAt_filter_ne cmp s.key s1.key k s.nalloc l hc hkn hko] at hinv2
    have hfl : l.filter (fun x => !decide (cmp (s.key x) k = 0)) = l := by
      rw [List.filter_eq_self]
      intro x hx
      simpa using hk x hx
    rw [hfl] at hinv2
    refine ⟨s2, e2, ?_, hinv2.ring0, by rw [hinv2.count_eq, hinv.count_eq]⟩
    apply search_none_of_inv s2 l k fuel (by rw [c2]; exact hc1) hinv2 (by omega)
    · intro x hx
      rw [c2, k2, c1, hko x hx]
      exact hk x hx
    · omega

theorem round_trip_witness :
    (Reachable cmpInt three357 ∧ Ring three357 0 [1, 0, 2] ∧
      ∀ x ∈ [1, 0, 2], cmpInt (three357.key x) 4 ≠ 0) ∧
    ∃ s1 n, skiplist_insert 8 three357 4 40 2 true = Except.ok (s1, some n) ∧
      s1.key n = 4 ∧ s1.value n = 40 ∧
      skiplist_search 8 s1 4 = Except.ok (some n) ∧
      ∃ s2, skiplist_remove 8 s1 4 = Except.ok s2 ∧
        skiplist_search 8 s2 4 = Except.ok none ∧ Ring s2 0 [1, 0, 2] ∧
        s2.count = three357.count :=
  ⟨⟨three357_reachable, by decide, by decide⟩,
    round_trip cmpInt cmpInt_total three357 three357_reachable [1, 0, 2] (by decide) 4 40 2
      (by decide) (by decide) (by decide) 8 (by decide)⟩

/-- C10 as stated fails.  Starting from `skiplist_new`, the first insert of key
5 returns node 0 and the second insert of key 5 returns node 1; afterwards the
level-0 list reads node 1, then node 0: the entry inserted first comes last. -/
theorem equal_keys_insertion_order_fails :
    skiplist_insert 8 (fresh cmpInt) 5 50 1 true = Except.ok (one5, some 0) ∧
    skiplist_insert 8 one5 5 51 1 true = Except.ok (two55, some 1) ∧
    Ring two55 0 [1, 0] ∧ cmpInt (two55.key 0) (two55.key 1) = 0 :=
  ⟨insertD_eq cmpInt cmpInt_total _ (fresh_reachable cmpInt) 8 5 50 1 (by decide) (by decide)
      (by decide),
    insertD_eq cmpInt cmpInt_total _ one5_reachable 8 5 51 1 (by decide) (by decide) (by decide),
    by decide, by decide⟩

/-- C10 amended (equal keys are kept newest first).  Node handles are handed
out in increasing order (`skiplist_insert` returns the handle `s.nalloc`, above
every stored handle), so `b < a` says that `b` was inserted before `a`.  In
every reachable state and on every level, if `a` precedes `b` and their keys
compare equal then `b` was inserted before `a`; and `skiplist_insert` places
the new entry after all entries with a strictly smaller key and before all
entries with an equal or greater key. -/
theorem equal_keys_newest_first (cmp : Nat → Nat → Int) (hc : TotalPreorder cmp) (s : State)
    (hr : Reachable cmp s) (l : List Nat) (hl : Ring s 0 l) :
    (∀ i li, i < MAX_LEVEL → Ring s i li →
      li.Pairwise (fun a b => cmp (s.key a) (s.key b) = 0 → b < a) ∧ ∀ x ∈ li, x < s.nalloc) ∧
    ∀ (k v : Nat) (L : Int) (fuel : Nat), 1 ≤ L → L ≤ (MAX_LEVEL : Int) → l.length < fuel →
      ∃ s1, skiplist_insert fuel s k v L true = Except.ok (s1, some s.nalloc) ∧
        Ring s1 0 (l.filter (fun x => decide (cmp (s.key x) k < 0)) ++
          s.nalloc :: l.filter (fun x => !decide (cmp (s.key x) k < 0))) := by
  obtain ⟨hinv, hcmp⟩ := reachable_inv_ring cmp hc s hr l hl
  have hcs : TotalPreorder s.comp := by rw [hcmp]; exact hc
  constructor
  · intro i li hi hli
    rw [Ring.unique hli (hinv.rings i hi)]
    constructor
    · have := hinv.newest
      rw [hcmp] at this
      exact List.Pairwise.sublist (List.filter_sublist l) this
    · intro x hx
      exact hinv.alloc x ((mem_lev s.size i l x).1 hx).1
  · intro k v L fuel hL1 hL2 hf
    obtain ⟨s1, e1, hinv1, _⟩ := skiplist_insert_inv s l k v L fuel hcs hinv hL1 hL2 hf
    rw [insertAt_sorted s.comp s.key hcs k s.nalloc l hinv.sorted, hcmp] at hinv1
    exact ⟨s1, e1, hinv1.ring0⟩

theorem equal_keys_newest_first_witness :
    (Reachable cmpInt two55 ∧ Ring two55 0 [1, 0]) ∧
    ((∀ i li, i < MAX_LEVEL → Ring two55 i li →
      li.Pairwise (fun a b => cmpInt (two55.key a) (two55.key b) = 0 → b < a) ∧
        ∀ x ∈ li, x < two55.nalloc) ∧
    ∀ (k v : Nat) (L : Int) (fuel : Nat), 1 ≤ L → L ≤ (MAX_LEVEL : Int) →
      ([1, 0] : List Nat).length < fuel →
      ∃ s1, skiplist_insert fuel two55 k v L true = Except.ok (s1, some two55.nalloc) ∧
        Ring s1 0 (([1, 0] : List Nat).filter (fun x => decide (cmpInt (two55.key x) k < 0)) ++
          two55.nalloc :: ([1, 0] : List Nat).filter
            (fun x => !decide (cmpInt (two55.key x) k < 0)))) :=
  ⟨⟨two55_reachable, by decide⟩,
    equal_keys_newest_first cmpInt cmpInt_total two55 two55_reachable [1, 0] (by decide)⟩

/-! ## Removing an absent key -/

theorem remove_scan_walk (s : State) (k : Nat) (i : Nat) (E : Owner) :
    ∀ (Y : List Nat) (P T : Owner) (fuel : Nat),
      List.Chain' (Adj s i) (P :: (Y.map Owner.node ++ [T])) →
      (∀ y ∈ Y, s.comp (s.key y) k < 0 ∧ Owner.node y ≠ E) →
      (T = E ∨ ∃ t, T = Owner.node t ∧ 0 < s.comp (s.key t) k) →
      Y.length < fuel →
      remove_scan k i fuel s (s.next ⟨P, (i : Int)⟩) (s.next (s.next ⟨P, (i : Int)⟩))
        ⟨E, (i : Int)⟩ = Except.ok (s, ⟨T, (i : Int)⟩)
  | [], P, T, fuel, hc, _, hT, hf => by
    have e : s.next ⟨P, (i : Int)⟩ = ⟨T, (i : Int)⟩ := (List.chain'_cons.1 hc).1.1
    obtain ⟨f, rfl⟩ : ∃ f, fuel = f + 1 := ⟨fuel - 1, by simp at hf; omega⟩
    rw [e]
    unfold remove_scan
    by_cases hTE : T = E
    · simp [hTE]
    · rcases hT with h | ⟨t, rfl, ht⟩
      · exact absurd h hTE
      · have : (⟨Owner.node t, (i : Int)⟩ : Link) ≠ ⟨E, (i : Int)⟩ := link_mk_ne_owner hTE
        simp [this, list_entry_node, ht]
  | y :: Y, P, T, fuel, hc, hY, hT, hf => by
    have e : s.next ⟨P, (i : Int)⟩ = ⟨Owner.node y, (i : Int)⟩ := (List.chain'_cons.1 hc).1.1
    obtain ⟨f, rfl⟩ : ∃ f, fuel = f + 1 := ⟨fuel - 1, by simp at hf; omega⟩
    have hy := hY y (by simp)
    have hne : (⟨Owner.node y, (i : Int)⟩ : Link) ≠ ⟨E, (i : Int)⟩ := link_mk_ne_owner hy.2
    have hgt : ¬ s.comp (s.key y) k > 0 := by omega
    have heq : ¬ s.comp (s.key y) k = 0 := by omega
    rw [e]
    unfold remove_scan
    simp only [hne, if_false, list_entry_node, hgt, heq]
    exact remove_scan_walk s k i E Y (Owner.node y) T f (List.chain'_cons.1 hc).2
      (fun a ha => hY a (by simp [ha])) hT (by simp at hf; omega)

theorem remove_levels_noop (s : State) (l : List Nat) (k fuel : Nat) (hc : TotalPreorder s.comp)
    (h : Inv s l) (hk : ∀ x ∈ l, s.comp (s.key x) k ≠ 0) (hf : l.length < fuel) :
    ∀ (c : Nat), c ≤ MAX_LEVEL →
      remove_levels k fuel c s
          ⟨lastO (lev s.size c (l.filter (fun x => decide (s.comp (s.key x) k < 0)))), (c : Int) - 1⟩
          ⟨firstO (lev s.size c (l.filter (fun x => !decide (s.comp (s.key x) k < 0)))), (c : Int) - 1⟩
        = Except.ok s := by
  have hsplit := sorted_two s.comp s.key hc k l h.sorted
  generalize hA : l.filter (fun x => decide (s.comp (s.key x) k < 0)) = A at hsplit ⊢
  generalize hB : l.filter (fun x => !decide (s.comp (s.key x) k < 0)) = B at hsplit ⊢
  have hAl : ∀ a ∈ A, a ∈ l ∧ s.comp (s.key a) k < 0 := by
    intro a ha
    rw [← hA] at ha
    simpa using List.mem_filter.1 ha
  have hBl : ∀ b ∈ B, b ∈ l ∧ 0 < s.comp (s.key b) k := by
    intro b hb
    rw [← hB] at hb
    have h1 := List.mem_filter.1 hb
    have h2 := hk b h1.1
    have h3 : ¬ s.comp (s.key b) k < 0 := by simpa using h1.2
    exact ⟨h1.1, by omega⟩
  have hdis : ∀ a, a ∈ A → a ∈ B → False := by
    intro a ha hb
    have := (hAl a ha).2
    have := (hBl a hb).2
    omega
  intro c
  induction c with
  | zero => intro _; rfl
  | succ i ih =>
    intro hc32
    have hi : i < MAX_LEVEL := by omega
    have hring : Ring s i (lev s.size i A ++ lev s.size i B) := by
      have := h.rings i hi
      rwa [hsplit, lev_append] at this
    obtain ⟨U, Y, hUY, hlast, _⟩ :=
      filter_lastO_split (fun m => decide (i + 1 < s.size m)) (lev s.size i A)
    rw [← lev_succ] at hlast
    have hYA : ∀ y ∈ Y, y ∈ A := by
      intro y hy
      have : y ∈ lev s.size i A := by rw [hUY]; exact List.mem_append_right _ hy
      exact ((mem_lev s.size i A y).1 this).1
    have hseg := ring_segment s i U Y (lev s.size i B) (by rw [← hUY]; exact hring)
    have hscan := remove_scan_walk s k i (firstO (lev s.size (i + 1) B)) Y (lastO U)
      (firstO (lev s.size i B)) fuel hseg
      (by
        intro y hy
        refine ⟨(hAl y (hYA y hy)).2, ?_⟩
        intro e
        rcases firstO_mem _ _ e.symm with h1 | ⟨t, ht, h1⟩
        · cases h1
        · cases h1
          exact hdis y (hYA y hy) ((mem_lev s.size (i + 1) B y).1 ht).1)
      (by
        rw [lev_succ s.size i B]
        rcases firstO_filter (fun m => decide (i + 1 < s.size m)) (lev s.size i B) with h1 | ⟨t, ht, h1⟩
        · exact Or.inl h1
        · exact Or.inr ⟨t, h1, (hBl t ((mem_lev s.size i B t).1 ht).1).2⟩)
      (by
        have h1 : Y.length ≤ (lev s.size i A).length := by rw [hUY]; simp
        have h2 : (lev s.size i A).length ≤ A.length := List.length_filter_le _ _
        have h3 : l.length = A.length + B.length := by rw [hsplit]; exact List.length_append _ _
        omega)
    rw [hlast] at hscan
    have hprev : s.prev ⟨firstO (lev s.size i B), (i : Int)⟩ = ⟨lastO (lev s.size i A), (i : Int)⟩ :=
      (ring_adj s i _ _ hring).2
    rw [cast_succ_sub_one]
    unfold remove_levels
    simp only [hscan, hprev]
    have hdec : ∀ o : Owner, Link.dec ⟨o, (i : Int)⟩ = ⟨o, (i : Int) - 1⟩ := fun _ => rfl
    rw [hdec, hdec]
    exact ih (by omega)

theorem skiplist_remove_noop (s : State) (l : List Nat) (k fuel : Nat) (hc : TotalPreorder s.comp)
    (h : Inv s l) (hk : ∀ x ∈ l, s.comp (s.key x) k ≠ 0) (hf : l.length < fuel) :
    skiplist_remove fuel s k = Except.ok s := by
  have hcast : (s.level.toNat : Int) = s.level := Int.toNat_of_nonneg h.level_nonneg
  have hc32 : s.level.toNat ≤ MAX_LEVEL := by
    have := h.level_le
    omega
  have htop : ∀ (X : List Nat), (∀ x ∈ X, x ∈ l) → lev s.size s.level.toNat X = [] := by
    intro X hX
    unfold lev
    rw [List.filter_eq_nil_iff]
    intro a ha
    have := h.size_le_level a (hX a ha)
    simp only [decide_eq_true_eq]
    omega
  have r1 := remove_levels_noop s l k fuel hc h hk hf s.level.toNat hc32
  rw [htop _ (fun x hx => (List.mem_filter.1 hx).1), htop _ (fun x hx => (List.mem_filter.1 hx).1),
    hcast] at r1
  exact r1

/-- C11 (removing an absent key is a silent no-op).  In every reachable state
(comparator a consistent total preorder), if no stored key compares equal to
`k` then `skiplist_remove`, run with more fuel than there are entries, returns
the state it was given: nothing is freed, and the count, the level and every
link of every level are what they were. -/
theorem remove_absent_noop (cmp : Nat → Nat → Int) (hc : TotalPreorder cmp) (s : State)
    (hr : Reachable cmp s) (l : List Nat) (hl : Ring s 0 l) (k : Nat)
    (hk : ∀ x ∈ l, cmp (s.key x) k ≠ 0) (fuel : Nat) (hf : l.length < fuel) :
    skiplist_remove fuel s k = Except.ok s := by
  obtain ⟨hinv, hcmp⟩ := reachable_inv_ring cmp hc s hr l hl
  exact skiplist_remove_noop s l k fuel (by rw [hcmp]; exact hc) hinv (by rw [hcmp]; exact hk) hf

theorem remove_absent_noop_witness :
    (Reachable cmpInt three357 ∧ Ring three357 0 [1, 0, 2] ∧
      ∀ x ∈ [1, 0, 2], cmpInt (three357.key x) 4 ≠ 0) ∧
    skiplist_remove 8 three357 4 = Except.ok three357 :=
  ⟨⟨three357_reachable, by decide, by decide⟩,
    remove_absent_noop cmpInt cmpInt_total three357 three357_reachable [1, 0, 2] (by decide) 4
      (by decide) 8 (by decide)⟩

/-! ## Insert everything, remove everything -/

theorem insert_all_spec (cmp : Nat → Nat → Int) (hc : TotalPreorder cmp) (fuel : Nat) :
    ∀ (kvl : List (Nat × Nat × Int)) (s : State) (l : List Nat),
      Inv s l → s.comp = cmp → (∀ p ∈ kvl, 1 ≤ p.2.2 ∧ p.2.2 ≤ (MAX_LEVEL : Int)) →
      l.length + kvl.length ≤ fuel →
      ∃ s1 l1, insert_all fuel s kvl = Except.ok s1 ∧ Inv s1 l1 ∧ s1.comp = cmp ∧
        l1.length = l.length + kvl.length ∧
        ∀ x ∈ l1, (x ∈ l ∧ s1.key x = s.key x) ∨ s1.key x ∈ kvl.map (fun p => p.1)
  | [], s, l, hinv, hcmp, _, _ =>
    ⟨s, l, rfl, hinv, hcmp, rfl, fun x hx => Or.inl ⟨hx, rfl⟩⟩
  | (k, v, L) :: rest, s, l, hinv, hcmp, hlv, hf => by
    have hL := hlv (k, v, L) (by simp)
    simp only [List.length_cons] at hf
    obtain ⟨s1, e1, hinv1, c1, k1, _, _, _, _, _, _⟩ := skiplist_insert_inv s l k v L fuel
      (by rw [hcmp]; exact hc) hinv hL.1 hL.2 (by omega)
    rw [hcmp] at hinv1 c1
    have hnl : s.nalloc ∉ l := fun e => absurd (hinv.alloc _ e) (lt_irrefl _)
    have hkn : s1.key s.nalloc = k := by rw [k1]; simp
    have hko : ∀ x ∈ l, s1.key x = s.key x := by
      intro x hx
      have : x ≠ s.nalloc := fun e => hnl (e ▸ hx)
      rw [k1]
      simp [this]
    have hlen := length_insertAt cmp s.key k s.nalloc l
    obtain ⟨s2, l2, e2, hinv2, c2, len2, mem2⟩ := insert_all_spec cmp hc fuel rest
      s1 _ hinv1 c1 (fun p hp => hlv p (by simp [hp])) (by omega)
    refine ⟨s2, l2, ?_, hinv2, c2, ?_, ?_⟩
    · simp only [insert_all, e1]
      exact e2
    · simp only [List.length_cons]
      omega
    · intro x hx
      rcases mem2 x hx with ⟨h1, h2⟩ | h1
      · rcases (mem_insertAt _ _ _ _ _ _).1 h1 with rfl | h3
        · right
          rw [h2, hkn]
          simp
        · left
          exact ⟨h3, by rw [h2, hko x h3]⟩
      · right
        simp only [List.map_cons, List.mem_cons]
        exact Or.inr h1

theorem remove_all_spec (cmp : Nat → Nat → Int) (hc : TotalPreorder cmp) (fuel : Nat) :
    ∀ (ks : List Nat) (s : State) (l : List Nat),
      Inv s l → s.comp = cmp → l.length < fuel →
      ∃ s1, remove_all fuel s ks = Except.ok s1 ∧
        Inv s1 (l.filter (fun x => ks.all (fun k => !decide (cmp (s.key x) k = 0)))) ∧
        s1.comp = cmp ∧ s1.key = s.key
  | [], s, l, hinv, hcmp, _ => by
    refine ⟨s, rfl, ?_, hcmp, rfl⟩
    have : l.filter (fun x => ([] : List Nat).all (fun k => !decide (cmp (s.key x) k = 0))) = l := by
      rw [List.filter_eq_self]
      intro a _
      rfl
    rw [this]
    exact hinv
  | k :: ks, s, l, hinv, hcmp, hf => by
    obtain ⟨s1, e1, hinv1, c1, k1, _⟩ := skiplist_remove_inv s l k fuel (by rw [hcmp]; exact hc)
      hinv hf
    rw [hcmp] at hinv1 c1
    obtain ⟨s2, e2, hinv2, c2, k2⟩ := remove_all_spec cmp hc fuel ks s1 _ hinv1 c1
      (lt_of_le_of_lt (List.length_filter_le _ _) hf)
    refine ⟨s2, ?_, ?_, c2, by rw [k2, k1]⟩
    · simp only [remove_all, e1]
      exact e2
    · rw [List.filter_filter, k1] at hinv2
      have : l.filter (fun x => (k :: ks).all (fun k => !decide (cmp (s.key x) k = 0))) =
          l.filter (fun a => (ks.all fun k => !decide (cmp (s.key a) k = 0)) &&
            !decide (cmp (s.key a) k = 0)) := by
        apply List.filter_congr
        intro a _
        simp only [List.all_cons]
        exact Bool.and_comm _ _
      rw [this]
      exact hinv2

/-- C12 (insert-all then remove-all empties the list).  For every finite list
of keys with values and drawn levels in `1 .. MAX_LEVEL` (repeated keys
allowed), under a comparator that is a consistent total preorder: starting from
`skiplist_new`, inserting every key and then calling `skiplist_remove` once for
each key in reverse order returns, with `skiplist_size` equal to 0 and the
sentinel list of every level empty.  Fuel above the number of keys is assumed. -/
theorem insert_all_remove_all (cmp : Nat → Nat → Int) (hc : TotalPreorder cmp)
    (kvl : List (Nat × Nat × Int)) (hlv : ∀ p ∈ kvl, 1 ≤ p.2.2 ∧ p.2.2 ≤ (MAX_LEVEL : Int))
    (fuel : Nat) (hf : kvl.length < fuel) :
    ∃ s0 s1 s2, skiplist_new cmp true = some s0 ∧ insert_all fuel s0 kvl = Except.ok s1 ∧
      remove_all fuel s1 (kvl.map (fun p => p.1)).reverse = Except.ok s2 ∧
      skiplist_size s2 = 0 ∧
      ∀ i, i < MAX_LEVEL → Ring s2 i [] ∧
        __skiplist_list_empty s2 ⟨Owner.head, (i : Int)⟩ = true := by
  have h0 : skiplist_new cmp true = some (fresh cmp) := by simp [fresh]
  obtain ⟨hinv0, hcmp0, _, _⟩ := skiplist_new_inv cmp (fresh cmp) h0
  obtain ⟨s1, l1, e1, hinv1, c1, len1, mem1⟩ := insert_all_spec cmp hc fuel kvl (fresh cmp) []
    hinv0 hcmp0 hlv (by simp; omega)
  obtain ⟨s2, e2, hinv2, _, _⟩ := remove_all_spec cmp hc fuel (kvl.map (fun p => p.1)).reverse
    s1 l1 hinv1 c1 (by rw [len1]; simp; omega)
  have hnil : l1.filter (fun x => (kvl.map (fun p => p.1)).reverse.all
      (fun k => !decide (cmp (s1.key x) k = 0))) = [] := by
    rw [List.filter_eq_nil_iff]
    intro x hx
    rcases mem1 x hx with ⟨h1, _⟩ | h1
    · cases h1
    · simp only [List.all_eq_true, Bool.not_eq_true', decide_eq_false_iff_not, not_forall]
      exact ⟨s1.key x, by simpa using h1, by simp [hc.refl]⟩
  rw [hnil] at hinv2
  refine ⟨fresh cmp, s1, s2, h0, e1, e2, ?_, ?_⟩
  · show s2.count = 0
    rw [hinv2.count_eq]
    rfl
  · intro i hi
    have hr : Ring s2 i [] := by
      have := hinv2.rings i hi
      simpa [lev] using this
    refine ⟨hr, ?_⟩
    unfold __skiplist_list_empty
    rw [ring_first s2 i [] hr]
    simp [firstO]

theorem insert_all_remove_all_witness :
    (∀ p ∈ [((5 : Nat), (50 : Nat), (1 : Int)), (3, 30, 2), (5, 51, 3)],
      1 ≤ p.2.2 ∧ p.2.2 ≤ (MAX_LEVEL : Int)) ∧
    ∃ s0 s1 s2, skiplist_new cmpInt true = some s0 ∧
      insert_all 8 s0 [(5, 50, 1), (3, 30, 2), (5, 51, 3)] = Except.ok s1 ∧
      remove_all 8 s1 ([((5 : Nat), (50 : Nat), (1 : Int)), (3, 30, 2), (5, 51, 3)].map
        (fun p => p.1)).reverse = Except.ok s2 ∧
      skiplist_size s2 = 0 ∧
      ∀ i, i < MAX_LEVEL → Ring s2 i [] ∧
        __skiplist_list_empty s2 ⟨Owner.head, (i : Int)⟩ = true :=
  ⟨by decide,
    insert_all_remove_all cmpInt cmpInt_total [(5, 50, 1), (3, 30, 2), (5, 51, 3)] (by decide) 8
      (by decide)⟩

/-! ## `skiplist_free` -/

theorem free_scan_spec (nxt : Link → Link) :
    ∀ (V : List Nat) (s : State) (fuel : Nat),
      s.next = nxt →
      List.Chain' (fun a b => nxt ⟨a, 0⟩ = ⟨b, 0⟩) (V.map Owner.node ++ [Owner.head]) →
      V.Nodup → (∀ v ∈ V, v ∉ s.freed) → V.length < fuel →
      ∃ s1, free_scan fuel s ⟨firstO V, 0⟩ (nxt ⟨firstO V, 0⟩) ⟨Owner.head, 0⟩ = Except.ok s1 ∧
        s1.freed = V.reverse ++ s.freed ∧ s1.next = s.next ∧ s1.prev = s.prev ∧
        s1.key = s.key ∧ s1.value = s.value ∧ s1.size = s.size ∧ s1.level = s.level ∧
        s1.count = s.count ∧ s1.nalloc = s.nalloc ∧ s1.comp = s.comp
  | [], s, fuel, _, _, _, _, hf => by
    obtain ⟨f, rfl⟩ : ∃ f, fuel = f + 1 := ⟨fuel - 1, by simp at hf; omega⟩
    refine ⟨s, ?_, by simp, rfl, rfl, rfl, rfl, rfl, rfl, rfl, rfl, rfl⟩
    simp [free_scan, firstO]
  | v :: V, s, fuel, hn, hc, hnd, hfr, hf => by
    obtain ⟨f, rfl⟩ : ∃ f, fuel = f + 1 := ⟨fuel - 1, by simp at hf; omega⟩
    have hnext : nxt ⟨Owner.node v, 0⟩ = ⟨firstO V, 0⟩ := by
      cases V with
      | nil =>
        simp only [List.map_cons, List.map_nil, List.cons_append, List.nil_append] at hc
        exact (List.chain'_cons.1 hc).1
      | cons w V =>
        simp only [List.map_cons, List.cons_append] at hc
        exact (List.chain'_cons.1 hc).1
    have hc2 : List.Chain' (fun a b => nxt ⟨a, 0⟩ = ⟨b, 0⟩) (V.map Owner.node ++ [Owner.head]) := by
      simp only [List.map_cons, List.cons_append] at hc
      exact List.Chain'.tail hc
    have hnd2 := List.nodup_cons.1 hnd
    have hload : load_next (skipnode_free s v) ⟨firstO V, 0⟩ = Except.ok (nxt ⟨firstO V, 0⟩) := by
      unfold load_next
      cases V with
      | nil => simp [firstO, skipnode_free, hn]
      | cons w V =>
        have hw : w ∉ v :: s.freed := by
          intro e
          rcases List.mem_cons.1 e with e | e
          · exact hnd2.1 (by simp [e])
          · exact hfr w (by simp) e
        simp only [firstO]
        show (if w ∈ (skipnode_free s v).freed then _ else _) = _
        have : (skipnode_free s v).freed = v :: s.freed := rfl
        rw [this, if_neg hw]
        show Except.ok (s.next _) = _
        rw [hn]
    obtain ⟨s1, r1, r2, r3, r4, r5, r6, r7, r8, r9, r10, r11⟩ := free_scan_spec nxt V
      (skipnode_free s v) f hn hc2 hnd2.2
      (by
        intro w hw e
        rcases List.mem_cons.1 e with e | e
        · exact hnd2.1 (e ▸ hw)
        · exact hfr w (by simp [hw]) e)
      (by simp at hf; omega)
    refine ⟨s1, ?_, ?_, r3, r4, r5, r6, r7, r8, r9, r10, r11⟩
    · have hne : (⟨Owner.node v, 0⟩ : Link) ≠ ⟨Owner.head, 0⟩ := link_mk_ne_owner (by simp)
      have hle : list_entry ⟨Owner.node v, 0⟩ 0 = some v := by simp [list_entry]
      show free_scan (f + 1) s ⟨Owner.node v, 0⟩ (nxt ⟨Owner.node v, 0⟩) ⟨Owner.head, 0⟩ = _
      unfold free_scan
      simp only [hne, if_false, hle, hnext, hload]
      exact r1
    · rw [r2]
      show V.reverse ++ (v :: s.freed) = _
      simp

/-- C13 (destroy releases every node exactly once).  In every reachable state
(comparator a consistent total preorder) whose level-0 list is `l`,
`skiplist_free`, run with more fuel than there are entries, completes its pass
without reading a link of a node it has already freed; when the header is freed
the nodes freed by the pass are exactly the nodes of `l`, in list order, each
once (`l` has no repetition) and none freed earlier; every node ever allocated
has then been freed, the count of frees of the pass is `l.length`, and no key or
value has been touched. -/
theorem free_releases_each_once (cmp : Nat → Nat → Int) (hc : TotalPreorder cmp) (s : State)
    (hr : Reachable cmp s) (l : List Nat) (hl : Ring s 0 l) (fuel : Nat)
    (hf : l.length < fuel) :
    ∃ s1, skiplist_free fuel s = Except.ok s1 ∧
      s1.freed = l.reverse ++ s.freed ∧ l.Nodup ∧ (∀ x ∈ l, x ∉ s.freed) ∧
      s1.freed.length = s.freed.length + l.length ∧
      (∀ n, n < s.nalloc → n ∈ s1.freed) ∧
      s1.key = s.key ∧ s1.value = s.value := by
  obtain ⟨hinv, _⟩ := reachable_inv_ring cmp hc s hr l hl
  have hchain : List.Chain' (fun a b => s.next ⟨a, 0⟩ = ⟨b, 0⟩)
      (Owner.head :: (l.map Owner.node ++ [Owner.head])) := by
    have : List.Chain' (Adj s 0) (chainOf l) := hl
    exact List.Chain'.imp (fun a b hab => by simpa using hab.1) this
  have hfirst : s.next ⟨Owner.head, 0⟩ = ⟨firstO l, 0⟩ := by
    simpa using ring_first s 0 l hl
  obtain ⟨s1, r1, r2, _, _, r5, r6, _⟩ := free_scan_spec s.next l s fuel rfl
    (List.Chain'.tail hchain) hinv.nodup hinv.notfreed hf
  refine ⟨s1, ?_, r2, hinv.nodup, hinv.notfreed, by rw [r2]; simp; omega, ?_, r5, r6⟩
  · unfold skiplist_free
    simp only [hfirst]
    have hload : load_next s ⟨firstO l, 0⟩ = Except.ok (s.next ⟨firstO l, 0⟩) := by
      unfold load_next
      cases l with
      | nil => rfl
      | cons w l =>
        simp only [firstO]
        rw [if_neg (hinv.notfreed w (by simp))]
    rw [hload]
    exact r1
  · intro n hn
    rw [r2]
    by_cases h : n ∈ s.freed
    · exact List.mem_append_right _ h
    · exact List.mem_append_left _ (List.mem_reverse.2 (hinv.live n hn h))

theorem free_releases_each_once_witness :
    (Reachable cmpInt three357 ∧ Ring three357 0 [1, 0, 2]) ∧
    ∃ s1, skiplist_free 8 three357 = Except.ok s1 ∧
      s1.freed = ([1, 0, 2] : List Nat).reverse ++ three357.freed ∧
      ([1, 0, 2] : List Nat).Nodup ∧ (∀ x ∈ ([1, 0, 2] : List Nat), x ∉ three357.freed) ∧
      s1.freed.length = three357.freed.length + ([1, 0, 2] : List Nat).length ∧
      (∀ n, n < three357.nalloc → n ∈ s1.freed) ∧
      s1.key = three357.key ∧ s1.value = three357.value :=
  ⟨⟨three357_reachable, by decide⟩,
    free_releases_each_once cmpInt cmpInt_total three357 three357_reachable [1, 0, 2] (by decide) 8
      (by decide)⟩

/-! ## Levels -/

/-- C14 (level-tower invariant).  In every reachable state (comparator a
consistent total preorder) with level-0 list `l0`, for every level `i` with
`0 < i < MAX_LEVEL`: the list of level `i` is a sublist of the list of level
`i - 1` (same relative order), a stored node is on the list of level `i` exactly
when it was allocated with more than `i` link slots (its assigned level exceeds
`i`), and the list of level `i` is sorted. -/
theorem level_tower (cmp : Nat → Nat → Int) (hc : TotalPreorder cmp) (s : State)
    (hr : Reachable cmp s) (l0 : List Nat) (hl : Ring s 0 l0) (i : Nat) (hi0 : 0 < i)
    (hi : i < MAX_LEVEL) :
    ∃ li lj, Ring s i li ∧ Ring s (i - 1) lj ∧ li.Sublist lj ∧
      (∀ x, x ∈ li ↔ x ∈ l0 ∧ i < s.size x) ∧ SortedBy cmp s.key li := by
  obtain ⟨hinv, hcmp⟩ := reachable_inv_ring cmp hc s hr l0 hl
  refine ⟨lev s.size i l0, lev s.size (i - 1) l0, hinv.rings i hi, hinv.rings (i - 1) (by omega),
    ?_, fun x => mem_lev s.size i l0 x, ?_⟩
  · obtain ⟨j, rfl⟩ : ∃ j, i = j + 1 := ⟨i - 1, by omega⟩
    rw [lev_succ]
    exact List.filter_sublist _
  · rw [← hcmp]
    exact List.Pairwise.sublist (List.filter_sublist l0) hinv.sorted

theorem level_tower_witness :
    (Reachable cmpInt three357 ∧ Ring three357 0 [1, 0, 2]) ∧
    ∃ li lj, Ring three357 1 li ∧ Ring three357 (1 - 1) lj ∧ li.Sublist lj ∧
      (∀ x, x ∈ li ↔ x ∈ [1, 0, 2] ∧ 1 < three357.size x) ∧ SortedBy cmpInt three357.key li :=
  ⟨⟨three357_reachable, by decide⟩,
    level_tower cmpInt cmpInt_total three357 three357_reachable [1, 0, 2] (by decide) 1
      (by decide) (by decide)⟩

/-- C15 (maximum-level invariant).  In every reachable state (comparator a
consistent total preorder) whose level-0 list `l` holds at least one entry:
`list->level` is the largest number of link slots of a stored node; the list of
level `list->level - 1` is not empty and the list of every level
`j ≥ list->level` is empty; and `skiplist_remove` of any key returns a state in
which every level holds exactly the surviving nodes that have a link slot there
(each removed node was unlinked from all its levels) and, if an entry survives,
`list->level` is again the largest number of link slots of a stored node. -/
theorem level_is_max (cmp : Nat → Nat → Int) (hc : TotalPreorder cmp) (s : State)
    (hr : Reachable cmp s) (l : List Nat) (hl : Ring s 0 l) (hne : l ≠ []) :
    s.level = (maxSize s.size l : Int) ∧
      (∃ n ∈ l, (s.size n : Int) = s.level ∧ ∀ m ∈ l, s.size m ≤ s.size n) ∧
      (∃ lt, Ring s (s.level.toNat - 1) lt ∧ lt ≠ []) ∧
      (∀ j : Nat, s.level ≤ (j : Int) → j < MAX_LEVEL → Ring s j []) ∧
      ∀ (k fuel : Nat), l.length < fuel →
        ∃ s1, skiplist_remove fuel s k = Except.ok s1 ∧ s1.size = s.size ∧
          (∀ i, i < MAX_LEVEL →
            Ring s1 i (lev s.size i (l.filter (fun x => !decide (cmp (s.key x) k = 0))))) ∧
          (l.filter (fun x => !decide (cmp (s.key x) k = 0)) ≠ [] →
            s1.level =
              (maxSize s.size (l.filter (fun x => !decide (cmp (s.key x) k = 0))) : Int)) := by
  obtain ⟨hinv, hcmp⟩ := reachable_inv_ring cmp hc s hr l hl
  have hlev := hinv.level_eq hne
  obtain ⟨n, hn, hnmax⟩ := maxSize_attained s.size l hne
  have hpos := hinv.size_pos n hn
  refine ⟨hlev, ⟨n, hn, by rw [hlev, hnmax], ?_⟩, ?_, ?_, ?_⟩
  · intro m hm
    rw [hnmax]
    exact le_maxSize s.size l m hm
  · have h32 := hinv.level_le
    refine ⟨_, hinv.rings (s.level.toNat - 1) (by omega), ?_⟩
    apply List.ne_nil_of_mem (a := n)
    rw [mem_lev]
    exact ⟨hn, by omega⟩
  · intro j hj hj32
    have := hinv.rings j hj32
    rwa [hinv.lev_top j hj] at this
  · intro k fuel hf
    obtain ⟨s1, e, hinv1, _, _, hsz, _⟩ := skiplist_remove_inv s l k fuel
      (by rw [hcmp]; exact hc) hinv hf
    rw [hcmp] at hinv1
    refine ⟨s1, e, hsz, ?_, ?_⟩
    · intro i hi
      have := hinv1.rings i hi
      rwa [hsz] at this
    · intro hne1
      have := hinv1.level_eq hne1
      rwa [hsz] at this

theorem level_is_max_witness :
    (Reachable cmpInt three357 ∧ Ring three357 0 [1, 0, 2] ∧ ([1, 0, 2] : List Nat) ≠ []) ∧
    (three357.level = (maxSize three357.size [1, 0, 2] : Int) ∧
      (∃ n ∈ [1, 0, 2], (three357.size n : Int) = three357.level ∧
        ∀ m ∈ [1, 0, 2], three357.size m ≤ three357.size n) ∧
      (∃ lt, Ring three357 (three357.level.toNat - 1) lt ∧ lt ≠ []) ∧
      (∀ j : Nat, three357.level ≤ (j : Int) → j < MAX_LEVEL → Ring three357 j []) ∧
      ∀ (k fuel : Nat), ([1, 0, 2] : List Nat).length < fuel →
        ∃ s1, skiplist_remove fuel three357 k = Except.ok s1 ∧ s1.size = three357.size ∧
          (∀ i, i < MAX_LEVEL →
            Ring s1 i (lev three357.size i
              ([1, 0, 2].filter (fun x => !decide (cmpInt (three357.key x) k = 0))))) ∧
          ([1, 0, 2].filter (fun x => !decide (cmpInt (three357.key x) k = 0)) ≠ [] →
            s1.level = (maxSize three357.size
              ([1, 0, 2].filter (fun x => !decide (cmpInt (three357.key x) k = 0))) : Int))) :=
  ⟨⟨three357_reachable, by decide, by decide⟩,
    level_is_max cmpInt cmpInt_total three357 three357_reachable [1, 0, 2] (by decide)
      (by decide)⟩

theorem removeD_eq (cmp : Nat → Nat → Int) (hc : TotalPreorder cmp) (s : State)
    (hr : Reachable cmp s) (fuel k : Nat) (hf : s.count < (fuel : Int)) :
    skiplist_remove fuel s k = Except.ok (removeD fuel s k) := by
  obtain ⟨l, hinv, hcmp⟩ := reachable_inv cmp hc s hr
  obtain ⟨s1, e, _⟩ := skiplist_remove_inv s l k fuel (by rw [hcmp]; exact hc) hinv
    (by have := hinv.count_eq; omega)
  have : removeD fuel s k = s1 := by simp [removeD, e]
  rw [this]
  exact e

/-- C16 (level range) fails on the code.  Inserting key 5 into the list
`skiplist_new` returns and removing it again leaves `list->level` equal to 0:
`__skiplist_remove_node` decrements the level for the emptied level 0 as well.
The starting index `list->level - 1` of the next operation is then `-1`. -/
theorem level_zero_after_emptying :
    skiplist_insert 8 (fresh cmpInt) 5 50 1 true = Except.ok (one5, some 0) ∧
    skiplist_remove 8 one5 5 = Except.ok (removeD 8 one5 5) ∧
    Reachable cmpInt (removeD 8 one5 5) ∧
    (removeD 8 one5 5).level = 0 ∧ (removeD 8 one5 5).level - 1 = -1 :=
  ⟨insertD_eq cmpInt cmpInt_total _ (fresh_reachable cmpInt) 8 5 50 1 (by decide) (by decide)
      (by decide),
    removeD_eq cmpInt cmpInt_total _ one5_reachable 8 5 (by decide),
    reachable_removeD cmpInt cmpInt_total _ one5_reachable 8 5 (by decide),
    by decide, by decide⟩

/-- What holds of the level in every reachable state: it lies in
`0 .. MAX_LEVEL`; it is at least 1 when the list holds an entry, and on an empty
list it is 1 only if no node was ever allocated. -/
theorem level_range (cmp : Nat → Nat → Int) (hc : TotalPreorder cmp) (s : State)
    (hr : Reachable cmp s) (l : List Nat) (hl : Ring s 0 l) :
    0 ≤ s.level ∧ s.level ≤ (MAX_LEVEL : Int) ∧ (l ≠ [] → 1 ≤ s.level) ∧
      (l = [] → 0 < s.nalloc → s.level = 0) := by
  obtain ⟨hinv, _⟩ := reachable_inv_ring cmp hc s hr l hl
  refine ⟨hinv.level_nonneg, hinv.level_le, ?_, ?_⟩
  · intro hne
    obtain ⟨n, hn, e⟩ := maxSize_attained s.size l hne
    have := hinv.size_pos n hn
    rw [hinv.level_eq hne]
    omega
  · intro he hn
    rcases hinv.level_empty he with h | ⟨_, h⟩
    · exact h
    · omega

/-- C20 (insert is atomic on allocation failure) fails on the code.  On the
list holding key 5 alone (level 1), `skiplist_insert` with drawn level 3 and a
failing allocation returns `NULL` and leaves the count and the list of level 0
as they were, but `list->level` is 3: the level is raised before `skipnode_new`
is called.  A search for the stored key 5 then starts on the empty level 2 and
reads `node` unassigned. -/
theorem insert_failure_raises_level :
    skiplist_insert 8 one5 7 70 3 false = Except.ok (failedInsert 8 one5 7 70 3, none) ∧
    one5.level = 1 ∧ (failedInsert 8 one5 7 70 3).level = 3 ∧
    (failedInsert 8 one5 7 70 3).count = one5.count ∧
    Ring one5 0 [0] ∧ Ring (failedInsert 8 one5 7 70 3) 0 [0] ∧
    skiplist_search 8 one5 5 = Except.ok (some 0) ∧
    skiplist_search 8 (failedInsert 8 one5 7 70 3) 5 = Except.error Fault.uninit :=
  ⟨rfl, by decide, by decide, by decide, by decide, by decide, rfl, rfl⟩

/-- What a failed allocation leaves in general: the state with the level
raised to the drawn level when that is larger, and nothing else changed. -/
theorem insert_failure_state (fuel : Nat) (s : State) (k v : Nat) (L : Int) :
    skiplist_insert fuel s k v L false =
      Except.ok (if L > s.level then { s with level := L } else s, none) := by
  simp [skiplist_insert, skipnode_new]

/-! ## `__skiplist_random_level` -/

theorem promotes_iff (r : Nat) : promotes r = true ↔ r % 65536 ≤ 32767 := by
  have e : r &&& 0xffff = r % 65536 := Nat.and_pow_two_sub_one_eq_mod r 16
  unfold promotes
  rw [e, decide_eq_true_eq]
  constructor
  · intro h
    by_contra hc
    have h1 : 32768 ≤ r % 65536 := by omega
    have h2 : (32768 : ℚ) ≤ ((r % 65536 : Nat) : ℚ) := by exact_mod_cast h1
    linarith
  · intro h
    have h2 : ((r % 65536 : Nat) : ℚ) ≤ (32767 : ℚ) := by exact_mod_cast h
    linarith

theorem random_level_loop_spec :
    ∀ (draws : List Nat) (level : Int), (∃ r ∈ draws, promotes r = false) →
      random_level_loop level draws =
        Except.ok (level + ((draws.takeWhile promotes).length : Int))
  | [], _, h => by
    obtain ⟨r, hr, _⟩ := h
    cases hr
  | r :: rs, level, h => by
    by_cases hp : promotes r = true
    · have h2 : ∃ r ∈ rs, promotes r = false := by
        obtain ⟨x, hx, hxp⟩ := h
        rcases List.mem_cons.1 hx with rfl | hx
        · rw [hp] at hxp
          cases hxp
        · exact ⟨x, hx, hxp⟩
      simp only [random_level_loop, hp, if_true, List.takeWhile_cons, List.length_cons]
      rw [random_level_loop_spec rs (level + 1) h2]
      push_cast
      congr 1
      ring
    · simp [random_level_loop, hp, List.takeWhile_cons]

/-- C17 (random level value).  If some draw of the sequence fails the
promotion test, `__skiplist_random_level` returns `min (1 + m) MAX_LEVEL`,
where `m` is the number of leading draws that pass the test; the result lies in
`1 .. MAX_LEVEL`, and it is 1 exactly when the first draw fails the test. -/
theorem random_level_value (draws : List Nat) (h : ∃ r ∈ draws, promotes r = false) :
    ∃ L, __skiplist_random_level draws = Except.ok L ∧
      L = min (1 + ((draws.takeWhile promotes).length : Int)) (MAX_LEVEL : Int) ∧
      1 ≤ L ∧ L ≤ (MAX_LEVEL : Int) ∧
      (L = 1 ↔ ∃ r rs, draws = r :: rs ∧ promotes r = false) := by
  have hloop := random_level_loop_spec draws 1 h
  have hL : __skiplist_random_level draws =
      Except.ok (min (1 + ((draws.takeWhile promotes).length : Int)) (MAX_LEVEL : Int)) := by
    unfold __skiplist_random_level
    rw [hloop]
    simp only
    congr 1
    by_cases hgt : 1 + ((draws.takeWhile promotes).length : Int) > (MAX_LEVEL : Int)
    · rw [if_pos hgt, min_eq_right (le_of_lt hgt)]
    · rw [if_neg hgt, min_eq_left (not_lt.1 hgt)]
  refine ⟨_, hL, rfl, ?_, ?_, ?_⟩
  · have : (1 : Int) ≤ (MAX_LEVEL : Int) := by simp [MAX_LEVEL]
    exact le_min (by omega) this
  · exact min_le_right _ _
  · have h32 : ((MAX_LEVEL : Nat) : Int) = 32 := by simp [MAX_LEVEL]
    constructor
    · intro e
      have hm : (draws.takeWhile promotes).length = 0 := by
        rw [h32] at e
        rcases min_choice (1 + ((draws.takeWhile promotes).length : Int)) 32 with h1 | h1
        · rw [h1] at e
          omega
        · rw [h1] at e
          omega
      cases draws with
      | nil =>
        obtain ⟨r, hr, _⟩ := h
        cases hr
      | cons r rs =>
        refine ⟨r, rs, rfl, ?_⟩
        by_contra hp
        have hp2 : promotes r = true := by simpa using hp
        simp [List.takeWhile_cons, hp2] at hm
    · rintro ⟨r, rs, rfl, hp⟩
      simp [List.takeWhile_cons, hp, h32]

theorem random_level_value_witness :
    (∃ r ∈ [100, 20000, 40000, 7], promotes r = false) ∧
    ∃ L, __skiplist_random_level [100, 20000, 40000, 7] = Except.ok L ∧
      L = min (1 + ((([100, 20000, 40000, 7] : List Nat).takeWhile promotes).length : Int))
        (MAX_LEVEL : Int) ∧
      1 ≤ L ∧ L ≤ (MAX_LEVEL : Int) ∧
      (L = 1 ↔ ∃ r rs, [100, 20000, 40000, 7] = r :: rs ∧ promotes r = false) :=
  ⟨⟨40000, by simp, by rw [← Bool.not_eq_true, promotes_iff]; decide⟩,
    random_level_value [100, 20000, 40000, 7]
      ⟨40000, by simp, by rw [← Bool.not_eq_true, promotes_iff]; decide⟩⟩

/-- C18 (the promotion probability is one half).  The promotion test depends
only on the masked draw `r & 0xffff`; among the 65536 possible masked values it
holds exactly for `0 .. 32767`, that is for 32768 of them, and
`32768 / 65536 = 1 / 2`. -/
theorem promotion_probability_half :
    (∀ r, promotes r = promotes (r &&& 0xffff)) ∧
    (∀ v, v < 65536 → (promotes v = true ↔ v ≤ 32767)) ∧
    ((Finset.range 65536).filter (fun v => promotes v = true)).card = 32768 ∧
    ((((Finset.range 65536).filter (fun v => promotes v = true)).card : ℚ) / 65536 = 1 / 2) := by
  have h2 : ∀ v, v < 65536 → (promotes v = true ↔ v ≤ 32767) := by
    intro v hv
    rw [promotes_iff, Nat.mod_eq_of_lt hv]
  have h3 : (Finset.range 65536).filter (fun v => promotes v = true) = Finset.range 32768 := by
    ext v
    simp only [Finset.mem_filter, Finset.mem_range]
    constructor
    · rintro ⟨hv, hp⟩
      have := (h2 v hv).1 hp
      omega
    · intro hv
      exact ⟨by omega, (h2 v (by omega)).2 (by omega)⟩
  refine ⟨?_, h2, by rw [h3, Finset.card_range], by rw [h3, Finset.card_range]; norm_num⟩
  intro r
  have e : r &&& 0xffff = r % 65536 := Nat.and_pow_two_sub_one_eq_mod r 16
  have : promotes r = true ↔ promotes (r &&& 0xffff) = true := by
    rw [promotes_iff, promotes_iff, e, Nat.mod_mod]
  cases h1 : promotes r <;> cases h4 : promotes (r &&& 0xffff) <;> simp_all

/-! ## The stale equality test of `skiplist_search` -/

theorem search_scan_hit_spec (s : State) (k : Nat) (i : Nat) (E : Owner) :
    ∀ (Y : List Nat) (P T : Owner) (fuel : Nat),
      List.Chain' (Adj s i) (P :: (Y.map Owner.node ++ [T])) →
      (∀ y ∈ Y, s.comp (s.key y) k < 0 ∧ Owner.node y ≠ E) →
      (T = E ∨ ∃ t, T = Owner.node t ∧ s.comp (s.key t) k ≥ 0) →
      Y.length < fuel →
      ∃ hit, search_scan_hit s k i fuel (s.next ⟨P, (i : Int)⟩) ⟨E, (i : Int)⟩ =
          Except.ok (⟨T, (i : Int)⟩, hit) ∧
        (T ≠ E → ∃ t, T = Owner.node t ∧ hit = some t) ∧ (T = E → hit = none)
  | [], P, T, fuel, hc, _, hT, hf => by
    have e : s.next ⟨P, (i : Int)⟩ = ⟨T, (i : Int)⟩ := (List.chain'_cons.1 hc).1.1
    obtain ⟨f, rfl⟩ : ∃ f, fuel = f + 1 := ⟨fuel - 1, by simp at hf; omega⟩
    rw [e]
    unfold search_scan_hit
    by_cases hTE : T = E
    · exact ⟨none, by simp [hTE], fun h => absurd hTE h, fun _ => rfl⟩
    · rcases hT with h | ⟨t, rfl, ht⟩
      · exact absurd h hTE
      · have : (⟨Owner.node t, (i : Int)⟩ : Link) ≠ ⟨E, (i : Int)⟩ := link_mk_ne_owner hTE
        exact ⟨some t, by simp [this, list_entry_node, ht], fun _ => ⟨t, rfl, rfl⟩,
          fun h => absurd h hTE⟩
  | y :: Y, P, T, fuel, hc, hY, hT, hf => by
    have e : s.next ⟨P, (i : Int)⟩ = ⟨Owner.node y, (i : Int)⟩ := (List.chain'_cons.1 hc).1.1
    obtain ⟨f, rfl⟩ : ∃ f, fuel = f + 1 := ⟨fuel - 1, by simp at hf; omega⟩
    have hy := hY y (by simp)
    have hne : (⟨Owner.node y, (i : Int)⟩ : Link) ≠ ⟨E, (i : Int)⟩ := link_mk_ne_owner hy.2
    have hlt : ¬ s.comp (s.key y) k ≥ 0 := by omega
    obtain ⟨hit, r1, r2⟩ := search_scan_hit_spec s k i E Y (Owner.node y) T f
      (List.chain'_cons.1 hc).2 (fun a ha => hY a (by simp [ha])) hT (by simp at hf; omega)
    refine ⟨hit, ?_, r2⟩
    rw [e]
    unfold search_scan_hit
    simp only [hne, if_false, list_entry_node, hlt]
    exact r1

theorem search_levels_agree (s : State) (l : List Nat) (k fuel : Nat) (hc : TotalPreorder s.comp)
    (h : Inv s l) (hf : l.length < fuel) :
    ∀ (c : Nat) (node : Option Nat), c ≤ MAX_LEVEL →
      (∀ m, node = some m → s.comp (s.key m) k ≠ 0) →
      (node = none → lev s.size c l = [] ∧ ∀ i, c = i + 1 → lev s.size i l ≠ []) →
      ∃ r, search_levels s k fuel c
          ⟨lastO (lev s.size c (l.filter (fun x => decide (s.comp (s.key x) k < 0)))), (c : Int) - 1⟩
          ⟨firstO (lev s.size c (l.filter (fun x => !decide (s.comp (s.key x) k < 0)))), (c : Int) - 1⟩
          node = Except.ok r ∧
        search_levels_current s k fuel c
          ⟨lastO (lev s.size c (l.filter (fun x => decide (s.comp (s.key x) k < 0)))), (c : Int) - 1⟩
          ⟨firstO (lev s.size c (l.filter (fun x => !decide (s.comp (s.key x) k < 0)))), (c : Int) - 1⟩
          = Except.ok r := by
  have hsplit := sorted_two s.comp s.key hc k l h.sorted
  generalize hA : l.filter (fun x => decide (s.comp (s.key x) k < 0)) = A at hsplit ⊢
  generalize hB : l.filter (fun x => !decide (s.comp (s.key x) k < 0)) = B at hsplit ⊢
  have hAl : ∀ a ∈ A, a ∈ l ∧ s.comp (s.key a) k < 0 := by
    intro a ha
    rw [← hA] at ha
    simpa using List.mem_filter.1 ha
  have hBl : ∀ b ∈ B, b ∈ l ∧ s.comp (s.key b) k ≥ 0 := by
    intro b hb
    rw [← hB] at hb
    simpa using List.mem_filter.1 hb
  have hdis : ∀ a, a ∈ A → a ∈ B → False := by
    intro a ha hb
    have := (hAl a ha).2
    have := (hBl a hb).2
    omega
  intro c
  induction c with
  | zero =>
    intro node _ _ _
    exact ⟨none, rfl, rfl⟩
  | succ i ih =>
    intro node hc32 hnode hnn
    have hi : i < MAX_LEVEL := by omega
    have hring : Ring s i (lev s.size i A ++ lev s.size i B) := by
      have := h.rings i hi
      rwa [hsplit, lev_append] at this
    obtain ⟨U, Y, hUY, hlast, _⟩ :=
      filter_lastO_split (fun m => decide (i + 1 < s.size m)) (lev s.size i A)
    rw [← lev_succ] at hlast
    have hYA : ∀ y ∈ Y, y ∈ A := by
      intro y hy
      have : y ∈ lev s.size i A := by rw [hUY]; exact List.mem_append_right _ hy
      exact ((mem_lev s.size i A y).1 this).1
    have hseg := ring_segment s i U Y (lev s.size i B) (by rw [← hUY]; exact hring)
    have hTcases : firstO (lev s.size i B) = firstO (lev s.size (i + 1) B) ∨
        ∃ t, firstO (lev s.size i B) = Owner.node t ∧ s.comp (s.key t) k ≥ 0 := by
      rw [lev_succ s.size i B]
      rcases firstO_filter (fun m => decide (i + 1 < s.size m)) (lev s.size i B) with h1 | ⟨t, ht, h1⟩
      · exact Or.inl h1
      · exact Or.inr ⟨t, h1, (hBl t ((mem_lev s.size i B t).1 ht).1).2⟩
    have hYcond : ∀ y ∈ Y, s.comp (s.key y) k < 0 ∧
        Owner.node y ≠ firstO (lev s.size (i + 1) B) := by
      intro y hy
      refine ⟨(hAl y (hYA y hy)).2, ?_⟩
      intro e
      rcases firstO_mem _ _ e.symm with h1 | ⟨t, ht, h1⟩
      · cases h1
      · cases h1
        exact hdis y (hYA y hy) ((mem_lev s.size (i + 1) B y).1 ht).1
    have hlen : Y.length < fuel := by
      have h1 : Y.length ≤ (lev s.size i A).length := by rw [hUY]; simp
      have h2 : (lev s.size i A).length ≤ A.length := List.length_filter_le _ _
      have h3 : l.length = A.length + B.length := by rw [hsplit]; exact List.length_append _ _
      omega
    obtain ⟨node1, q1, q2, q3⟩ := search_scan_spec s k i (firstO (lev s.size (i + 1) B)) Y (lastO U)
      (firstO (lev s.size i B)) fuel node hseg hYcond hTcases hlen
    obtain ⟨hit, p1, p2, p3⟩ := search_scan_hit_spec s k i (firstO (lev s.size (i + 1) B)) Y
      (lastO U) (firstO (lev s.size i B)) fuel hseg hYcond hTcases hlen
    rw [hlast] at q1 p1
    have hprev : s.prev ⟨firstO (lev s.size i B), (i : Int)⟩ = ⟨lastO (lev s.size i A), (i : Int)⟩ :=
      (ring_adj s i _ _ hring).2
    have hdec : ∀ o : Owner, Link.dec ⟨o, (i : Int)⟩ = ⟨o, (i : Int) - 1⟩ := fun _ => rfl
    rw [cast_succ_sub_one]
    unfold search_levels search_levels_current
    simp only [q1, p1]
    by_cases hTE : firstO (lev s.size i B) = firstO (lev s.size (i + 1) B)
    · -- the scan stopped at the `end` carried down: no node found on this level
      rw [p3 hTE]
      have hstale : ∃ m, node1 = some m ∧ s.comp (s.key m) k ≠ 0 := by
        rcases q3 hTE with ⟨hY0, hn1⟩ | ⟨y, hy, hn1⟩
        · cases hnd : node with
          | some m => exact ⟨m, by rw [hn1, hnd], hnode m hnd⟩
          | none =>
            exfalso
            obtain ⟨e1, e2⟩ := hnn hnd
            rw [hsplit, lev_append] at e1
            have eA := (List.append_eq_nil.1 e1).1
            have eB := (List.append_eq_nil.1 e1).2
            rw [eA] at hlast
            have hU : U = [] := (lastO_eq_head_iff U).1 hlast
            have hiA : lev s.size i A = [] := by rw [hUY, hU, hY0]; rfl
            have hiB : lev s.size i B = [] := by
              rw [eB] at hTE
              exact (firstO_eq_head_iff _).1 hTE
            apply e2 i rfl
            rw [hsplit, lev_append, hiA, hiB]
            rfl
        · refine ⟨y, hn1, ?_⟩
          have := (hAl y (hYA y hy)).2
          omega
      obtain ⟨m, hm1, hm2⟩ := hstale
      simp only [hm1, hm2, if_false, hprev]
      rw [hdec, hdec]
      exact ih (some m) (by omega) (fun m' e => by cases e; exact hm2) (fun e => by cases e)
    · obtain ⟨t, ht, hn1⟩ := q2 hTE
      obtain ⟨t', ht', hh1⟩ := p2 hTE
      have htt : t' = t := by
        rw [ht] at ht'
        cases ht'
        rfl
      subst htt
      simp only [hn1, hh1]
      by_cases heq : s.comp (s.key t') k = 0
      · simp only [heq, if_true]
        exact ⟨some t', rfl, rfl⟩
      · simp only [heq, if_false, hprev]
        rw [hdec, hdec]
        exact ih (some t') (by omega) (fun m' e => by cases e; exact heq) (fun e => by cases e)

/-- C19 (the stale equality test never changes the result).  In every
reachable state (comparator a consistent total preorder) whose level-0 list
holds at least one entry, and for every key `k`: `skiplist_search`, run with
more fuel than there are entries, returns a result `r` (so `node` was assigned
whenever the test `comp(node->key, k) == 0` read it), and the variant that
tests equality only against a node found on the current level with key `≥ k`
returns the same `r`. -/
theorem stale_test_harmless (cmp : Nat → Nat → Int) (hc : TotalPreorder cmp) (s : State)
    (hr : Reachable cmp s) (l : List Nat) (hl : Ring s 0 l) (hne : l ≠ []) (k fuel : Nat)
    (hf : l.length < fuel) :
    ∃ r, skiplist_search fuel s k = Except.ok r ∧
      skiplist_search_current fuel s k = Except.ok r := by
  obtain ⟨h, hcmp⟩ := reachable_inv_ring cmp hc s hr l hl
  have hcs : TotalPreorder s.comp := by rw [hcmp]; exact hc
  have hcast : (s.level.toNat : Int) = s.level := Int.toNat_of_nonneg h.level_nonneg
  have hc32 : s.level.toNat ≤ MAX_LEVEL := by
    have := h.level_le
    omega
  have htop : ∀ (X : List Nat), (∀ x ∈ X, x ∈ l) → lev s.size s.level.toNat X = [] := by
    intro X hX
    unfold lev
    rw [List.filter_eq_nil_iff]
    intro a ha
    have := h.size_le_level a (hX a ha)
    simp only [decide_eq_true_eq]
    omega
  have hA0 := htop (l.filter (fun x => decide (s.comp (s.key x) k < 0)))
    (fun x hx => (List.mem_filter.1 hx).1)
  have hB0 := htop (l.filter (fun x => !decide (s.comp (s.key x) k < 0)))
    (fun x hx => (List.mem_filter.1 hx).1)
  obtain ⟨r, r1, r2⟩ := search_levels_agree s l k fuel hcs h hf s.level.toNat none hc32
    (fun m e => by cases e)
    (by
      intro _
      refine ⟨htop l (fun _ hx => hx), ?_⟩
      intro i hi
      obtain ⟨n, hn, e⟩ := maxSize_attained s.size l hne
      have hlv := h.level_eq hne
      intro hnil
      have := (lev_eq_nil_iff s.size l i).1 hnil
      omega)
  rw [hA0, hB0, hcast] at r1 r2
  exact ⟨r, r1, r2⟩

theorem stale_test_harmless_witness :
    (Reachable cmpInt three357 ∧ Ring three357 0 [1, 0, 2] ∧ ([1, 0, 2] : List Nat) ≠ []) ∧
    ∃ r, skiplist_search 8 three357 7 = Except.ok r ∧
      skiplist_search_current 8 three357 7 = Except.ok r :=
  ⟨⟨three357_reachable, by decide, by decide⟩,
    stale_test_harmless cmpInt cmpInt_total three357 three357_reachable [1, 0, 2] (by decide)
      (by decide) 7 8 (by decide)⟩

end Skiplist
